import Mathlib

/-!
# Recipe text parsing and cooking-session state of the recipe application

A shallow embedding of the parsing helpers and of the session logic found in
`src/pages/CookingPage.jsx`, `src/pages/SavedRecipesPage.jsx` and
`src/pages/CookHistoryPage.jsx`.

Conventions of the embedding

* A JavaScript string is a `List Char` (`Str`); strings are well-formed
  UTF-16.  Every character that the regular expressions of the source mention
  lies in the Basic Multilingual Plane, so one `Char` stands for one UTF-16
  code unit at every position where a match can begin or end.
* A regular expression literal of the source is a term of type `Re`, written
  piece by piece as in the source; `Re.run` is the backtracking matcher and
  lists the possible remainders of the input in the order in which a
  backtracking engine tries them.
* `localStorage` is a map from keys to serialized values; a value that
  `JSON.stringify` produced from a progress record is kept as that record.
* A React effect is a function on the component state and on the world around
  it; it runs after a render in which one of its dependencies has changed.
-/

namespace Recipe

/-- A JavaScript string, as the list of its characters. -/
abbrev Str := List Char

/-! ## Character classes -/

/-- The class `\s` of a JavaScript regular expression, which is also the set
of characters removed by `String.prototype.trim`: the WhiteSpace and
LineTerminator code points. -/
def isSpace (c : Char) : Bool :=
  let n := c.toNat
  n == 9 || n == 10 || n == 11 || n == 12 || n == 13 || n == 32 || n == 0xA0 ||
  n == 0x1680 || (0x2000 ≤ n && n ≤ 0x200A) || n == 0x2028 || n == 0x2029 ||
  n == 0x202F || n == 0x205F || n == 0x3000 || n == 0xFEFF

/-- The class `\d`: the ten ASCII digits. -/
def isDigit (c : Char) : Bool :=
  48 ≤ c.toNat && c.toNat ≤ 57

/-- The class `.` (without the `s` flag): every character but the four line
terminators. -/
def isDot (c : Char) : Bool :=
  let n := c.toNat
  !(n == 10 || n == 13 || n == 0x2028 || n == 0x2029)

/-- The class `[\s\S]`: every character. -/
def isAny (_ : Char) : Bool := true

/-- The `Canonicalize` operation of a regular expression with the `i` flag
and without the `u` flag, on the characters that matter for the patterns of
the source: an ASCII or Latin-1 lower-case letter becomes its upper-case
letter, every other character is left alone.  (`ß` and `ÿ` have no single
Latin-1 upper-case letter, and no character outside ASCII canonicalizes to an
ASCII letter.) -/
def canon (c : Char) : Nat :=
  let n := c.toNat
  if 97 ≤ n ∧ n ≤ 122 then n - 32
  else if 0xE0 ≤ n ∧ n ≤ 0xFE ∧ n ≠ 0xF7 then n - 32
  else n

/-- A pattern character under the `i` flag. -/
def ci (p : Char) (c : Char) : Bool := canon c == canon p

/-- A pattern character without the `i` flag. -/
def cs (p : Char) (c : Char) : Bool := c == p

/-! ## Backtracking regular expressions -/

/-- The regular expression constructs used by the source. -/
inductive Re where
  | eps : Re
  | eoi : Re
  | chr (p : Char → Bool) : Re
  | seq (a b : Re) : Re
  | alt (a b : Re) : Re
  | opt (a : Re) : Re
  | star (p : Char → Bool) : Re
  | lazyStar (p : Char → Bool) : Re
  | look (a : Re) : Re

/-- Greedy `c*` over a character class: the longest run is tried first. -/
def starRun (p : Char → Bool) : Str → List Str
  | [] => [[]]
  | c :: s => if p c then starRun p s ++ [c :: s] else [c :: s]

/-- Lazy `c*?` over a character class: the shortest run is tried first. -/
def lazyRun (p : Char → Bool) : Str → List Str
  | [] => [[]]
  | c :: s => (c :: s) :: (if p c then lazyRun p s else [])

/-- The backtracking matcher: `r.run s` lists, in the order a backtracking
engine tries them, the remainders of `s` after a match of `r` at the start of
`s`.  `eoi` is `$` (no `m` flag) and `look` is a lookahead `(?=...)`. -/
def Re.run : Re → Str → List Str
  | .eps, s => [s]
  | .eoi, s => match s with
    | [] => [[]]
    | _ :: _ => []
  | .chr p, s => match s with
    | [] => []
    | c :: r => if p c then [r] else []
  | .seq a b, s => (a.run s).flatMap fun r => b.run r
  | .alt a b, s => a.run s ++ b.run s
  | .opt a, s => a.run s ++ [s]
  | .star p, s => starRun p s
  | .lazyStar p, s => lazyRun p s
  | .look a, s => match a.run s with
    | [] => []
    | _ :: _ => [s]

/-- A literal, matched character by character; `f` is `ci` under the `i` flag
and `cs` otherwise. -/
def Re.lit (f : Char → Char → Bool) : Str → Re
  | [] => .eps
  | c :: p => .seq (.chr (f c)) (Re.lit f p)

/-- A sequence of regular expressions. -/
def Re.seqs : List Re → Re
  | [] => .eps
  | r :: rs => .seq r (Re.seqs rs)

/-- The quantifier `+` over a character class (greedy). -/
def Re.plus (p : Char → Bool) : Re := .seq (.chr p) (.star p)

/-- The first match of `r` at the start of `s`: the remainder of the input. -/
def matchAt (r : Re) (s : Str) : Option Str := (r.run s).head?

/-- The texts that the capture group of `(g)b` can take when it starts at
`r1`, in the order in which a backtracking engine tries them. -/
def capturesFrom (g b : Re) (r1 : Str) : List Str :=
  (g.run r1).flatMap fun r2 => (b.run r2).map fun _ => r1.take (r1.length - r2.length)

/-- The first match of `a(g)b` at the start of `s`: the text of the capture
group `g`. -/
def captureAt (a g b : Re) (s : Str) : Option Str :=
  ((a.run s).flatMap fun r1 => capturesFrom g b r1).head?

/-- The leftmost start position at which `f` succeeds, every position from 0
to the length of the input being tried in turn. -/
def search {α : Type} (f : Str → Option α) : Str → Option α
  | [] => f []
  | c :: s => match f (c :: s) with
    | some a => some a
    | none => search f s

/-- The capture group 1 of `s.match(/a(g)b/)`, or `none` when `match` returns
`null`. -/
def jsMatch1 (a g b : Re) (s : Str) : Option Str := search (captureAt a g b) s

/-! ## String methods -/

/-- `String.prototype.trim`. -/
def trim (s : Str) : Str :=
  ((s.dropWhile isSpace).reverse.dropWhile isSpace).reverse

/-- The method call `s.split('\n')`. -/
def splitLines : Str → List Str
  | [] => [[]]
  | c :: s =>
    if c = '\n' then [] :: splitLines s
    else match splitLines s with
      | [] => [[c]]
      | l :: ls => (c :: l) :: ls

/-- The method call `s.startsWith('*')`. -/
def startsWithStar : Str → Bool
  | c :: _ => c == '*'
  | [] => false

/-- The call `s.replace(/^r/, '')` for a pattern anchored at the start of the
input: the first match is removed, and `s` is returned as it is when there is
none. -/
def replaceAtStart (r : Re) (s : Str) : Str :=
  match matchAt r s with
  | some rest => rest
  | none => s

/-- The test `s.match(/^r/)` for a pattern anchored at the start. -/
def testAtStart (r : Re) (s : Str) : Bool := (matchAt r s).isSome

/-- The call `s.split(m)` cut at the first match of `m`: the text before the
leftmost match and the text after it, when there is a match. -/
def splitFirst (m : Re) : Str → Option (Str × Str)
  | [] => none
  | c :: s => match matchAt m (c :: s) with
    | some rest => some ([], rest)
    | none => match splitFirst m s with
      | some (p, r) => some (c :: p, r)
      | none => none

/-- The pieces of `s.split(m)`, the first `n` matches being cut out. -/
def jsSplitAux (m : Re) : Nat → Str → List Str
  | 0, s => [s]
  | n + 1, s => match splitFirst m s with
    | none => [s]
    | some (p, r) => p :: jsSplitAux m n r

/-- The call `s.split(m)` for a pattern `m` without capture groups that never
matches the empty string (every pattern the source splits on begins with
`**Hindi Translation`): the input is cut at every match, from left to right,
a match being looked for again right after the previous one.  There are at
most `s.length` matches. -/
def jsSplit (m : Re) (s : Str) : List Str := jsSplitAux m s.length s

/-! ## The patterns of the source -/

/-- The pattern `/\*\*Hindi Translation\*\*/i` of the parse effect of
`CookingPage.jsx`. -/
def markerPlain : Re := Re.lit ci "**Hindi Translation**".toList

/-- The pattern `/[*]{2}Hindi Translation[:：]?[*]{2}/i` of `extractTitle`
(`CookingPage.jsx`, `SavedRecipesPage.jsx`) and of `getLanguageContent` and
`extractSections` (`SavedRecipesPage.jsx`). -/
def markerColon : Re :=
  Re.seqs [Re.lit ci "**".toList, Re.lit ci "Hindi Translation".toList,
    .opt (.chr fun c => ci ':' c || ci '：' c), Re.lit ci "**".toList]

/-- The pattern `/[*]{2}Hindi Translation[:Ôºö]?[*]{2}/i` of
`CookHistoryPage.jsx`, whose character class holds `:`, `Ô`, `º` and `ö`. -/
def markerHistory : Re :=
  Re.seqs [Re.lit ci "**".toList, Re.lit ci "Hindi Translation".toList,
    .opt (.chr fun c => ci ':' c || ci 'Ô' c || ci 'º' c || ci 'ö' c),
    Re.lit ci "**".toList]

/-- The part of the ingredients pattern of `CookingPage.jsx` before its capture group,
`\*\*(?:Ingredients|सामग्री):\*\*\s*\n\*` with the `i` flag. -/
def cookingIngredientsHead : Re :=
  Re.seqs [Re.lit ci "**".toList,
    .alt (Re.lit ci "Ingredients".toList) (Re.lit ci "सामग्री".toList),
    Re.lit ci ":**".toList, .star isSpace, .chr (ci '\n'), .chr (ci '*')]

/-- The lookahead that ends the ingredients block in `CookingPage.jsx`,
`(?=\*\*(?:Instructions|निर्देश):\*\*|\*\*Approximate|$)` with the `i` flag. -/
def cookingIngredientsEnd : Re :=
  .look (.alt
    (Re.seqs [Re.lit ci "**".toList,
      .alt (Re.lit ci "Instructions".toList) (Re.lit ci "निर्देश".toList),
      Re.lit ci ":**".toList])
    (.alt (Re.lit ci "**Approximate".toList) .eoi))

/-- The part of the instructions pattern before its capture group,
`\*\*(?:Instructions|निर्देश):\*\*\s*\n` with the `i` flag (`CookingPage.jsx`). -/
def instructionsHead : Re :=
  Re.seqs [Re.lit ci "**".toList,
    .alt (Re.lit ci "Instructions".toList) (Re.lit ci "निर्देश".toList),
    Re.lit ci ":**".toList, .star isSpace, .chr (ci '\n')]

/-- The same part in `getInstructions` of `CookHistoryPage.jsx`, where the
Hindi heading is written `‡§®‡§ø‡§∞‡•ç‡§¶‡•á‡§∂`. -/
def historyInstructionsHead : Re :=
  Re.seqs [Re.lit ci "**".toList,
    .alt (Re.lit ci "Instructions".toList)
      (Re.lit ci "‡§®‡§ø‡§∞‡•ç‡§¶‡•á‡§∂".toList),
    Re.lit ci ":**".toList, .star isSpace, .chr (ci '\n')]

/-- The lookahead that ends the instructions block, `(?=\*\*Approximate|$)`
with the `i` flag. -/
def instructionsEnd : Re :=
  .look (.alt (Re.lit ci "**Approximate".toList) .eoi)

/-- The pattern `\*\s*` of `replace(/^\*\s*/, '')`. -/
def bulletPrefix : Re := .seq (.chr (cs '*')) (.star isSpace)

/-- The pattern `\d+\.` of `match(/^\d+\./)`. -/
def numberDot : Re := .seq (Re.plus isDigit) (.chr (cs '.'))

/-- The pattern `\d+\.\s*` of `replace(/^\d+\.\s*/, '')`. -/
def numberPrefix : Re := Re.seqs [Re.plus isDigit, .chr (cs '.'), .star isSpace]

/-! ## The parse effect of `CookingPage.jsx` -/

/-- The text the parse effect works on: `sections[0]`, or `sections[1] || ''`
when the language is `hi` (`CookingPage.jsx`, lines 105-109). -/
def cookingContentToUse (content lang : Str) : Str :=
  let sections := jsSplit markerPlain content
  let englishContent := sections.headD []
  let hindiContent := (sections.get? 1).getD []
  if lang = "hi".toList then hindiContent else englishContent

/-- The list `ingredientsList` of the parse effect (lines 112-117), or `none`
when `ingredientsMatch` is `null`. -/
def cookingIngredients (contentToUse : Str) : Option (List Str) :=
  (jsMatch1 cookingIngredientsHead (.lazyStar isAny) cookingIngredientsEnd contentToUse).map
    fun block =>
      ((splitLines block).filter fun line => startsWithStar (trim line)).map
        fun line => trim (replaceAtStart bulletPrefix (trim line))

/-- The steps read off a matched instructions block: the lines of the block
whose trimmed text starts with `\d+\.`, each trimmed and without that prefix
(`CookingPage.jsx` lines 124-127, `CookHistoryPage.jsx` lines 95-98). -/
def stepLines (block : Str) : List Str :=
  ((splitLines block).filter fun line => testAtStart numberDot (trim line)).map
    fun line => trim (replaceAtStart numberPrefix (trim line))

/-- The list `instructionsList` of the parse effect (lines 122-127), or `none`
when `instructionsMatch` is `null`. -/
def cookingInstructions (contentToUse : Str) : Option (List Str) :=
  (jsMatch1 instructionsHead (.lazyStar isAny) instructionsEnd contentToUse).map stepLines

/-- The function `getInstructions` of `CookHistoryPage.jsx` (lines 90-101). -/
def getInstructions (content lang : Str) : List Str :=
  let parts := jsSplit markerHistory content
  let contentToUse := if lang = "hi".toList then (parts.get? 1).getD [] else parts.headD []
  match jsMatch1 historyInstructionsHead (.lazyStar isAny) instructionsEnd contentToUse with
  | some block => stepLines block
  | none => []

/-- The recipe document of the end-to-end scenario. -/
def tomatoSoup : Str :=
  "**Name:** Tomato Soup\n**Ingredients:**\n* Tomato\n* Salt\n**Instructions:**\n1. Boil for 5 minutes\n2. Serve hot".toList

/-! ## Titles -/

/-- The pattern `\*\*Name:\*\*\s*` that precedes the capture group of
`/^\*\*Name:\*\*\s*(.+)$/` (no `i` flag). -/
def nameHead : Re := .seq (Re.lit cs "**Name:**".toList) (.star isSpace)

/-- The pattern `\*\*नाम:\*\*\s*` that precedes the capture group of
`/^\*\*नाम:\*\*\s*(.+)$/` (no `i` flag). -/
def nameHeadHindi : Re := .seq (Re.lit cs "**नाम:**".toList) (.star isSpace)

/-- The code of a character inside `line.toLowerCase()`, as far as the search
for the ASCII word `translation` can tell: an ASCII capital becomes its small
letter.  (The only other characters whose lower case holds an ASCII letter are
`İ`, which becomes `i` followed by a combining dot, and the Kelvin sign, which
becomes `k`; neither can complete the word `translation`.) -/
def lowerCode (c : Char) : Nat :=
  if 65 ≤ c.toNat ∧ c.toNat ≤ 90 then c.toNat + 32 else c.toNat

/-- The method call `s.includes(word)` on lists of character codes. -/
def includes (word : List Nat) : List Nat → Bool
  | [] => word.isPrefixOf []
  | c :: s => word.isPrefixOf (c :: s) || includes word s

/-- The test `line.toLowerCase().includes('translation')`. -/
def mentionsTranslation (line : Str) : Bool :=
  includes ("translation".toList.map Char.toNat) (line.map lowerCode)

/-- The filter of `extractTitle`: the line is non-empty and does not mention
`translation`. -/
def keepLine (line : Str) : Bool := !line.isEmpty && !mentionsTranslation line

/-- The loop of `extractTitle` over the kept lines: the first line that the
name pattern matches gives the title. -/
def firstTitle (head : Re) : List Str → Option Str
  | [] => none
  | line :: rest =>
    match captureAt head (Re.plus isDot) .eoi line with
    | some v => some (trim v)
    | none => firstTitle head rest

/-- The body of `extractTitle` once `text` is chosen: `none` stands for
`undefined`. -/
def titleOfText (text : Option Str) (lang : Str) : Str :=
  match text with
  | none => "Untitled Recipe".toList
  | some [] => "Untitled Recipe".toList
  | some (c :: t) =>
    let lines := ((splitLines (c :: t)).map trim).filter keepLine
    let head := if lang = "hi".toList then nameHeadHindi else nameHead
    (firstTitle head lines).getD "Untitled Recipe".toList

/-- The text of the language variant that `extractTitle` and `extractSections`
work on: `parts[1]` for `hi` and `parts[0]` otherwise, where `parts` is
`content.split(/[*]{2}Hindi Translation[:：]?[*]{2}/i)`; `none` is `undefined`. -/
def languageVariant (content lang : Str) : Option Str :=
  let parts := jsSplit markerColon content
  if lang = "hi".toList then parts.get? 1 else parts.head?

/-- The function `extractTitle` of `CookingPage.jsx` (lines 348-367) and of
`SavedRecipesPage.jsx` (lines 111-128), which are the same text. -/
def extractTitle (content lang : Str) : Str :=
  titleOfText (languageVariant content lang) lang

/-- The function `getLanguageContent` of `SavedRecipesPage.jsx` (lines
104-109), applied to `recipe.content`. -/
def getLanguageContent (content lang : Str) : Str :=
  let parts := jsSplit markerColon content
  if lang = "hi".toList then
    match (parts.get? 1).map trim with
    | some (c :: t) => c :: t
    | _ => "❌ Hindi version not available.".toList
  else trim (parts.headD [])

/-! ## Durations -/

/-- A JavaScript number that holds a non-negative integer or `Infinity`. -/
inductive JSNumber where
  | finite (n : Nat) : JSNumber
  | infinity : JSNumber
  deriving DecidableEq, Repr

/-- The number of low bits of `n` that do not fit in a 53-bit significand:
the least `e` with `n / 2 ^ e < 2 ^ 53`.  The first argument bounds the
number of halvings and `n` itself is always enough. -/
def excessBits : Nat → Nat → Nat
  | 0, _ => 0
  | fuel + 1, n => if n < 2 ^ 53 then 0 else excessBits fuel (n / 2) + 1

/-- The Number value of a natural number: the nearest binary64 value, a tie
going to the even significand, and `Infinity` above the largest finite value
`(2 ^ 53 - 1) * 2 ^ 971`. -/
def roundToDouble (n : Nat) : JSNumber :=
  let e := excessBits n n
  let q := n / 2 ^ e
  let r := n % 2 ^ e
  let q1 := if 2 ^ e < 2 * r ∨ (2 * r = 2 ^ e ∧ q % 2 = 1) then q + 1 else q
  if e < 971 ∨ (e = 971 ∧ q1 < 2 ^ 53) then .finite (q1 * 2 ^ e) else .infinity

/-- The integer that a string of decimal digits writes. -/
def decimalValue (d : Str) : Nat :=
  d.foldl (fun acc c => 10 * acc + (c.toNat - 48)) 0

/-- The call `parseInt(d)` on a non-empty string of decimal digits: the
Number value of the integer the digits write (radix 10, no sign, no prefix;
the digits are converted exactly before rounding). -/
def parseInt (d : Str) : JSNumber := roundToDouble (decimalValue d)

/-- The part of the pattern of `extractTimeFromStep` after its capture group,
`\s*(?:minutes?|mins?|मिनट)` with the `i` flag. -/
def timeTail : Re :=
  .seq (.star isSpace)
    (.alt (.seq (Re.lit ci "minute".toList) (.opt (.chr (ci 's'))))
      (.alt (.seq (Re.lit ci "min".toList) (.opt (.chr (ci 's'))))
        (Re.lit ci "मिनट".toList)))

/-- The function `extractTimeFromStep` of `CookingPage.jsx` (lines 199-202),
with the pattern `/(\d+)\s*(?:minutes?|mins?|मिनट)/i`; `none` is `null`. -/
def extractTimeFromStep (step : Str) : Option JSNumber :=
  (jsMatch1 .eps (Re.plus isDigit) timeTail step).map parseInt

/-! ## The cooking session of `CookingPage.jsx` -/

/-- A recipe object: its `title`, its `content` and, when it comes from the
backend, its `_id`. -/
structure RecipeData where
  title : Str
  content : Str
  id : Option Str
  deriving DecidableEq

/-- A progress record as it is serialized into `localStorage`.  The fields
`lastLeftAt` and `completed` are absent from some of the records the
application writes. -/
structure Progress where
  recipe : RecipeData
  currentStep : Int
  lang : Str
  lastLeftAt : Option Str
  completed : Option Bool
  deriving DecidableEq

/-- The content of `localStorage`: the progress record stored under a key, if
there is one. -/
abbrev Storage := Str → Option Progress

/-- The call `localStorage.setItem(key, JSON.stringify(value))`. -/
def Storage.setItem (st : Storage) (key : Str) (value : Progress) : Storage :=
  fun k => if k = key then some value else st k

/-- The state of the `CookingPage` component that the session logic uses. -/
structure Session where
  recipe : Option RecipeData
  currentStep : Int
  lang : Str
  ingredients : List Str
  instructions : List Str
  deriving DecidableEq

/-- What the component acts on outside its own state: `localStorage`, the
list of `setItem` calls made so far (latest first) and the list of completion
requests sent to the backend (latest first), each with the recipe `_id` and
the `currentStep` it carries. -/
structure World where
  storage : Storage
  writes : List (Str × Progress)
  patches : List (Option Str × Int)

/-- A `setItem` call, recorded in the list of writes. -/
def World.setItem (w : World) (key : Str) (value : Progress) : World :=
  { w with storage := w.storage.setItem key value, writes := (key, value) :: w.writes }

/-- The replacement `title.replace(/\s+/g, '_')`: the flag tells whether the
previous character belonged to the run of whitespace being replaced. -/
def replaceSpaces : Bool → Str → Str
  | _, [] => []
  | inRun, c :: s =>
    if isSpace c then
      if inRun then replaceSpaces true s else '_' :: replaceSpaces true s
    else c :: replaceSpaces false s

/-- The recipe key `recipe.title.replace(/\s+/g, '_')`. -/
def recipeKey (title : Str) : Str := replaceSpaces false title

/-- The key `'cookingProgress'` of the current-session slot. -/
def currentKey : Str := "cookingProgress".toList

/-- The key of the archive slot of a recipe, `cookingProgress_` followed by
the recipe key. -/
def archiveKey (title : Str) : Str := "cookingProgress_".toList ++ recipeKey title

/-- The save effect of `CookingPage.jsx` (lines 64-100); `now` is the value of
`new Date().toISOString()`. -/
def saveEffect (now : Str) (s : Session) (w : World) : World :=
  match s.recipe with
  | none => w
  | some recipe =>
    if 0 < s.instructions.length then
      let progressData : Progress :=
        { recipe := recipe, currentStep := s.currentStep, lang := s.lang,
          lastLeftAt := some now, completed := none }
      let w1 := w.setItem currentKey progressData
      if s.currentStep = (s.instructions.length : Int) - 1 then
        let w2 := w1.setItem (archiveKey recipe.title) { progressData with completed := some true }
        { w2 with patches := (recipe.id, s.currentStep) :: w2.patches }
      else
        w1.setItem (archiveKey recipe.title) progressData
    else w

/-- The parse effect of `CookingPage.jsx` (lines 103-131): each list is set
only when its pattern matches. -/
def parseEffect (s : Session) : Session :=
  match s.recipe with
  | none => s
  | some recipe =>
    let contentToUse := cookingContentToUse recipe.content s.lang
    let s1 := match cookingIngredients contentToUse with
      | some l => { s with ingredients := l }
      | none => s
    match cookingInstructions contentToUse with
    | some l => { s1 with instructions := l }
    | none => s1

/-- The navigation state handed to the page, `location.state`. -/
structure NavState where
  recipe : Option RecipeData
  lang : Option Str

/-- The load effect of `CookingPage.jsx` (lines 43-61).  With neither a stored
record nor a recipe in the navigation state the page navigates away and the
state is left as it is. -/
def loadEffect (st : Storage) (nav : Option NavState) (s : Session) : Session :=
  match st currentKey with
  | some p => { s with recipe := some p.recipe, currentStep := p.currentStep, lang := p.lang }
  | none =>
    match nav.bind fun n => n.recipe with
    | some r =>
      let language := match nav.bind fun n => n.lang with
        | some (c :: l) => c :: l
        | _ => "en".toList
      { s with recipe := some r, lang := language }
    | none => s

/-- The state of the component at its first render. -/
def initialSession : Session :=
  { recipe := none, currentStep := 0, lang := "en".toList, ingredients := [], instructions := [] }

/-- The mount of the page.  The load effect sets the recipe, the step and the
language; at the next render the save effect finds no instructions yet and the
parse effect fills the lists; at the render after that the save effect runs
on the parsed session.  This describes a mount whose last render succeeds,
that is one with `renderThrows` false on the parsed session: a render that
throws runs no effect and leaves no page. -/
def mount (now : Str) (nav : Option NavState) (w : World) : Session × World :=
  let s1 := loadEffect w.storage nav initialSession
  let w1 := saveEffect now s1 w
  let s2 := parseEffect s1
  (s2, saveEffect now s2 w1)

/-- Whether the render of the page throws (lines 406-420).  Without a recipe
or with an empty instruction list the page renders a message.  Otherwise it
reads `instructions[currentStep]` and hands it to `extractTimeFromStep`, whose
call `step.match` throws a TypeError when the value is `undefined`, that is
when `currentStep` is not an index of the list. -/
def renderThrows (s : Session) : Bool :=
  s.recipe.isSome && !s.instructions.isEmpty &&
    !(decide (0 ≤ s.currentStep) && decide (s.currentStep < (s.instructions.length : Int)))

/-- The handler `nextStep` (lines 187-191). -/
def nextStep (s : Session) : Session :=
  if s.currentStep < (s.instructions.length : Int) - 1 then
    { s with currentStep := s.currentStep + 1 }
  else s

/-- The handler `prevStep` (lines 193-197). -/
def prevStep (s : Session) : Session :=
  if s.currentStep > 0 then { s with currentStep := s.currentStep - 1 } else s

/-- A click handled by `handler`, followed by the render it causes: the save
effect runs when one of its dependencies `recipe`, `currentStep`, `lang`,
`instructions` differs from the previous render, and nothing runs when the
handler sets no state. -/
def click (now : Str) (handler : Session → Session) (sw : Session × World) : Session × World :=
  let s1 := handler sw.1
  if s1.recipe = sw.1.recipe ∧ s1.currentStep = sw.1.currentStep ∧ s1.lang = sw.1.lang ∧
      s1.instructions = sw.1.instructions then (s1, sw.2)
  else (s1, saveEffect now s1 sw.2)

/-- The two step buttons. -/
inductive StepButton where
  | next : StepButton
  | prev : StepButton

/-- The handler behind a step button. -/
def StepButton.handler : StepButton → Session → Session
  | .next => nextStep
  | .prev => prevStep

/-! ## Sections in `SavedRecipesPage.jsx` -/

/-- The part of the ingredients pattern of `extractSections` before its
capture group, `\*\*(?:Ingredients|सामग्री):\*\*\s*\n` with the `i` flag. -/
def ingredientsHead : Re :=
  Re.seqs [Re.lit ci "**".toList,
    .alt (Re.lit ci "Ingredients".toList) (Re.lit ci "सामग्री".toList),
    Re.lit ci ":**".toList, .star isSpace, .chr (ci '\n')]

/-- The lookahead that ends the ingredients block of `extractSections`,
`(?=\*\*(?:Instructions|निर्देश):\*\*|$)` with the `i` flag. -/
def ingredientsEnd : Re :=
  .look (.alt
    (Re.seqs [Re.lit ci "**".toList,
      .alt (Re.lit ci "Instructions".toList) (Re.lit ci "निर्देश".toList),
      Re.lit ci ":**".toList])
    .eoi)

/-- The result of `extractSections`. -/
structure Sections where
  ingredients : List Str
  steps : List Str
  deriving DecidableEq

/-- The function `extractSections` of `SavedRecipesPage.jsx` (lines 208-221). -/
def extractSections (content lang : Str) : Sections :=
  match languageVariant content lang with
  | none => ⟨[], []⟩
  | some [] => ⟨[], []⟩
  | some (c :: t) =>
    let text := c :: t
    let ingredients :=
      match jsMatch1 ingredientsHead (.lazyStar isAny) ingredientsEnd text with
      | some block =>
        ((splitLines block).filter fun line => startsWithStar (trim line)).map
          fun line => trim (replaceAtStart bulletPrefix line)
      | none => []
    let steps :=
      match jsMatch1 instructionsHead (.star isAny) .eps text with
      | some block =>
        ((splitLines block).filter fun line => testAtStart numberDot (trim line)).map
          fun line => trim (replaceAtStart numberPrefix line)
      | none => []
    ⟨ingredients, steps⟩

/-! ## Documents used in the statements -/

/-- A bilingual document whose Hindi part uses the Hindi headings. -/
def bilingualSoup : Str :=
  "**Ingredients:**\n* Salt\n* Oil\n**Instructions:**\n1. Boil\n**Hindi Translation**\n**सामग्री:**\n* नमक\n* तेल\n**निर्देश:**\n1. उबालें".toList

/-- The same document with a colon in the marker. -/
def bilingualSoupColon : Str :=
  "**Ingredients:**\n* Salt\n* Oil\n**Instructions:**\n1. Boil\n**Hindi Translation:**\n**सामग्री:**\n* नमक\n* तेल\n**निर्देश:**\n1. उबालें".toList

/-- The session of a page that holds `recipe` in language `lang` and has not
parsed it yet. -/
def sessionOf (recipe : RecipeData) (lang : Str) : Session :=
  { initialSession with recipe := some recipe, lang := lang }

/-! ## Notions used to state the properties -/

/-- Whether the literal `p` matches at the start of `s`, character by
character under `f`. -/
def litOk (f : Char → Char → Bool) : Str → Str → Bool
  | [], _ => true
  | _ :: _, [] => false
  | a :: p, c :: s => f a c && litOk f p s

/-- The three spellings of the marker that separates the two language
variants. -/
def markerWords : List Str :=
  ["**Hindi Translation**".toList, "**Hindi Translation:**".toList,
    "**Hindi Translation：**".toList]

/-- The text `M` is a marker: one of the three spellings, in any letter case. -/
def IsMarker (M : Str) : Prop :=
  ∃ m ∈ markerWords, M.map canon = m.map canon

/-- A marker starts at position `i` of `s`. -/
def MarkerStartsAt (s : Str) (i : Nat) : Prop :=
  ∃ M, IsMarker M ∧ M <+: s.drop i

/-- The label that opens the title line of a language. -/
def titleLabel (lang : Str) : Str :=
  if lang = "hi".toList then "**नाम:**".toList else "**Name:**".toList

/-- A trimmed line has the form `label <value>`: the label, optional
whitespace, and a non-empty value without a line terminator. -/
def IsTitleLine (label line value : Str) : Prop :=
  ∃ w, line = label ++ w ++ value ∧ (∀ c ∈ w, isSpace c = true) ∧ value ≠ [] ∧
    ∀ c ∈ value, isDot c = true

/-- A line of a language variant qualifies as the title line with the value
`value`: once trimmed it is non-empty, does not mention `translation`, and has
the form `label <value>`. -/
def Qualifies (label rawLine value : Str) : Prop :=
  trim rawLine ≠ [] ∧ mentionsTranslation (trim rawLine) = false ∧
    IsTitleLine label (trim rawLine) value

/-- The unit words of a duration. -/
def unitWords : List Str :=
  ["minute".toList, "minutes".toList, "min".toList, "mins".toList, "मिनट".toList]

/-- The text `r` starts with a unit word, in any letter case. -/
def StartsWithUnit (r : Str) : Prop :=
  ∃ u ∈ unitWords, ∃ m rest, r = m ++ rest ∧ m.map canon = u.map canon

/-- The text `s` starts with an occurrence `<digits><optional whitespace><unit>`
whose digits are `d`. -/
def DurationAt (s d : Str) : Prop :=
  ∃ w r, s = d ++ w ++ r ∧ d ≠ [] ∧ (∀ c ∈ d, isDigit c = true) ∧
    (∀ c ∈ w, isSpace c = true) ∧ StartsWithUnit r

/-- A document with two markers. -/
def twoMarkers : Str :=
  "**Name:** A\n**Hindi Translation**\n**नाम:** B\n**Hindi Translation**\n**नाम:** C".toList

/-- A session with three instructions that stands on the middle one. -/
def middleSession : Session :=
  { initialSession with instructions := [[], [], []], currentStep := 1 }

/-- A world with nothing stored, nothing written and nothing sent. -/
def emptyWorld : World := { storage := fun _ => none, writes := [], patches := [] }

/-- The Tomato Soup recipe. -/
def tomatoRecipe : RecipeData :=
  { title := "Tomato Soup".toList, content := tomatoSoup, id := none }

/-- The navigation state that starts the Tomato Soup recipe in English. -/
def tomatoNav : Option NavState :=
  some { recipe := some tomatoRecipe, lang := some "en".toList }

/-! ## Stored texts and `JSON.parse` -/

/-- An error thrown by the JavaScript runtime. -/
inductive JSError where
  | syntaxError : JSError
  | typeError : JSError
  deriving DecidableEq

deriving instance DecidableEq for Except

/-- A non-empty text found in a slot of `localStorage`, as `JSON.parse` sees
it: the serialization of a progress record, or a text that is not JSON. -/
inductive Stored where
  | record (p : Progress) : Stored
  | corrupt (text : Str) : Stored
  deriving DecidableEq

/-- The call `JSON.parse(text)` on a stored text. -/
def Stored.parse : Stored → Except JSError Progress
  | .record p => .ok p
  | .corrupt _ => .error .syntaxError

/-- The content of `localStorage` as texts: what `getItem` returns for a key. -/
abbrev RawStorage := Str → Option Stored

/-- A store in which every slot holds a serialized progress record, as texts. -/
def Storage.raw (st : Storage) : RawStorage := fun k => (st k).map .record

/-- The load effect of `CookingPage.jsx` (lines 43-61) on stored texts: the
call of `JSON.parse` is not guarded, so its error leaves the effect. -/
def loadEffectRaw (st : RawStorage) (nav : Option NavState) (s : Session) :
    Except JSError Session :=
  match st currentKey with
  | some v =>
    match v.parse with
    | .ok p =>
      .ok { s with recipe := some p.recipe, currentStep := p.currentStep, lang := p.lang }
    | .error e => .error e
  | none => .ok (loadEffect (fun _ => none) nav s)

/-! ## The history page, `CookHistoryPage.jsx` -/

/-- The state of a `navigate('/cook', { state })` call. -/
structure CookNavigation where
  recipe : RecipeData
  lang : Str
  currentStep : Option Int
  deriving DecidableEq

/-- What the cooking page reads of the navigation state: `location.state?.recipe`
and `location.state?.lang`; it never reads `location.state.currentStep`. -/
def CookNavigation.state (n : CookNavigation) : NavState :=
  { recipe := some n.recipe, lang := some n.lang }

/-- What the history page and the saved-recipes page act on: the world of the
progress slots, the slot `cookingLang`, and the last navigation to the cooking
page. -/
structure Browser where
  world : World
  cookingLang : Option Str
  navigation : Option CookNavigation

/-- The recipe object `{ title: recipe.title, content: recipe.content }` that
the two pages store and pass on. -/
def plainRecipe (recipe : RecipeData) : RecipeData :=
  { title := recipe.title, content := recipe.content, id := none }

/-- The result of `getContinueLaterInfo`. -/
structure ContinueInfo where
  currentStep : Int
  lastLeftAt : Option Str
  lang : Str
  deriving DecidableEq

/-- The function `getContinueLaterInfo` (lines 76-88): a parse error is caught
and gives `null`. -/
def getContinueLaterInfo (st : RawStorage) (recipe : RecipeData) : Option ContinueInfo :=
  match st (archiveKey recipe.title) with
  | some v =>
    match v.parse with
    | .ok p => some { currentStep := p.currentStep, lastLeftAt := p.lastLeftAt, lang := p.lang }
    | .error _ => none
  | none => none

/-- The function `isCompleted` (lines 103-116): a parse error is caught and
gives `false`. -/
def isCompleted (st : RawStorage) (recipe : RecipeData) (instructions : List Str) : Bool :=
  match st (archiveKey recipe.title) with
  | some v =>
    match v.parse with
    | .ok p =>
      if p.completed = some true then true
      else decide (p.currentStep ≥ (instructions.length : Int) - 1)
    | .error _ => false
  | none => false

/-- The three status badges of a history card. -/
inductive Status where
  | completed : Status
  | inProgress : Status
  | notStarted : Status
  deriving DecidableEq

/-- The badge rendered for a history card (lines 352-374):
`continueInfo ? Continue Cooking : completed ? Completed : Not Started`, with
`instructions = getInstructions(recipe.content, lang)`. -/
def displayedStatus (st : RawStorage) (recipe : RecipeData) (lang : Str) : Status :=
  match getContinueLaterInfo st recipe with
  | some _ => .inProgress
  | none =>
    if isCompleted st recipe (getInstructions recipe.content lang) then .completed
    else .notStarted

/-- The handler `handleContinueCooking` (lines 118-138). -/
def handleContinueCooking (recipe : RecipeData) (lang : Str) (step : Int) (now : Str)
    (b : Browser) : Browser :=
  { world := b.world.setItem (archiveKey recipe.title)
      { recipe := plainRecipe recipe, currentStep := step, lang := lang,
        lastLeftAt := some now, completed := some false },
    cookingLang := some lang,
    navigation := some { recipe := plainRecipe recipe, lang := lang, currentStep := some step } }

/-- The state `inlineLangModal` of the history page. -/
structure LangModal where
  visible : Bool
  recipeId : Option Str
  step : Int
  defaultLang : Str
  recipe : Option RecipeData
  deriving DecidableEq

/-- The closed modal that `handleSelectLang` leaves behind. -/
def closedModal : LangModal :=
  { visible := false, recipeId := none, step := 0, defaultLang := "en".toList, recipe := none }

/-- The function `getLangPref` (lines 72-74), `getItem('cookingLang') || 'en'`. -/
def getLangPref (b : Browser) : Str :=
  match b.cookingLang with
  | some (c :: l) => c :: l
  | _ => "en".toList

/-- The handler `handlePromptLanguage` (lines 184-203): the modal it opens. -/
def handlePromptLanguage (recipe : RecipeData) (continueInfo : Option ContinueInfo)
    (b : Browser) : LangModal :=
  let stepToResume := match continueInfo with
    | some i => i.currentStep
    | none => 0
  let langToUse := match continueInfo.map fun i => i.lang with
    | some (c :: l) => c :: l
    | _ => getLangPref b
  { visible := true, recipeId := recipe.id, step := stepToResume, defaultLang := langToUse,
    recipe := some recipe }

/-- The handler `handleSelectLang` (lines 205-209); with no recipe in the modal
`handleContinueCooking` reads `title` of `null` and throws. -/
def handleSelectLang (lang : Str) (now : Str) (modal : LangModal) (b : Browser) :
    Except JSError (LangModal × Browser) :=
  match modal.recipe with
  | some recipe => .ok (closedModal, handleContinueCooking recipe lang modal.step now b)
  | none => .error .typeError

/-- The handler `handleRecook` (lines 140-182); `requestOk` tells whether the
request to the backend succeeded, and a failure is caught before anything is
written. -/
def handleRecook (recipe : RecipeData) (lang : Str) (requestOk : Bool) (now : Str)
    (b : Browser) : Browser :=
  if requestOk then
    let w1 := b.world.setItem (archiveKey recipe.title)
      { recipe := plainRecipe recipe, currentStep := 0, lang := lang,
        lastLeftAt := some now, completed := some false }
    let w2 := w1.setItem currentKey
      { recipe := plainRecipe recipe, currentStep := 0, lang := lang,
        lastLeftAt := none, completed := none }
    { world := w2, cookingLang := some lang,
      navigation := some { recipe := plainRecipe recipe, lang := lang, currentStep := some 0 } }
  else b

/-! ## Starting from the saved recipes, `SavedRecipesPage.jsx` -/

/-- The value `lastStep` of the continue path of `handleStartCooking` (lines
154-156), `progress ? JSON.parse(progress).currentStep : 0`. -/
def lastStep (progress : Option Stored) : Except JSError Int :=
  match progress with
  | some v =>
    match v.parse with
    | .ok p => .ok p.currentStep
    | .error e => .error e
  | none => .ok 0

/-- The handler `handleStartCooking` (lines 146-206).  `inHistory` tells
whether the recipe title is in the cooking history, `confirmed` is the answer
to `window.confirm`, `requestOk` tells whether the request to the backend
succeeded, and `st` is what `localStorage.getItem` returns.  Every error is
caught by the handler, which then shows a message and does nothing else. -/
def handleStartCooking (recipe : RecipeData) (selectedLang : Str)
    (inHistory confirmed requestOk : Bool) (now : Str) (st : RawStorage) (b : Browser) :
    Browser :=
  if inHistory && confirmed then
    match lastStep (st (archiveKey recipe.title)) with
    | .ok step =>
      { world := b.world, cookingLang := b.cookingLang,
        navigation :=
          some { recipe := plainRecipe recipe, lang := selectedLang, currentStep := some step } }
    | .error _ => b
  else if requestOk then
    let w1 := b.world.setItem (archiveKey recipe.title)
      { recipe := plainRecipe recipe, currentStep := 0, lang := selectedLang,
        lastLeftAt := some now, completed := none }
    let w2 := w1.setItem currentKey
      { recipe := plainRecipe recipe, currentStep := 0, lang := selectedLang,
        lastLeftAt := none, completed := none }
    { world := w2, cookingLang := some selectedLang,
      navigation := some { recipe := plainRecipe recipe, lang := selectedLang, currentStep := none } }
  else b

/-- The mount of the cooking page after a navigation from another page. -/
def mountAfter (now : Str) (b : Browser) : Session × World :=
  mount now (b.navigation.map CookNavigation.state) b.world

/-- A step button followed by the save effect. -/
def stepAndSave (sw : Session × World) (press : StepButton × Str) : Session × World :=
  (press.1.handler sw.1, saveEffect press.2 (press.1.handler sw.1) sw.2)

/-- The two progress slots of a recipe agree: the current-session slot and the
archive slot under the recipe key both hold a record with the recipe `r`, the
step `step` and the language `lang`. -/
def SlotsHold (st : Storage) (r : RecipeData) (step : Int) (lang : Str) : Prop :=
  ∃ p q, st currentKey = some p ∧ st (archiveKey r.title) = some q ∧
    p.recipe = r ∧ q.recipe = r ∧ p.currentStep = step ∧ q.currentStep = step ∧
    p.lang = lang ∧ q.lang = lang

/-- A click on a step button, as in `click`. -/
def clickButton (sw : Session × World) (press : StepButton × Str) : Session × World :=
  click press.2 press.1.handler sw

/-! ## The step timer of `CookingPage.jsx` -/

/-- The duration for which the timer button is rendered (lines 517-525),
`timeForStep && <button onClick={() => startTimer(timeForStep)}>`: the number
0 is falsy, so no button is rendered for it. -/
def offeredDuration (step : Str) : Option JSNumber :=
  match extractTimeFromStep step with
  | some (.finite 0) => none
  | some n => some n
  | none => none

/-- A JavaScript number that holds an integer, `Infinity` or `-Infinity`. -/
inductive Num where
  | int (z : Int) : Num
  | posInf : Num
  | negInf : Num
  deriving DecidableEq

/-- A duration read from a step, as the number handed to `startTimer`. -/
def JSNumber.toNum : JSNumber → Num
  | .finite n => .int n
  | .infinity => .posInf

/-- The Number value of an integer: the nearest binary64 value. -/
def Num.round (z : Int) : Num :=
  match z with
  | .ofNat n => (roundToDouble n).toNum
  | .negSucc n =>
    match roundToDouble (n + 1) with
    | .finite k => .int (-(k : Int))
    | .infinity => .negInf

/-- The product `minutes * 60`. -/
def Num.times60 : Num → Num
  | .int z => Num.round (z * 60)
  | .posInf => .posInf
  | .negInf => .negInf

/-- The test `prev <= 1`. -/
def Num.atMostOne : Num → Bool
  | .int z => decide (z ≤ 1)
  | .posInf => false
  | .negInf => true

/-- The difference `prev - 1`. -/
def Num.pred : Num → Num
  | .int z => Num.round (z - 1)
  | .posInf => .posInf
  | .negInf => .negInf

/-- The test `minutes <= 0`. -/
def Num.nonPositive : Num → Bool
  | .int z => decide (z ≤ 0)
  | .posInf => false
  | .negInf => true

/-- The timer of the page: the states `timer`, `timeLeft` and
`isTimerRunning`, the handles of the intervals that the browser has scheduled
(latest first), and the handle that the next `setInterval` returns.  Handles
are positive, so `if (timer)` tests that `timer` is not `null`. -/
structure TimerState where
  timer : Option Nat
  timeLeft : Num
  isTimerRunning : Bool
  intervals : List Nat
  nextHandle : Nat
  deriving DecidableEq

/-- The timer at the first render. -/
def initialTimer : TimerState :=
  { timer := none, timeLeft := .int 0, isTimerRunning := false, intervals := [], nextHandle := 1 }

/-- The call `clearInterval(h)`. -/
def clearInterval (h : Nat) (t : TimerState) : TimerState :=
  { t with intervals := t.intervals.filter fun i => i != h }

/-- The function `startTimer` (lines 149-170). -/
def startTimer (minutes : Num) (t : TimerState) : TimerState :=
  let t1 := match t.timer with
    | some h => clearInterval h t
    | none => t
  { timer := some t1.nextHandle, timeLeft := minutes.times60, isTimerRunning := true,
    intervals := t1.nextHandle :: t1.intervals, nextHandle := t1.nextHandle + 1 }

/-- The callback that `startTimer` hands to `setInterval`, for the interval
with the handle `h` (lines 157-168). -/
def intervalCallback (h : Nat) (t : TimerState) : TimerState :=
  if t.timeLeft.atMostOne then
    { clearInterval h t with isTimerRunning := false, timeLeft := .int 0 }
  else { t with timeLeft := t.timeLeft.pred }

/-- One second passes: every scheduled interval runs its callback, the oldest
first. -/
def tick (t : TimerState) : TimerState := t.intervals.foldr intervalCallback t

/-- The function `stopTimer` (lines 172-179). -/
def stopTimer (t : TimerState) : TimerState :=
  match t.timer with
  | some h => { clearInterval h t with timer := none, isTimerRunning := false }
  | none => t

/-- What can happen to the timer. -/
inductive TimerAction where
  | start (minutes : Num) : TimerAction
  | tick : TimerAction
  | stop : TimerAction

/-- The effect of one action. -/
def TimerAction.apply : TimerAction → TimerState → TimerState
  | .start minutes, t => startTimer minutes t
  | .tick, t => Recipe.tick t
  | .stop, t => stopTimer t

/-- The timer after a sequence of actions on the page. -/
def runTimer (actions : List TimerAction) : TimerState :=
  actions.foldl (fun t a => a.apply t) initialTimer

/-- The timer after `k` seconds. -/
def ticks : Nat → TimerState → TimerState
  | 0, t => t
  | k + 1, t => ticks k (tick t)

/-- What holds of the timer in every state the page can reach: at most one
interval is scheduled, it is the one the state `timer` names, and the flag
`isTimerRunning` tells whether there is one. -/
def TimerInv (t : TimerState) : Prop :=
  (t.intervals = [] ∧ t.isTimerRunning = false) ∨
    (∃ h, t.intervals = [h] ∧ t.timer = some h ∧ t.isTimerRunning = true)

/-- The way back into a recipe from the history page: the card's
`continueInfo`, the language modal opened by `handlePromptLanguage`, the
choice of `lang` in the modal, and the mount of the cooking page that the
navigation causes. -/
def continueFromHistory (recipe : RecipeData) (lang : Str) (now later : Str) (b : Browser) :
    Except JSError (Session × World) :=
  let continueInfo := getContinueLaterInfo b.world.storage.raw recipe
  let modal := handlePromptLanguage recipe continueInfo b
  match handleSelectLang lang now modal b with
  | .ok r => .ok (mountAfter later r.2)
  | .error e => .error e

/-- A browser whose archive holds the Tomato Soup recipe on its last step,
marked as completed. -/
def soupCompleted : Browser :=
  { world := emptyWorld.setItem (archiveKey "Tomato Soup".toList)
      { recipe := tomatoRecipe, currentStep := 1, lang := "en".toList,
        lastLeftAt := some "t0".toList, completed := some true },
    cookingLang := none, navigation := none }

/-- A document with three steps. -/
def teaDocument : Str :=
  "**Name:** Tea\n**Ingredients:**\n* Water\n* Leaves\n**Instructions:**\n1. Boil the water\n2. Add the leaves\n3. Serve".toList

/-- The tea recipe as the backend lists it in the cooking history. -/
def teaRecipe : RecipeData :=
  { title := "Tea".toList, content := teaDocument, id := some "r1".toList }

/-- A browser whose archive holds the tea recipe at step 1 in English and
whose current-session slot is empty. -/
def teaArchived : Browser :=
  { world := emptyWorld.setItem (archiveKey "Tea".toList)
      { recipe := plainRecipe teaRecipe, currentStep := 1, lang := "en".toList,
        lastLeftAt := some "t0".toList, completed := none },
    cookingLang := none, navigation := none }

/-- The same browser when the current-session slot holds the Tomato Soup
recipe at step 0. -/
def teaArchivedSoupCurrent : Browser :=
  { world := teaArchived.world.setItem currentKey
      { recipe := tomatoRecipe, currentStep := 0, lang := "en".toList,
        lastLeftAt := some "t0".toList, completed := none },
    cookingLang := none, navigation := none }

/-- A store whose two progress slots for the Tomato Soup recipe hold a text
that is not JSON. -/
def corruptStorage : RawStorage := fun k =>
  if k = currentKey ∨ k = archiveKey "Tomato Soup".toList then some (.corrupt "oops".toList)
  else none

/-- A browser with nothing stored. -/
def emptyBrowser : Browser := { world := emptyWorld, cookingLang := none, navigation := none }

/-! ## Nutrition in `SavedRecipesPage.jsx` -/

/-- The method call `s.split(sep)` for a separator of one character. -/
def splitChar (sep : Char) : Str → List Str
  | [] => [[]]
  | c :: s =>
    if c = sep then [] :: splitChar sep s
    else match splitChar sep s with
      | [] => [[c]]
      | l :: ls => (c :: l) :: ls

/-- The method call `s.replace('*', '')`: the first `*` of `s` is removed. -/
def removeFirstStar : Str → Str
  | [] => []
  | c :: s => if c = '*' then s else c :: removeFirstStar s

/-- The character class `[^*]`. -/
def notStar (c : Char) : Bool := c != '*'

/-- The pattern `\*\*Approximate Nutritional Value\*\*` in front of the capture
group of `extractNutrition` (no `i` flag). -/
def nutritionHead : Re := Re.lit cs "**Approximate Nutritional Value**".toList

/-- The object built from a line by `extractNutrition`; `none` stands for
`undefined`. -/
structure NutritionItem where
  label : Option Str
  value : Option Str
  deriving DecidableEq

/-- The object built from a bullet line (lines 137-140): the first `*` is
removed, the rest is split on every `:`, the pieces are trimmed, and the first
two pieces are the label and the value. -/
def nutritionItem (line : Str) : NutritionItem :=
  let pieces := (splitChar ':' (removeFirstStar line)).map trim
  { label := pieces.head?, value := pieces.get? 1 }

/-- Whether a value that is a string or `undefined` is truthy: it is a
non-empty string. -/
def truthy : Option Str → Bool
  | some (_ :: _) => true
  | _ => false

/-- The function `extractNutrition` of `SavedRecipesPage.jsx` (lines 130-144),
with the pattern `/\*\*Approximate Nutritional Value\*\*([^*]+)/`. -/
def extractNutrition (content : Str) : List NutritionItem :=
  match jsMatch1 nutritionHead (Re.plus notStar) .eps content with
  | none => []
  | some nutritionBlock =>
    ((((splitLines nutritionBlock).filter fun line => startsWithStar (trim line)).map
      nutritionItem).filter fun item => truthy item.label && truthy item.value)

/-! ## Sections and titles in `CookHistoryPage.jsx` -/

/-- The part of the ingredients pattern of `extractSections` of
`CookHistoryPage.jsx` before its capture group, where the Hindi heading is
written `‡§∏‡§æ‡§Æ‡§ó‡•ç‡§∞‡•Ä`. -/
def historyIngredientsHead : Re :=
  Re.seqs [Re.lit ci "**".toList,
    .alt (Re.lit ci "Ingredients".toList)
      (Re.lit ci "‡§∏‡§æ‡§Æ‡§ó‡•ç‡§∞‡•Ä".toList),
    Re.lit ci ":**".toList, .star isSpace, .chr (ci '\n')]

/-- The lookahead that ends the ingredients block in `CookHistoryPage.jsx`,
`(?=\*\*(?:Instructions|‡§®‡§ø‡§∞‡•ç‡§¶‡•á‡§∂):\*\*|$)` with the `i` flag. -/
def historyIngredientsEnd : Re :=
  .look (.alt
    (Re.seqs [Re.lit ci "**".toList,
      .alt (Re.lit ci "Instructions".toList)
        (Re.lit ci "‡§®‡§ø‡§∞‡•ç‡§¶‡•á‡§∂".toList),
      Re.lit ci ":**".toList])
    .eoi)

/-- The text `extractSections` and `extractTitle` of `CookHistoryPage.jsx`
work on: `parts[1]` for `hi` and `parts[0]` otherwise, the content being split
on `/[*]{2}Hindi Translation[:Ôºö]?[*]{2}/i`; `none` is `undefined`. -/
def historyVariant (content lang : Str) : Option Str :=
  let parts := jsSplit markerHistory content
  if lang = "hi".toList then parts.get? 1 else parts.head?

/-- The function `extractSections` of `CookHistoryPage.jsx` (lines 229-244). -/
def CookHistoryPage.extractSections (content lang : Str) : Sections :=
  match historyVariant content lang with
  | none => ⟨[], []⟩
  | some [] => ⟨[], []⟩
  | some (c :: t) =>
    let text := c :: t
    let ingredients :=
      match jsMatch1 historyIngredientsHead (.lazyStar isAny) historyIngredientsEnd text with
      | some block =>
        ((splitLines block).filter fun line => startsWithStar (trim line)).map
          fun line => trim (replaceAtStart bulletPrefix line)
      | none => []
    let steps :=
      match jsMatch1 historyInstructionsHead (.star isAny) .eps text with
      | some block =>
        ((splitLines block).filter fun line => testAtStart numberDot (trim line)).map
          fun line => trim (replaceAtStart numberPrefix line)
      | none => []
    ⟨ingredients, steps⟩

/-- The pattern in front of the capture group of the Hindi name pattern of
`CookHistoryPage.jsx`, `/^\*\*‡§®‡§æ‡§Æ:\*\*\s*(.+)$/` (no `i` flag). -/
def historyNameHeadHindi : Re :=
  .seq (Re.lit cs "**‡§®‡§æ‡§Æ:**".toList) (.star isSpace)

/-- The function `extractTitle` of `CookHistoryPage.jsx` (lines 246-265). -/
def CookHistoryPage.extractTitle (content lang : Str) : Str :=
  match historyVariant content lang with
  | none => "Untitled Recipe".toList
  | some [] => "Untitled Recipe".toList
  | some (c :: t) =>
    let lines := ((splitLines (c :: t)).map trim).filter keepLine
    let head := if lang = "hi".toList then historyNameHeadHindi else nameHead
    (firstTitle head lines).getD "Untitled Recipe".toList

/-! ## The language switch of `CookingPage.jsx` -/

/-- The handler `handleToggleLanguage` (lines 208-210). -/
def handleToggleLanguage (s : Session) : Session :=
  { s with lang := if s.lang = "en".toList then "hi".toList else "en".toList }

/-- A press of the language button followed by the parse effect, which runs
because its dependency `lang` has changed.  (The save effect runs too and
leaves the session as it is.) -/
def toggleLanguage (s : Session) : Session := parseEffect (handleToggleLanguage s)

/-! ## Notions and documents of the later statements -/

/-- The spellings of the Ingredients heading. -/
def ingredientsHeadings : List Str :=
  ["**Ingredients:**".toList, "**सामग्री:**".toList]

/-- The spellings of the Instructions heading. -/
def instructionsHeadings : List Str :=
  ["**Instructions:**".toList, "**निर्देश:**".toList]

/-- One of the headings `words` stands somewhere in `text`, in any letter
case. -/
def HasHeading (words : List Str) (text : Str) : Prop :=
  ∃ i, i < text.length ∧ ∃ w ∈ words, ((text.drop i).take w.length).map canon = w.map canon

instance (words : List Str) (text : Str) : Decidable (HasHeading words text) := by
  unfold HasHeading
  infer_instance

/-- A document whose nutrition heading is followed by one bullet line. -/
def nutritionSample : Str :=
  "**Name:** Soup\n**Approximate Nutritional Value**\n* Calories: 200".toList

/-- A document whose second ingredient bullet is indented. -/
def indentedBullet : Str :=
  "**Ingredients:**\n* Oil\n  * Salt\nto taste\n**Instructions:**\n1. Boil".toList

/-- A document whose nutrition block is a numbered list. -/
def numberedNutrition : Str :=
  "**Instructions:**\n1. Boil\n**Approximate Nutritional Value**\n1. Calories: 200".toList

/-- A document whose only step is indented. -/
def indentedStep : Str := "**Instructions:**\n  1. Boil".toList

/-- A bilingual document with a name line in each variant. -/
def namedBilingual : Str :=
  "**Name:** Soup\n**Hindi Translation**\n**नाम:** सूप".toList

/-- A document that opens with the marker written with a full-width colon. -/
def wideColonNamed : Str := "**Hindi Translation：**\n**Name:** Soup".toList

/-- A recipe with a single instruction. -/
def toastRecipe : RecipeData :=
  { title := "Toast".toList,
    content := "**Name:** Toast\n**Instructions:**\n1. Toast the bread".toList, id := none }

end Recipe

namespace Recipe

set_option maxRecDepth 100000

/-! ## The matcher -/

theorem run_seq (a b : Re) (s : Str) : (Re.seq a b).run s = (a.run s).flatMap fun r => b.run r := rfl

theorem lit_run (f : Char → Char → Bool) (p s : Str) :
    (Re.lit f p).run s = if litOk f p s then [s.drop p.length] else [] := by
  induction p generalizing s with
  | nil => simp [Re.lit, Re.run, litOk]
  | cons a p ih =>
    cases s with
    | nil => simp [Re.lit, Re.run, litOk]
    | cons c s =>
      by_cases h : f a c = true
      · simp [Re.lit, Re.run, litOk, h, ih]
      · simp [Re.lit, Re.run, litOk, h]

theorem litOk_ci_iff (m s : Str) :
    litOk ci m s = true ↔ m.length ≤ s.length ∧ (s.take m.length).map canon = m.map canon := by
  induction m generalizing s with
  | nil => simp [litOk]
  | cons a m ih =>
    cases s with
    | nil => simp [litOk]
    | cons c s =>
      simp [litOk, ih, ci]
      tauto

theorem litOk_cs_iff (m s : Str) : litOk cs m s = true ↔ m <+: s := by
  induction m generalizing s with
  | nil => simp [litOk]
  | cons a m ih =>
    cases s with
    | nil => simp [litOk]
    | cons c s =>
      simp [litOk, ih, cs, List.cons_prefix_cons]
      tauto

theorem lit_ci_run_append (m M r : Str) (h : M.map canon = m.map canon) :
    (Re.lit ci m).run (M ++ r) = [r] := by
  have hl : M.length = m.length := by simpa using congrArg List.length h
  rw [lit_run]
  have : litOk ci m (M ++ r) = true := by
    rw [litOk_ci_iff]
    refine ⟨by simp [hl], ?_⟩
    rw [← hl, List.take_left']
    · exact h
    · rfl
  simp [this, ← hl]

theorem mem_starRun {p : Char → Bool} {s r : Str} :
    r ∈ starRun p s ↔ ∃ w, s = w ++ r ∧ ∀ c ∈ w, p c = true := by
  induction s with
  | nil =>
    simp [starRun]
    constructor
    · intro h; exact ⟨[], by simp [h]⟩
    · rintro ⟨w, h, -⟩
      exact h.2
  | cons c s ih =>
    unfold starRun
    by_cases hp : p c = true
    · simp only [hp, if_true, List.mem_append, ih, List.mem_singleton]
      constructor
      · rintro (⟨w, h, hw⟩ | h)
        · refine ⟨c :: w, by simp [h], ?_⟩
          intro x hx
          rcases List.mem_cons.mp hx with rfl | hx
          · exact hp
          · exact hw x hx
        · exact ⟨[], by simp [h], by simp⟩
      · rintro ⟨w, h, hw⟩
        cases w with
        | nil => right; simpa using h.symm
        | cons a w =>
          left
          simp at h
          exact ⟨w, h.2, fun x hx => hw x (List.mem_cons_of_mem _ hx)⟩
    · simp only [hp, Bool.false_eq_true, if_false, List.mem_singleton]
      constructor
      · intro h; exact ⟨[], by simp [h], by simp⟩
      · rintro ⟨w, h, hw⟩
        cases w with
        | nil => simpa using h.symm
        | cons a w =>
          simp at h
          exact absurd (hw a (List.mem_cons_self _ _)) (by rw [← h.1]; exact hp)



/-! ## The marker -/

theorem chr_run_cons (p : Char → Bool) (c : Char) (s : Str) :
    (Re.chr p).run (c :: s) = if p c then [s] else [] := rfl

theorem run_opt (a : Re) (s : Str) : (Re.opt a).run s = a.run s ++ [s] := rfl

theorem run_alt (a b : Re) (s : Str) : (Re.alt a b).run s = a.run s ++ b.run s := rfl

theorem run_seqs_nil (s : Str) : (Re.seqs []).run s = [s] := rfl

theorem run_seqs_cons (a : Re) (rs : List Re) (s : Str) :
    (Re.seqs (a :: rs)).run s = (a.run s).flatMap fun r => (Re.seqs rs).run r := rfl

theorem markerColon_tail_plain (M3 r : Str) (h : M3.map canon = "**".toList.map canon) :
    (Re.seqs [.opt (.chr fun c => ci ':' c || ci '：' c), Re.lit ci "**".toList]).run (M3 ++ r)
      = [r] := by
  have hlit := lit_ci_run_append "**".toList M3 r h
  obtain ⟨a, M3', rfl, ha, -⟩ := List.map_eq_cons_iff.mp h
  have h1 : ci ':' a = false := by
    simp only [ci, ha]; decide
  have h2 : ci '：' a = false := by
    simp only [ci, ha]; decide
  rw [run_seqs_cons, run_opt, List.cons_append, chr_run_cons]
  simp only [h1, h2, Bool.or_self, Bool.false_eq_true, if_false, List.nil_append,
    List.flatMap_cons, List.flatMap_nil, List.append_nil, run_seqs_cons, run_seqs_nil]
  rw [← List.cons_append, hlit]
  rfl

theorem markerColon_tail_colon (c : Char) (M3 r : Str)
    (hc : canon c = canon ':' ∨ canon c = canon '：')
    (h : M3.map canon = "**".toList.map canon) :
    (Re.seqs [.opt (.chr fun c => ci ':' c || ci '：' c), Re.lit ci "**".toList]).run
      (c :: (M3 ++ r)) = [r] := by
  have hlit := lit_ci_run_append "**".toList M3 r h
  have hcls : (ci ':' c || ci '：' c) = true := by
    rcases hc with hc | hc <;> simp [ci, hc]
  have hno : litOk ci "**".toList (c :: (M3 ++ r)) = false := by
    have : ci '*' c = false := by
      rcases hc with hc | hc <;> (simp only [ci, hc]; decide)
    show (ci '*' c && _) = false
    simp [this]
  rw [run_seqs_cons, run_opt, chr_run_cons]
  simp only [hcls, if_true, List.flatMap_cons, List.flatMap_nil, List.append_nil,
    List.singleton_append, run_seqs_cons, run_seqs_nil, hlit]
  rw [lit_run, hno]
  rfl

theorem markerColon_run_of_isMarker (M r : Str) (hM : IsMarker M) :
    markerColon.run (M ++ r) = [r] := by
  obtain ⟨m, hm, h⟩ := hM
  have e1 : "**Hindi Translation**".toList
      = "**".toList ++ ("Hindi Translation".toList ++ "**".toList) := by decide
  have e2 : "**Hindi Translation:**".toList
      = "**".toList ++ ("Hindi Translation".toList ++ (':' :: "**".toList)) := by decide
  have e3 : "**Hindi Translation：**".toList
      = "**".toList ++ ("Hindi Translation".toList ++ ('：' :: "**".toList)) := by decide
  have key : ∀ t : Str, (t = M ++ r) → (∃ M1 M2 rest, t = M1 ++ (M2 ++ rest) ∧
      M1.map canon = "**".toList.map canon ∧ M2.map canon = "Hindi Translation".toList.map canon ∧
      (Re.seqs [.opt (.chr fun c => ci ':' c || ci '：' c), Re.lit ci "**".toList]).run rest = [r]) := by
    intro t ht
    simp only [markerWords, List.mem_cons, List.mem_singleton, List.not_mem_nil, or_false] at hm
    rcases hm with rfl | rfl | rfl
    · rw [e1, List.map_append, List.map_append] at h
      obtain ⟨M1, R1, rfl, h1, h⟩ := List.map_eq_append_iff.mp h
      obtain ⟨M2, M3, rfl, h2, h3⟩ := List.map_eq_append_iff.mp h
      exact ⟨M1, M2, M3 ++ r, by simp [ht], h1, h2, markerColon_tail_plain M3 r h3⟩
    · rw [e2, List.map_append, List.map_append] at h
      obtain ⟨M1, R1, rfl, h1, h⟩ := List.map_eq_append_iff.mp h
      obtain ⟨M2, M3, rfl, h2, h3⟩ := List.map_eq_append_iff.mp h
      obtain ⟨c, M4, rfl, hc, h4⟩ := List.map_eq_cons_iff.mp h3
      exact ⟨M1, M2, c :: (M4 ++ r), by simp [ht], h1, h2,
        markerColon_tail_colon c M4 r (Or.inl hc) h4⟩
    · rw [e3, List.map_append, List.map_append] at h
      obtain ⟨M1, R1, rfl, h1, h⟩ := List.map_eq_append_iff.mp h
      obtain ⟨M2, M3, rfl, h2, h3⟩ := List.map_eq_append_iff.mp h
      obtain ⟨c, M4, rfl, hc, h4⟩ := List.map_eq_cons_iff.mp h3
      exact ⟨M1, M2, c :: (M4 ++ r), by simp [ht], h1, h2,
        markerColon_tail_colon c M4 r (Or.inr hc) h4⟩
  obtain ⟨M1, M2, rest, ht, h1, h2, hrest⟩ := key (M ++ r) rfl
  rw [ht]
  show (Re.seq _ (Re.seq _ (Re.seqs _))).run _ = _
  rw [run_seq, lit_ci_run_append _ M1 _ h1]
  simp only [List.flatMap_cons, List.flatMap_nil, List.append_nil]
  rw [run_seq, lit_ci_run_append _ M2 _ h2]
  simp only [List.flatMap_cons, List.flatMap_nil, List.append_nil]
  exact hrest



theorem mem_lit_ci_run {m s r : Str} (h : r ∈ (Re.lit ci m).run s) :
    ∃ M, s = M ++ r ∧ M.map canon = m.map canon := by
  rw [lit_run] at h
  by_cases hok : litOk ci m s = true
  · simp only [hok, if_true, List.mem_singleton] at h
    obtain ⟨-, hmap⟩ := (litOk_ci_iff m s).mp hok
    exact ⟨s.take m.length, by rw [h, List.take_append_drop], hmap⟩
  · simp [hok] at h

theorem isMarker_of_mem_run {s r : Str} (h : r ∈ markerColon.run s) :
    ∃ M, IsMarker M ∧ s = M ++ r := by
  have h' : r ∈ (Re.seqs [Re.lit ci "**".toList, Re.lit ci "Hindi Translation".toList,
    .opt (.chr fun c => ci ':' c || ci '：' c), Re.lit ci "**".toList]).run s := h
  simp only [run_seqs_cons, run_seqs_nil, List.mem_flatMap, List.mem_singleton] at h'
  obtain ⟨s1, hs1, s2, hs2, s3, hs3, s4, hs4, rfl⟩ := h'
  obtain ⟨M1, rfl, h1⟩ := mem_lit_ci_run hs1
  obtain ⟨M2, rfl, h2⟩ := mem_lit_ci_run hs2
  obtain ⟨M3, rfl, h3⟩ := mem_lit_ci_run hs4
  rw [run_opt, List.mem_append, List.mem_singleton] at hs3
  rcases hs3 with hs3 | hs3
  · cases s2 with
    | nil => simp [Re.run] at hs3
    | cons c t =>
      rw [chr_run_cons] at hs3
      by_cases hc : (ci ':' c || ci '：' c) = true
      · simp only [hc, if_true, List.mem_singleton] at hs3
        subst hs3
        simp only [Bool.or_eq_true, ci, beq_iff_eq] at hc
        rcases hc with hc | hc
        · refine ⟨M1 ++ (M2 ++ (c :: M3)), ⟨"**Hindi Translation:**".toList, by simp [markerWords], ?_⟩,
            by simp⟩
          have e : "**Hindi Translation:**".toList
              = "**".toList ++ ("Hindi Translation".toList ++ (':' :: "**".toList)) := by decide
          rw [e]
          simp only [List.map_append, List.map_cons, h1, h2, h3, hc]
        · refine ⟨M1 ++ (M2 ++ (c :: M3)), ⟨"**Hindi Translation：**".toList, by simp [markerWords], ?_⟩,
            by simp⟩
          have e : "**Hindi Translation：**".toList
              = "**".toList ++ ("Hindi Translation".toList ++ ('：' :: "**".toList)) := by decide
          rw [e]
          simp only [List.map_append, List.map_cons, h1, h2, h3, hc]
      · simp [hc] at hs3
  · subst hs3
    refine ⟨M1 ++ (M2 ++ M3), ⟨"**Hindi Translation**".toList, by simp [markerWords], ?_⟩, by simp⟩
    have e : "**Hindi Translation**".toList
        = "**".toList ++ ("Hindi Translation".toList ++ "**".toList) := by decide
    rw [e]
    simp only [List.map_append, h1, h2, h3]

/-- The marker pattern matches at the start of `s` exactly when a marker
starts there. -/
theorem matchAt_markerColon_eq_none_iff (s : Str) :
    matchAt markerColon s = none ↔ ¬ ∃ M, IsMarker M ∧ M <+: s := by
  constructor
  · rintro h ⟨M, hM, r, rfl⟩
    simp [matchAt, markerColon_run_of_isMarker M r hM] at h
  · intro h
    cases hrun : markerColon.run s with
    | nil => simp [matchAt, hrun]
    | cons r l =>
      exfalso
      obtain ⟨M, hM, rfl⟩ := isMarker_of_mem_run (s := s) (r := r) (by simp [hrun])
      exact h ⟨M, hM, r, rfl⟩

theorem matchAt_markerColon_append (M r : Str) (hM : IsMarker M) :
    matchAt markerColon (M ++ r) = some r := by
  simp [matchAt, markerColon_run_of_isMarker M r hM]

/-! ## Splitting -/

theorem splitFirst_eq_none (m : Re) (s : Str)
    (h : ∀ i, i < s.length → matchAt m (s.drop i) = none) : splitFirst m s = none := by
  induction s with
  | nil => rfl
  | cons c s ih =>
    have h0 := h 0 (by simp)
    simp only [List.drop_zero] at h0
    have hs : splitFirst m s = none := ih fun i hi => by
      have := h (i + 1) (by simpa using hi)
      simpa using this
    simp [splitFirst, h0, hs]

theorem splitFirst_append (m : Re) (en t rest : Str)
    (h : ∀ i, i < en.length → matchAt m ((en ++ t).drop i) = none)
    (ht : matchAt m t = some rest) (hne : t ≠ []) :
    splitFirst m (en ++ t) = some (en, rest) := by
  induction en with
  | nil =>
    cases t with
    | nil => exact absurd rfl hne
    | cons c t => simp [splitFirst, ht]
  | cons c en ih =>
    have h0 := h 0 (by simp)
    simp only [List.drop_zero] at h0
    have hs := ih fun i hi => by
      have := h (i + 1) (by simpa using hi)
      simpa using this
    simp only [List.cons_append] at h0 ⊢
    simp [splitFirst, h0, hs]

theorem jsSplit_of_no_match (m : Re) (s : Str) (h : splitFirst m s = none) :
    jsSplit m s = [s] := by
  unfold jsSplit
  cases s.length with
  | zero => rfl
  | succ n => simp [jsSplitAux, h]

theorem jsSplitAux_head (m : Re) (n : Nat) (s : Str) :
    (jsSplitAux m n s).head? = some (match n, splitFirst m s with
      | _ + 1, some (p, _) => p
      | _, _ => s) := by
  cases n with
  | zero => rfl
  | succ n =>
    cases h : splitFirst m s with
    | none => simp [jsSplitAux, h]
    | some pr => simp [jsSplitAux, h]



theorem markerStartsAt_iff (s : Str) (i : Nat) :
    MarkerStartsAt s i ↔ matchAt markerColon (s.drop i) ≠ none := by
  rw [Ne, matchAt_markerColon_eq_none_iff, not_not]
  rfl

theorem splitFirst_eq_none_iff (s : Str) :
    splitFirst markerColon s = none ↔ ∀ i, ¬ MarkerStartsAt s i := by
  constructor
  · intro h
    induction s with
    | nil =>
      intro i
      rw [markerStartsAt_iff]
      simp only [List.drop_nil, ne_eq, not_not]
      rfl
    | cons c s ih =>
      have h0 : matchAt markerColon (c :: s) = none := by
        cases hm : matchAt markerColon (c :: s) with
        | none => rfl
        | some r => simp [splitFirst, hm] at h
      have hs : splitFirst markerColon s = none := by
        cases hm : splitFirst markerColon s with
        | none => rfl
        | some pr => simp [splitFirst, h0, hm] at h
      intro i
      cases i with
      | zero =>
        rw [markerStartsAt_iff]
        simpa using h0
      | succ i =>
        have := ih hs i
        rw [markerStartsAt_iff] at this ⊢
        simpa using this
  · intro h
    apply splitFirst_eq_none
    intro i _
    have := h i
    rw [markerStartsAt_iff] at this
    simpa using this

theorem isMarker_ne_nil {M : Str} (hM : IsMarker M) : M ≠ [] := by
  obtain ⟨m, hm, h⟩ := hM
  intro hnil
  subst hnil
  simp only [markerWords, List.mem_cons, List.mem_singleton, List.not_mem_nil, or_false] at hm
  rcases hm with rfl | rfl | rfl <;> exact absurd h (by decide)

theorem splitFirst_length (m : Re) (hm : ∀ t r, matchAt m t = some r → r.length < t.length)
    (s p r : Str) (h : splitFirst m s = some (p, r)) : r.length < s.length := by
  induction s generalizing p with
  | nil => simp [splitFirst] at h
  | cons c s ih =>
    cases hc : matchAt m (c :: s) with
    | some rest =>
      simp only [splitFirst, hc, Option.some.injEq, Prod.mk.injEq] at h
      rw [← h.2]
      exact hm _ _ hc
    | none =>
      cases hs : splitFirst m s with
      | none => simp [splitFirst, hc, hs] at h
      | some pr =>
        obtain ⟨p1, r1⟩ := pr
        simp only [splitFirst, hc, hs, Option.some.injEq, Prod.mk.injEq] at h
        have := ih p1 (by rw [hs, h.2])
        simp only [List.length_cons]
        omega

/-- More fuel than the length of the input does not change the pieces, for a
pattern whose matches are never empty. -/
theorem jsSplitAux_fuel (m : Re) (hm : ∀ t r, matchAt m t = some r → r.length < t.length)
    (n : Nat) (s : Str) (h : s.length ≤ n) : jsSplitAux m n s = jsSplit m s := by
  unfold jsSplit
  induction n using Nat.strong_induction_on generalizing s with
  | _ n ih =>
    cases hs : splitFirst m s with
    | none =>
      have h1 : ∀ k, jsSplitAux m k s = [s] := fun k => by
        cases k with
        | zero => rfl
        | succ k => simp [jsSplitAux, hs]
      rw [h1, h1]
    | some pr =>
      obtain ⟨p, r⟩ := pr
      have hlt := splitFirst_length m hm s p r hs
      obtain ⟨k, hk⟩ : ∃ k, s.length = k + 1 := ⟨s.length - 1, by omega⟩
      obtain ⟨j, hj⟩ : ∃ j, n = j + 1 := ⟨n - 1, by omega⟩
      rw [hk, hj]
      simp only [jsSplitAux, hs]
      rw [ih j (by omega) r (by omega), ih k (by omega) r (by omega)]

theorem markerColon_consumes (t r : Str) (h : matchAt markerColon t = some r) :
    r.length < t.length := by
  obtain ⟨M, hM, rfl⟩ := isMarker_of_mem_run ( List.mem_of_mem_head? h)
  have : 0 < M.length := List.length_pos.mpr (isMarker_ne_nil hM)
  simp only [List.length_append]
  omega

theorem markerPlain_isMarker {s r : Str} (h : matchAt markerPlain s = some r) :
    ∃ M, IsMarker M ∧ M <+: s := by
  have hmem : r ∈ (Re.lit ci "**Hindi Translation**".toList).run s := by
    have : (markerPlain.run s).head? = some r := h
    exact List.mem_of_mem_head? this
  obtain ⟨M, rfl, hmap⟩ := mem_lit_ci_run hmem
  exact ⟨M, ⟨_, by simp [markerWords], hmap⟩, r, rfl⟩


/-! ## Trimming -/

theorem trim_eq (s : Str) : trim s = (s.dropWhile isSpace).rdropWhile isSpace := rfl

theorem rdropWhile_ends_clean (p : Char → Bool) (x t : Str) (c : Char)
    (h : x.rdropWhile p = t ++ [c]) : p c = false := by
  induction x using List.reverseRecOn with
  | nil => simp at h
  | append_singleton l a ih =>
    by_cases ha : p a = true
    · rw [List.rdropWhile_concat_pos _ _ _ ha] at h
      exact ih h
    · rw [List.rdropWhile_concat_neg _ _ _ ha] at h
      obtain ⟨-, h2⟩ := List.append_inj' h rfl
      simp only [List.cons.injEq, and_true] at h2
      subst h2
      simpa using ha

theorem rdropWhile_eq_self (p : Char → Bool) (x : Str)
    (h : ∀ t c, x = t ++ [c] → p c = false) : x.rdropWhile p = x := by
  induction x using List.reverseRecOn with
  | nil => simp
  | append_singleton l a _ =>
    exact List.rdropWhile_concat_neg _ _ _ (by simp [h l a rfl])

theorem dropWhile_starts_clean (p : Char → Bool) (x t : Str) (c : Char)
    (h : x.dropWhile p = c :: t) : p c = false := by
  induction x with
  | nil => simp at h
  | cons a x ih =>
    by_cases ha : p a = true
    · rw [List.dropWhile_cons_of_pos ha] at h
      exact ih h
    · rw [List.dropWhile_cons_of_neg ha] at h
      simp only [List.cons.injEq] at h
      rw [← h.1]
      simpa using ha

theorem dropWhile_eq_self (p : Char → Bool) (x : Str)
    (h : ∀ c t, x = c :: t → p c = false) : x.dropWhile p = x := by
  cases x with
  | nil => rfl
  | cons a x => exact List.dropWhile_cons_of_neg (by simp [h a x rfl])

theorem trim_ends_clean (s t : Str) (c : Char) (h : trim s = t ++ [c]) : isSpace c = false :=
  rdropWhile_ends_clean isSpace _ t c h

theorem trim_starts_clean (s t : Str) (c : Char) (h : trim s = c :: t) : isSpace c = false := by
  have hp : trim s <+: s.dropWhile isSpace := List.rdropWhile_prefix _ _
  rw [h] at hp
  obtain ⟨u, hu⟩ := hp
  exact dropWhile_starts_clean isSpace s (t ++ u) c (by rw [← hu]; rfl)

theorem trim_eq_self (x : Str) (h1 : ∀ c t, x = c :: t → isSpace c = false)
    (h2 : ∀ t c, x = t ++ [c] → isSpace c = false) : trim x = x := by
  rw [trim_eq, dropWhile_eq_self _ _ h1, rdropWhile_eq_self _ _ h2]

theorem trim_trim (s : Str) : trim (trim s) = trim s :=
  trim_eq_self _ (fun c t h => trim_starts_clean s t c h) (fun t c h => trim_ends_clean s t c h)

theorem trim_eq_dropWhile (v : Str) (h : ∀ t c, v = t ++ [c] → isSpace c = false) :
    trim v = v.dropWhile isSpace := by
  rw [trim_eq]
  apply rdropWhile_eq_self
  intro t c ht
  obtain ⟨u, hu⟩ := List.dropWhile_suffix (l := v) isSpace
  exact h (u ++ t) c (by rw [← hu, ht, List.append_assoc])

/-! ## Captures -/

theorem starRun_eq_cons (p : Char → Bool) (t : Str) :
    ∃ rest, starRun p t = t.dropWhile p :: rest := by
  induction t with
  | nil => exact ⟨[], rfl⟩
  | cons c t ih =>
    obtain ⟨rest, h⟩ := ih
    by_cases hc : p c = true
    · exact ⟨rest ++ [c :: t], by simp [starRun, hc, h]⟩
    · exact ⟨[], by simp [starRun, hc]⟩

theorem plus_run_nil (p : Char → Bool) : (Re.plus p).run [] = [] := rfl

theorem plus_run_cons (p : Char → Bool) (c : Char) (s : Str) :
    (Re.plus p).run (c :: s) = if p c then starRun p s else [] := by
  show ((Re.chr p).run (c :: s)).flatMap (fun r => starRun p r) = _
  rw [chr_run_cons]
  by_cases hc : p c = true <;> simp [hc]

theorem mem_plus_run {p : Char → Bool} {s r : Str} :
    r ∈ (Re.plus p).run s ↔ ∃ w, w ≠ [] ∧ s = w ++ r ∧ ∀ c ∈ w, p c = true := by
  cases s with
  | nil =>
    simp only [plus_run_nil, List.not_mem_nil, false_iff]
    rintro ⟨w, hw, h, -⟩
    cases w with
    | nil => exact hw rfl
    | cons a w => simp at h
  | cons c s =>
    rw [plus_run_cons]
    by_cases hc : p c = true
    · simp only [hc, if_true, mem_starRun]
      constructor
      · rintro ⟨w, rfl, hw⟩
        refine ⟨c :: w, by simp, by simp, ?_⟩
        intro x hx
        rcases List.mem_cons.mp hx with rfl | hx
        · exact hc
        · exact hw x hx
      · rintro ⟨w, hne, h, hw⟩
        cases w with
        | nil => exact absurd rfl hne
        | cons a w =>
          simp only [List.cons_append, List.cons.injEq] at h
          exact ⟨w, h.2, fun x hx => hw x (List.mem_cons_of_mem _ hx)⟩
    · simp only [hc, Bool.false_eq_true, if_false, List.not_mem_nil, false_iff]
      rintro ⟨w, hne, h, hw⟩
      cases w with
      | nil => exact absurd rfl hne
      | cons a w =>
        simp only [List.cons_append, List.cons.injEq] at h
        exact hc (by rw [h.1]; exact hw a (List.mem_cons_self _ _))

theorem eoi_run (s : Str) : Re.eoi.run s = if s = [] then [[]] else [] := by
  cases s <;> rfl

theorem mem_capturesFrom_plus_eoi {p : Char → Bool} {r1 y : Str} :
    y ∈ capturesFrom (Re.plus p) .eoi r1 ↔ y = r1 ∧ r1 ≠ [] ∧ ∀ c ∈ r1, p c = true := by
  simp only [capturesFrom, List.mem_flatMap, List.mem_map, mem_plus_run, eoi_run]
  constructor
  · rintro ⟨r2, ⟨w, hne, rfl, hw⟩, x, hx, rfl⟩
    by_cases h2 : r2 = []
    · subst h2
      simp only [List.append_nil] at hw ⊢
      exact ⟨by simp, hne, hw⟩
    · simp [h2] at hx
  · rintro ⟨rfl, hne, hall⟩
    exact ⟨[], ⟨y, hne, by simp, hall⟩, [], by simp, by simp⟩

theorem head?_eq_of_forall_eq {α : Type} {l : List α} {x : α} (h : ∀ y ∈ l, y = x)
    (hne : l ≠ []) : l.head? = some x := by
  cases l with
  | nil => exact absurd rfl hne
  | cons a l => simp [h a (List.mem_cons_self _ _)]

theorem lit_cs_run_append (label x : Str) : (Re.lit cs label).run (label ++ x) = [x] := by
  rw [lit_run]
  have : litOk cs label (label ++ x) = true := (litOk_cs_iff _ _).mpr ⟨x, rfl⟩
  simp [this]

theorem mem_lit_cs_run {label s r : Str} (h : r ∈ (Re.lit cs label).run s) : s = label ++ r := by
  rw [lit_run] at h
  by_cases hok : litOk cs label s = true
  · simp only [hok, if_true, List.mem_singleton] at h
    obtain ⟨t, rfl⟩ := (litOk_cs_iff _ _).mp hok
    simp [h]
  · simp [hok] at h

/-- The pattern of a title line, `label\s*(.+)$`, on a line that has the form
`label <value>` and does not end in whitespace. -/
theorem captureAt_title (label w v : Str) (hw : ∀ c ∈ w, isSpace c = true) (hv : v ≠ [])
    (hdot : ∀ c ∈ v, isDot c = true) (hend : ∀ t c, v = t ++ [c] → isSpace c = false) :
    captureAt (.seq (Re.lit cs label) (.star isSpace)) (Re.plus isDot) .eoi (label ++ w ++ v)
      = some (v.dropWhile isSpace) := by
  obtain ⟨rest, hrest⟩ := starRun_eq_cons isSpace (w ++ v)
  have hdw : (w ++ v).dropWhile isSpace = v.dropWhile isSpace :=
    List.dropWhile_append_of_pos hw
  have hne : v.dropWhile isSpace ≠ [] := by
    obtain ⟨t, c, rfl⟩ : ∃ t c, v = t ++ [c] := by
      rcases List.eq_nil_or_concat v with h | ⟨t, c, h⟩
      · exact absurd h hv
      · exact ⟨t, c, by simpa using h⟩
    intro h
    have := (List.dropWhile_eq_nil_iff.mp h) c (by simp)
    rw [hend t c rfl] at this
    exact absurd this (by simp)
  have hall : ∀ c ∈ v.dropWhile isSpace, isDot c = true := fun c hc =>
    hdot c ((List.dropWhile_suffix isSpace).subset hc)
  have hrun : (Re.seq (Re.lit cs label) (.star isSpace)).run (label ++ w ++ v)
      = v.dropWhile isSpace :: rest := by
    rw [run_seq, List.append_assoc, lit_cs_run_append]
    simp only [List.flatMap_cons, List.flatMap_nil, List.append_nil]
    show starRun isSpace (w ++ v) = _
    rw [hrest, hdw]
  unfold captureAt
  rw [hrun, List.flatMap_cons, List.head?_append]
  have h1 : (capturesFrom (Re.plus isDot) .eoi (v.dropWhile isSpace)).head?
      = some (v.dropWhile isSpace) := by
    apply head?_eq_of_forall_eq
    · intro y hy
      exact (mem_capturesFrom_plus_eoi.mp hy).1
    · intro h
      have : v.dropWhile isSpace ∈ capturesFrom (Re.plus isDot) .eoi (v.dropWhile isSpace) :=
        mem_capturesFrom_plus_eoi.mpr ⟨rfl, hne, hall⟩
      rw [h] at this
      exact absurd this (List.not_mem_nil _)
  rw [h1]
  rfl

/-- A match of the pattern of a title line shows that the line has the form
`label <value>`. -/
theorem isTitleLine_of_captureAt (label line x : Str)
    (h : captureAt (.seq (Re.lit cs label) (.star isSpace)) (Re.plus isDot) .eoi line = some x) :
    IsTitleLine label line x := by
  have hmem := List.mem_of_mem_head? h
  simp only [List.mem_flatMap, run_seq] at hmem
  obtain ⟨r1, ⟨t, ht, hr1⟩, hx⟩ := hmem
  obtain ⟨rfl, hne, hall⟩ := mem_capturesFrom_plus_eoi.mp hx
  have hl := mem_lit_cs_run ht
  obtain ⟨w, rfl, hw⟩ := (mem_starRun (p := isSpace)).mp hr1
  exact ⟨w, by rw [hl, List.append_assoc], hw, hne, hall⟩

/-! ## Titles -/

theorem keep_of_qualifies {label l v : Str} (h : Qualifies label l v) :
    keepLine (trim l) = true := by
  obtain ⟨h1, h2, -⟩ := h
  cases ht : trim l with
  | nil => exact absurd ht h1
  | cons c t => rw [ht] at h2; simp [keepLine, h2]

theorem qualifies_of_keep {label l x : Str}
    (hk : keepLine (trim l) = true)
    (h : IsTitleLine label (trim l) x) : Qualifies label l x := by
  simp only [keepLine, Bool.and_eq_true, Bool.not_eq_true', List.isEmpty_eq_false] at hk
  refine ⟨?_, hk.2, h⟩
  intro hnil
  rw [hnil] at hk
  simp at hk

theorem firstTitle_of_qualifies (label : Str) (before : List Str) (line : Str)
    (after : List Str) (value : Str) (hb : ∀ l ∈ before, ∀ v, ¬ Qualifies label l v)
    (hq : Qualifies label line value) :
    firstTitle (.seq (Re.lit cs label) (.star isSpace))
      (((before ++ line :: after).map trim).filter keepLine) = some (trim value) := by
  induction before with
  | nil =>
    have hk := keep_of_qualifies hq
    obtain ⟨-, -, w, hline, hw, hv, hdot⟩ := hq
    have hend : ∀ t c, value = t ++ [c] → isSpace c = false := fun t c ht =>
      trim_ends_clean line (label ++ w ++ t) c (by rw [hline, ht]; simp only [List.append_assoc])
    have hcap := captureAt_title label w value hw hv hdot hend
    rw [← hline] at hcap
    simp only [List.nil_append, List.map_cons]
    rw [List.filter_cons_of_pos hk]
    simp only [firstTitle, hcap]
    rw [trim_eq, List.dropWhile_idempotent]
    rfl
  | cons l before ih =>
    have ih' := ih fun l' hl' => hb l' (List.mem_cons_of_mem _ hl')
    simp only [List.cons_append, List.map_cons]
    by_cases hk : keepLine (trim l) = true
    · rw [List.filter_cons_of_pos hk]
      cases hcap : captureAt (.seq (Re.lit cs label) (.star isSpace)) (Re.plus isDot) .eoi (trim l) with
      | none => simp only [firstTitle, hcap]; exact ih'
      | some x =>
        exact absurd (qualifies_of_keep hk (isTitleLine_of_captureAt label _ x hcap))
          (hb l (List.mem_cons_self _ _) x)
    · rw [List.filter_cons_of_neg hk]
      exact ih'

theorem firstTitle_eq_none (label : Str) (ls : List Str)
    (h : ∀ l ∈ ls, ∀ v, ¬ Qualifies label l v) :
    firstTitle (.seq (Re.lit cs label) (.star isSpace))
      ((ls.map trim).filter keepLine) = none := by
  induction ls with
  | nil => rfl
  | cons l ls ih =>
    have ih' := ih fun l' hl' => h l' (List.mem_cons_of_mem _ hl')
    simp only [List.map_cons]
    by_cases hk : keepLine (trim l) = true
    · rw [List.filter_cons_of_pos hk]
      cases hcap : captureAt (.seq (Re.lit cs label) (.star isSpace)) (Re.plus isDot) .eoi (trim l) with
      | none => simp only [firstTitle, hcap]; exact ih'
      | some x =>
        exact absurd (qualifies_of_keep hk (isTitleLine_of_captureAt label _ x hcap))
          (h l (List.mem_cons_self _ _) x)
    · rw [List.filter_cons_of_neg hk]
      exact ih'

theorem titleHead_eq (lang : Str) :
    (if lang = "hi".toList then nameHeadHindi else nameHead)
      = .seq (Re.lit cs (titleLabel lang)) (.star isSpace) := by
  unfold titleLabel
  split <;> rfl

theorem titleOfText_some (text lang : Str) :
    titleOfText (some text) lang =
      ((firstTitle (.seq (Re.lit cs (titleLabel lang)) (.star isSpace))
        (((splitLines text).map trim).filter keepLine)).getD
        "Untitled Recipe".toList) := by
  cases text with
  | nil =>
    have : firstTitle (.seq (Re.lit cs (titleLabel lang)) (.star isSpace))
        (((splitLines []).map trim).filter keepLine) = none := rfl
    rw [this]
    rfl
  | cons c t =>
    simp only [titleOfText]
    rw [titleHead_eq]


/-! ## Durations -/

theorem roundToDouble_exact (n : Nat) (h : n ≤ 2 ^ 53) : roundToDouble n = .finite n := by
  rcases Nat.lt_or_eq_of_le h with hlt | rfl
  · have he : excessBits n n = 0 := by
      cases n with
      | zero => rfl
      | succ k =>
        unfold excessBits
        rw [if_pos hlt]
    simp [roundToDouble, he, Nat.mod_one]
  · decide

theorem isDigit_of_isSpace {c : Char} (h : isSpace c = true) : isDigit c = false := by
  simp only [isSpace, isDigit, Bool.or_eq_true, beq_iff_eq, Bool.and_eq_true, decide_eq_true_eq] at h ⊢
  simp only [Bool.and_eq_false_imp, decide_eq_true_eq, decide_eq_false_iff_not]
  omega

theorem canon_of_isDigit {c : Char} (h : isDigit c = true) : canon c = c.toNat := by
  simp only [isDigit, Bool.and_eq_true, decide_eq_true_eq] at h
  simp only [canon]
  split
  · omega
  · split
    · omega
    · rfl

theorem startsWithUnit_head {r : Str} (h : StartsWithUnit r) :
    ∃ c t, r = c :: t ∧ isDigit c = false := by
  obtain ⟨u, hu, m, rest, rfl, hmap⟩ := h
  simp only [unitWords, List.mem_cons, List.mem_singleton, List.not_mem_nil, or_false] at hu
  have key : ∀ k : Nat, (k = 77 ∨ k = 0x92E) → ∀ (c : Char), canon c = k → isDigit c = false := by
    intro k hk c hc
    by_contra hd
    have hd' : isDigit c = true := by simpa using hd
    have h1 := canon_of_isDigit hd'
    simp only [isDigit, Bool.and_eq_true, decide_eq_true_eq] at hd'
    omega
  rcases hu with rfl | rfl | rfl | rfl | rfl <;>
    (obtain ⟨c, m', rfl, hc, -⟩ := List.map_eq_cons_iff.mp hmap
     refine ⟨c, m' ++ rest, rfl, key _ ?_ c hc⟩
     decide)

theorem durationAt_takeWhile {s d : Str} (h : DurationAt s d) : d = s.takeWhile isDigit := by
  obtain ⟨w, r, rfl, -, hd, hw, hr⟩ := h
  obtain ⟨c, t, rfl, hc⟩ := startsWithUnit_head hr
  rw [List.append_assoc, List.takeWhile_append_of_pos hd]
  cases w with
  | nil => simp [hc]
  | cons a w =>
    have := isDigit_of_isSpace (hw a (List.mem_cons_self _ _))
    simp [this]

theorem exists_mem_unit_run_iff (r : Str) :
    (∃ x, x ∈ (Re.alt (.seq (Re.lit ci "minute".toList) (.opt (.chr (ci 's'))))
        (.alt (.seq (Re.lit ci "min".toList) (.opt (.chr (ci 's'))))
          (Re.lit ci "मिनट".toList))).run r) ↔ StartsWithUnit r := by
  constructor
  · rintro ⟨x, hx⟩
    simp only [run_alt, run_seq, List.mem_append, List.mem_flatMap] at hx
    rcases hx with ⟨y, hy, -⟩ | ⟨y, hy, -⟩ | hx
    · obtain ⟨M, rfl, hM⟩ := mem_lit_ci_run hy
      exact ⟨_, by simp [unitWords], M, y, rfl, hM⟩
    · obtain ⟨M, rfl, hM⟩ := mem_lit_ci_run hy
      exact ⟨"min".toList, by simp [unitWords], M, y, rfl, hM⟩
    · obtain ⟨M, rfl, hM⟩ := mem_lit_ci_run hx
      exact ⟨"मिनट".toList, by simp [unitWords], M, x, rfl, hM⟩
  · rintro ⟨u, hu, m, rest, rfl, hmap⟩
    simp only [unitWords, List.mem_cons, List.mem_singleton, List.not_mem_nil, or_false] at hu
    have hopt : ∀ t : Str, t ∈ (Re.opt (.chr (ci 's'))).run t := fun t => by
      rw [run_opt]; simp
    rcases hu with rfl | rfl | rfl | rfl | rfl
    · refine ⟨rest, ?_⟩
      rw [run_alt, List.mem_append]
      left
      rw [run_seq, List.mem_flatMap]
      exact ⟨rest, by rw [lit_ci_run_append _ _ _ hmap]; simp, hopt rest⟩
    · have e : "minutes".toList = "minute".toList ++ ['s'] := by decide
      rw [e, List.map_append] at hmap
      obtain ⟨m1, m2, rfl, h1, -⟩ := List.map_eq_append_iff.mp hmap
      refine ⟨m2 ++ rest, ?_⟩
      rw [run_alt, List.mem_append]
      left
      rw [run_seq, List.mem_flatMap, List.append_assoc]
      exact ⟨m2 ++ rest, by rw [lit_ci_run_append _ _ _ h1]; simp, hopt _⟩
    · refine ⟨rest, ?_⟩
      rw [run_alt, List.mem_append]
      right
      rw [run_alt, List.mem_append]
      left
      rw [run_seq, List.mem_flatMap]
      exact ⟨rest, by rw [lit_ci_run_append _ _ _ hmap]; simp, hopt rest⟩
    · have e : "mins".toList = "min".toList ++ ['s'] := by decide
      rw [e, List.map_append] at hmap
      obtain ⟨m1, m2, rfl, h1, -⟩ := List.map_eq_append_iff.mp hmap
      refine ⟨m2 ++ rest, ?_⟩
      rw [run_alt, List.mem_append]
      right
      rw [run_alt, List.mem_append]
      left
      rw [run_seq, List.mem_flatMap, List.append_assoc]
      exact ⟨m2 ++ rest, by rw [lit_ci_run_append _ _ _ h1]; simp, hopt _⟩
    · refine ⟨rest, ?_⟩
      rw [run_alt, List.mem_append]
      right
      rw [run_alt, List.mem_append]
      right
      rw [lit_ci_run_append _ _ _ hmap]
      simp

theorem exists_mem_timeTail_run_iff (r2 : Str) :
    (∃ x, x ∈ timeTail.run r2) ↔
      ∃ w r, r2 = w ++ r ∧ (∀ c ∈ w, isSpace c = true) ∧ StartsWithUnit r := by
  unfold timeTail
  constructor
  · rintro ⟨x, hx⟩
    rw [run_seq, List.mem_flatMap] at hx
    obtain ⟨r, hr, hx⟩ := hx
    obtain ⟨w, rfl, hw⟩ := (mem_starRun (p := isSpace)).mp hr
    exact ⟨w, r, rfl, hw, (exists_mem_unit_run_iff r).mp ⟨x, hx⟩⟩
  · rintro ⟨w, r, rfl, hw, hr⟩
    obtain ⟨x, hx⟩ := (exists_mem_unit_run_iff r).mpr hr
    refine ⟨x, ?_⟩
    rw [run_seq, List.mem_flatMap]
    exact ⟨r, (mem_starRun (p := isSpace)).mpr ⟨w, rfl, hw⟩, hx⟩

theorem mem_capturesFrom_time {s y : Str} :
    y ∈ capturesFrom (Re.plus isDigit) timeTail s ↔ DurationAt s y := by
  simp only [capturesFrom, List.mem_flatMap, List.mem_map, mem_plus_run]
  constructor
  · rintro ⟨r2, ⟨d, hne, rfl, hd⟩, x, hx, rfl⟩
    obtain ⟨w, r, rfl, hw, hr⟩ := (exists_mem_timeTail_run_iff r2).mp ⟨x, hx⟩
    refine ⟨w, r, by simp, ?_, ?_, hw, hr⟩ <;> simp [hne, hd]
    exact hd
  · rintro ⟨w, r, rfl, hne, hd, hw, hr⟩
    obtain ⟨x, hx⟩ := (exists_mem_timeTail_run_iff (w ++ r)).mpr ⟨w, r, rfl, hw, hr⟩
    exact ⟨w ++ r, ⟨y, hne, by simp, hd⟩, x, hx, by simp⟩

theorem captureAt_time_eq_some {s d : Str} (h : DurationAt s d) :
    captureAt .eps (Re.plus isDigit) timeTail s = some d := by
  unfold captureAt
  show ([s].flatMap fun r1 => capturesFrom (Re.plus isDigit) timeTail r1).head? = some d
  simp only [List.flatMap_cons, List.flatMap_nil, List.append_nil]
  apply head?_eq_of_forall_eq
  · intro y hy
    rw [durationAt_takeWhile (mem_capturesFrom_time.mp hy), durationAt_takeWhile h]
  · intro hnil
    have := mem_capturesFrom_time.mpr h
    rw [hnil] at this
    exact absurd this (List.not_mem_nil _)

theorem captureAt_time_eq_none_iff (s : Str) :
    captureAt .eps (Re.plus isDigit) timeTail s = none ↔ ∀ d, ¬ DurationAt s d := by
  constructor
  · intro h d hd
    rw [captureAt_time_eq_some hd] at h
    exact absurd h (by simp)
  · intro h
    cases hc : captureAt .eps (Re.plus isDigit) timeTail s with
    | none => rfl
    | some d =>
      have hmem := List.mem_of_mem_head? hc
      have : d ∈ capturesFrom (Re.plus isDigit) timeTail s := by
        have h' : d ∈ [s].flatMap fun r1 => capturesFrom (Re.plus isDigit) timeTail r1 := hmem
        simpa using h'
      exact absurd (mem_capturesFrom_time.mp this) (h d)

/-! ## Searching -/

theorem search_of_head {α : Type} (f : Str → Option α) (s : Str) (a : α) (h : f s = some a) :
    search f s = some a := by
  cases s with
  | nil => exact h
  | cons c s => simp [search, h]

theorem search_skip {α : Type} (f : Str → Option α) (p s : Str)
    (h : ∀ i, i < p.length → f ((p ++ s).drop i) = none) : search f (p ++ s) = search f s := by
  induction p with
  | nil => rfl
  | cons c p ih =>
    have h0 := h 0 (by simp)
    simp only [List.drop_zero, List.cons_append] at h0
    have ih' := ih fun i hi => by
      have := h (i + 1) (by simpa using hi)
      simpa using this
    show (match f (c :: (p ++ s)) with
      | some a => some a
      | none => search f (p ++ s)) = search f s
    rw [h0]
    exact ih'

theorem search_eq_none {α : Type} (f : Str → Option α) (s : Str)
    (h : ∀ i, f (s.drop i) = none) : search f s = none := by
  induction s with
  | nil => exact h 0
  | cons c s ih =>
    have h0 := h 0
    simp only [List.drop_zero] at h0
    simp only [search, h0]
    exact ih fun i => by simpa using h (i + 1)

/-! # The claims -/

/-! ## Ingredients and steps of the cooking page -/

/-- C1: on the Tomato Soup document in language `en` the parse effect of the
cooking page yields the ingredient list `["Salt"]`: the bullet of the first
ingredient is consumed by the pattern in front of the capture group, so the
item `Tomato` is lost, while `extractSections` of the saved-recipes page reads
`["Tomato", "Salt"]` from the same document. -/
theorem c1_first_ingredient_lost :
    (parseEffect (sessionOf ⟨"Tomato Soup".toList, tomatoSoup, none⟩ "en".toList)).ingredients
      = ["Salt".toList] ∧
    (extractSections tomatoSoup "en".toList).ingredients
      = ["Tomato".toList, "Salt".toList] := by
  decide

/-- C2: on a bilingual document whose Hindi part has the heading
`**निर्देश:**`, the parse effect of the cooking page reads the Hindi step in
language `hi`, and `getInstructions` of the history page returns no step at
all, because its pattern spells the Hindi heading differently.  On the Tomato
Soup document in language `en` both give the two steps. -/
theorem c2_history_steps_missing_in_hindi :
    cookingInstructions (cookingContentToUse bilingualSoup "hi".toList)
      = some ["उबालें".toList] ∧
    getInstructions bilingualSoup "hi".toList = [] ∧
    cookingInstructions (cookingContentToUse tomatoSoup "en".toList)
      = some ["Boil for 5 minutes".toList, "Serve hot".toList] ∧
    getInstructions tomatoSoup "en".toList
      = ["Boil for 5 minutes".toList, "Serve hot".toList] := by
  decide

/-! ## Durations -/

/-- C3, as amended: when the leftmost occurrence of
`<digits><optional whitespace><unit>` in a step text has the digits `d`,
`extractTimeFromStep` returns `parseInt` of `d`, which is the integer that `d`
writes whenever that integer is at most `2 ^ 53`; it returns `null` when the
text has no such occurrence; `"Simmer for 10 minutes"` gives 10,
`"Boil for 5 minutes"` gives 5 and `"Serve hot"` gives `null`. -/
theorem c3_duration_of_leftmost_occurrence :
    (∀ p s d : Str, DurationAt s d →
      (∀ i, i < p.length → ∀ d1, ¬ DurationAt ((p ++ s).drop i) d1) →
      extractTimeFromStep (p ++ s) = some (parseInt d) ∧
      (decimalValue d ≤ 2 ^ 53 →
        extractTimeFromStep (p ++ s) = some (.finite (decimalValue d)))) ∧
    (∀ text : Str, (∀ i d, ¬ DurationAt (text.drop i) d) → extractTimeFromStep text = none) ∧
    extractTimeFromStep "Simmer for 10 minutes".toList = some (.finite 10) ∧
    extractTimeFromStep "Boil for 5 minutes".toList = some (.finite 5) ∧
    extractTimeFromStep "Serve hot".toList = none := by
  refine ⟨?_, ?_, by decide, by decide, by decide⟩
  · intro p s d hd hleft
    have hm : jsMatch1 .eps (Re.plus isDigit) timeTail (p ++ s) = some d := by
      unfold jsMatch1
      rw [search_skip _ p s fun i hi =>
        (captureAt_time_eq_none_iff _).mpr (hleft i hi)]
      exact search_of_head _ _ _ (captureAt_time_eq_some hd)
    have h1 : extractTimeFromStep (p ++ s) = some (parseInt d) := by
      unfold extractTimeFromStep
      rw [hm]
      rfl
    refine ⟨h1, fun hle => ?_⟩
    rw [h1]
    unfold parseInt
    rw [roundToDouble_exact _ hle]
  · intro text hnone
    unfold extractTimeFromStep jsMatch1
    rw [search_eq_none _ text fun i => (captureAt_time_eq_none_iff _).mpr (hnone i)]
    rfl

/-- C3 for the step `"Boil for 5 minutes"`, where no occurrence starts inside
`"Boil for "`. -/
theorem c3_duration_of_leftmost_occurrence_witness :
    extractTimeFromStep ("Boil for ".toList ++ "5 minutes".toList)
      = some (.finite (decimalValue "5".toList)) :=
  (c3_duration_of_leftmost_occurrence.1 "Boil for ".toList "5 minutes".toList "5".toList
    ⟨" ".toList, "minutes".toList, by decide, by decide, by decide, by decide,
      "minutes".toList, by decide, "minutes".toList, [], by decide, rfl⟩
    (fun i hi d1 => by
      have h : ∀ j, j < 9 → captureAt .eps (Re.plus isDigit) timeTail
          (("Boil for ".toList ++ "5 minutes".toList).drop j) = none := by decide
      exact (captureAt_time_eq_none_iff _).mp (h i hi) d1)).2 (by decide)

/-- C3 as stated fails: in `"9007199254740993 minutes"` the only occurrence has
the digits `9007199254740993`, and `extractTimeFromStep` returns
9007199254740992, the nearest Number value, not the integer written. -/
theorem c3_large_duration_is_rounded :
    ¬ (∀ p s d : Str, DurationAt s d →
      (∀ i, i < p.length → ∀ d1, ¬ DurationAt ((p ++ s).drop i) d1) →
      extractTimeFromStep (p ++ s) = some (.finite (decimalValue d))) := by
  intro h
  have h1 := h [] "9007199254740993 minutes".toList "9007199254740993".toList
    ⟨" ".toList, "minutes".toList, by decide, by decide, by decide, by decide,
      "minutes".toList, by decide, "minutes".toList, [], by decide, rfl⟩
    (fun i hi => absurd hi (by simp))
  have h2 : extractTimeFromStep ([] ++ "9007199254740993 minutes".toList)
      = some (.finite 9007199254740992) := by decide
  rw [h2] at h1
  exact absurd h1 (by decide)

/-! ## Titles and language variants -/

/-- C4: `extractTitle` returns the trimmed value of the first line of the
chosen language variant that, once trimmed, is non-empty, does not mention
`translation` and has the form `**Name:** <value>` (`**नाम:** <value>` for
`hi`); it returns `"Untitled Recipe"` when no line qualifies or when the
variant is missing; on the Tomato Soup document in `en` it returns
`"Tomato Soup"`. -/
theorem c4_title_of_first_qualifying_line (content lang : Str) :
    (∀ text before line after value,
      languageVariant content lang = some text →
      splitLines text = before ++ line :: after →
      (∀ l ∈ before, ∀ v, ¬ Qualifies (titleLabel lang) l v) →
      Qualifies (titleLabel lang) line value →
      extractTitle content lang = trim value) ∧
    (∀ text, languageVariant content lang = some text →
      (∀ l ∈ splitLines text, ∀ v, ¬ Qualifies (titleLabel lang) l v) →
      extractTitle content lang = "Untitled Recipe".toList) ∧
    (languageVariant content lang = none →
      extractTitle content lang = "Untitled Recipe".toList) ∧
    extractTitle tomatoSoup "en".toList = "Tomato Soup".toList := by
  refine ⟨?_, ?_, ?_, by decide⟩
  · intro text before line after value hv hsplit hb hq
    unfold extractTitle
    rw [hv, titleOfText_some, hsplit, firstTitle_of_qualifies _ _ _ _ _ hb hq]
    rfl
  · intro text hv hnone
    unfold extractTitle
    rw [hv, titleOfText_some, firstTitle_eq_none _ _ hnone]
    rfl
  · intro hv
    unfold extractTitle
    rw [hv]
    rfl

/-- C4 on the Tomato Soup document, whose first line qualifies. -/
theorem c4_title_of_first_qualifying_line_witness :
    extractTitle tomatoSoup "en".toList = trim "Tomato Soup".toList :=
  (c4_title_of_first_qualifying_line tomatoSoup "en".toList).1 tomatoSoup []
    "**Name:** Tomato Soup".toList
    ["**Ingredients:**".toList, "* Tomato".toList, "* Salt".toList, "**Instructions:**".toList,
      "1. Boil for 5 minutes".toList, "2. Serve hot".toList]
    "Tomato Soup".toList (by decide) (by decide) (fun l hl => absurd hl (List.not_mem_nil l))
    ⟨by decide, by decide, " ".toList, by decide, by decide, by decide, by decide⟩

/-- C5: when no marker occurs in the raw content, the Hindi variant is missing
(`parts[1]` is `undefined`, and the Hindi text of the cooking page is empty)
and `extractTitle(content, 'hi')` returns `"Untitled Recipe"`. -/
theorem c5_no_marker_gives_untitled (content : Str) (h : ∀ i, ¬ MarkerStartsAt content i) :
    (jsSplit markerColon content).get? 1 = none ∧
    cookingContentToUse content "hi".toList = [] ∧
    extractTitle content "hi".toList = "Untitled Recipe".toList := by
  have hs : jsSplit markerColon content = [content] :=
    jsSplit_of_no_match _ _ ((splitFirst_eq_none_iff content).mpr h)
  have hp : jsSplit markerPlain content = [content] := by
    apply jsSplit_of_no_match
    apply splitFirst_eq_none
    intro i _
    cases hm : matchAt markerPlain (content.drop i) with
    | none => rfl
    | some r => exact absurd (markerPlain_isMarker hm) (h i)
  refine ⟨by simp [hs], ?_, ?_⟩
  · simp [cookingContentToUse, hp]
  · have hv : languageVariant content "hi".toList = none := by
      simp [languageVariant, hs]
    unfold extractTitle
    rw [hv]
    rfl

/-- C5 on the Tomato Soup document, which has no marker. -/
theorem c5_no_marker_gives_untitled_witness :
    (jsSplit markerColon tomatoSoup).get? 1 = none ∧
    cookingContentToUse tomatoSoup "hi".toList = [] ∧
    extractTitle tomatoSoup "hi".toList = "Untitled Recipe".toList :=
  c5_no_marker_gives_untitled tomatoSoup ((splitFirst_eq_none_iff tomatoSoup).mp (by decide))

/-- C6, as amended: when the first marker of the content is `M`, with `en`
before it and `rest` after it, the English variant used by the extractors is
`en` (and `getLanguageContent` shows it trimmed); the Hindi variant is `rest`
when no marker occurs in `rest`, and otherwise it is the part of `rest` before
the next marker. -/
theorem c6_variants_between_markers (en M rest : Str) (hM : IsMarker M)
    (hfirst : ∀ i, i < en.length → ¬ MarkerStartsAt (en ++ M ++ rest) i) :
    languageVariant (en ++ M ++ rest) "en".toList = some en ∧
    getLanguageContent (en ++ M ++ rest) "en".toList = trim en ∧
    ((∀ i, ¬ MarkerStartsAt rest i) →
      languageVariant (en ++ M ++ rest) "hi".toList = some rest) ∧
    (∀ hi M2 tail, rest = hi ++ M2 ++ tail → IsMarker M2 →
      (∀ i, i < hi.length → ¬ MarkerStartsAt rest i) →
      languageVariant (en ++ M ++ rest) "hi".toList = some hi) := by
  have hsplit : splitFirst markerColon (en ++ M ++ rest) = some (en, rest) := by
    rw [List.append_assoc]
    apply splitFirst_append
    · intro i hi
      have := hfirst i hi
      rw [markerStartsAt_iff, List.append_assoc] at this
      simpa using this
    · exact matchAt_markerColon_append M rest hM
    · simp [isMarker_ne_nil hM]
  have hlen : (en ++ M ++ rest).length = (en.length + (M.length - 1) + rest.length) + 1 := by
    have : 0 < M.length := List.length_pos.mpr (isMarker_ne_nil hM)
    simp only [List.length_append]
    omega
  have hjs : jsSplit markerColon (en ++ M ++ rest)
      = en :: jsSplitAux markerColon (en.length + (M.length - 1) + rest.length) rest := by
    unfold jsSplit
    rw [hlen]
    simp only [jsSplitAux]
    rw [hsplit]
  have hhi : ∀ x, (jsSplit markerColon (en ++ M ++ rest)).get? 1 = x →
      languageVariant (en ++ M ++ rest) "hi".toList = x := by
    intro x hx
    unfold languageVariant
    rw [← hx]
    rfl
  refine ⟨by unfold languageVariant; rw [hjs]; rfl,
    by unfold getLanguageContent; rw [hjs]; rfl, ?_, ?_⟩
  · intro hnone
    apply hhi
    have h2 := jsSplitAux_head markerColon (en.length + (M.length - 1) + rest.length) rest
    rw [(splitFirst_eq_none_iff rest).mpr hnone] at h2
    rw [hjs]
    simp only [List.get?_cons_succ, List.get?_zero]
    rw [h2]
    cases (en.length + (M.length - 1) + rest.length) <;> rfl
  · intro hi M2 tail hrest hM2 hhi2
    apply hhi
    have hsplit2 : splitFirst markerColon rest = some (hi, tail) := by
      rw [hrest, List.append_assoc]
      apply splitFirst_append
      · intro i hlt
        have := hhi2 i hlt
        rw [markerStartsAt_iff, hrest, List.append_assoc] at this
        simpa using this
      · exact matchAt_markerColon_append M2 tail hM2
      · simp [isMarker_ne_nil hM2]
    have h2 := jsSplitAux_head markerColon (en.length + (M.length - 1) + rest.length) rest
    rw [hsplit2] at h2
    have hpos : 0 < en.length + (M.length - 1) + rest.length := by
      have : 0 < M2.length := List.length_pos.mpr (isMarker_ne_nil hM2)
      have : rest.length = hi.length + M2.length + tail.length := by
        rw [hrest]; simp only [List.length_append]
      omega
    rw [hjs]
    simp only [List.get?_cons_succ, List.get?_zero]
    rw [h2]
    obtain ⟨k, hk⟩ := Nat.exists_eq_succ_of_ne_zero (Nat.pos_iff_ne_zero.mp hpos)
    rw [hk]

/-- C6 on the document with two markers: the English variant is the text
before the first marker. -/
theorem c6_variants_between_markers_witness :
    languageVariant ("**Name:** A\n".toList ++ "**Hindi Translation**".toList ++
      "\n**नाम:** B\n**Hindi Translation**\n**नाम:** C".toList) "en".toList
      = some "**Name:** A\n".toList :=
  (c6_variants_between_markers "**Name:** A\n".toList "**Hindi Translation**".toList
    "\n**नाम:** B\n**Hindi Translation**\n**नाम:** C".toList
    ⟨"**Hindi Translation**".toList, by decide, rfl⟩
    (fun i hi => by
      have h : ∀ j, j < 12 → matchAt markerColon (twoMarkers.drop j) = none := by decide
      rw [markerStartsAt_iff]
      exact fun hne => hne (h i hi))).1

/-- C6 as stated fails: in the document with two markers the Hindi variant is
the text between the two markers, not everything after the first one. -/
theorem c6_second_marker_ends_hindi_variant :
    ¬ (∀ en M rest : Str, IsMarker M →
      (∀ i, i < en.length → ¬ MarkerStartsAt (en ++ M ++ rest) i) →
      languageVariant (en ++ M ++ rest) "hi".toList = some rest) := by
  intro h
  have h1 := h "**Name:** A\n".toList "**Hindi Translation**".toList
    "\n**नाम:** B\n**Hindi Translation**\n**नाम:** C".toList
    ⟨"**Hindi Translation**".toList, by decide, rfl⟩
    (fun i hi => by
      have h : ∀ j, j < 12 → matchAt markerColon (twoMarkers.drop j) = none := by decide
      rw [markerStartsAt_iff]
      exact fun hne => hne (h i hi))
  have h2 : languageVariant ("**Name:** A\n".toList ++ "**Hindi Translation**".toList ++
      "\n**नाम:** B\n**Hindi Translation**\n**नाम:** C".toList) "hi".toList
      = some "\n**नाम:** B\n".toList := by decide
  rw [h2] at h1
  exact absurd h1 (by decide)

/-- C7: for the document whose marker is `**Hindi Translation:**` the parse
effect of the cooking page finds no marker.  In language `hi` it reads nothing
(both lists stay empty), and in language `en` it reads the steps of the whole
document, the Hindi step included; the marker pattern of `extractTitle` in the
same file does cut this document in two, and with the marker
`**Hindi Translation**` the parse effect reads the Hindi step. -/
theorem c7_colon_marker_not_recognised :
    (parseEffect (sessionOf ⟨"Soup".toList, bilingualSoupColon, none⟩ "hi".toList)).instructions
      = [] ∧
    (parseEffect (sessionOf ⟨"Soup".toList, bilingualSoupColon, none⟩ "hi".toList)).ingredients
      = [] ∧
    (parseEffect (sessionOf ⟨"Soup".toList, bilingualSoupColon, none⟩ "en".toList)).instructions
      = ["Boil".toList, "उबालें".toList] ∧
    (jsSplit markerPlain bilingualSoupColon).length = 1 ∧
    (jsSplit markerColon bilingualSoupColon).length = 2 ∧
    (parseEffect (sessionOf ⟨"Soup".toList, bilingualSoup, none⟩ "hi".toList)).instructions
      = ["उबालें".toList] := by
  decide

/-! ## Step navigation -/

/-- C8: with `n ≥ 1` instructions and `0 ≤ currentStep ≤ n - 1`, every finite
sequence of `nextStep` and `prevStep` calls keeps `currentStep` within
`0 .. n - 1`; `nextStep` adds exactly 1 below the last index and changes
nothing at the last index, `prevStep` subtracts exactly 1 above 0 and changes
nothing at 0. -/
theorem c8_step_index_stays_in_range (s : Session) (n : Nat) (_hn : 1 ≤ n)
    (hlen : s.instructions.length = n) (h0 : 0 ≤ s.currentStep)
    (h1 : s.currentStep ≤ (n : Int) - 1) :
    (∀ bs : List StepButton,
      0 ≤ (bs.foldl (fun t b => b.handler t) s).currentStep ∧
      (bs.foldl (fun t b => b.handler t) s).currentStep ≤ (n : Int) - 1 ∧
      (bs.foldl (fun t b => b.handler t) s).instructions.length = n) ∧
    (s.currentStep < (n : Int) - 1 → (nextStep s).currentStep = s.currentStep + 1) ∧
    (s.currentStep = (n : Int) - 1 → nextStep s = s) ∧
    (0 < s.currentStep → (prevStep s).currentStep = s.currentStep - 1) ∧
    (s.currentStep = 0 → prevStep s = s) := by
  refine ⟨?_, ?_, ?_, ?_, ?_⟩
  · intro bs
    induction bs generalizing s with
    | nil => exact ⟨h0, h1, hlen⟩
    | cons b bs ih =>
      simp only [List.foldl_cons]
      apply ih
      · cases b <;> simp only [StepButton.handler, nextStep, prevStep] <;> split <;> simp [hlen]
      · cases b <;> simp only [StepButton.handler, nextStep, prevStep] <;> split <;>
          (try simp only []) <;> omega
      · cases b <;> simp only [StepButton.handler, nextStep, prevStep] <;> split <;>
          (try simp only []) <;> omega
  · intro h
    simp [nextStep, hlen, h]
  · intro h
    simp [nextStep, hlen, h]
  · intro h
    simp [prevStep, h]
  · intro h
    simp [prevStep, h]

/-- C8 at a session with three instructions standing on the middle one. -/
theorem c8_step_index_stays_in_range_witness :
    (∀ bs : List StepButton,
      0 ≤ (bs.foldl (fun t b => b.handler t) middleSession).currentStep ∧
      (bs.foldl (fun t b => b.handler t) middleSession).currentStep ≤ ((3 : Nat) : Int) - 1 ∧
      (bs.foldl (fun t b => b.handler t) middleSession).instructions.length = 3) ∧
    (middleSession.currentStep < ((3 : Nat) : Int) - 1 →
      (nextStep middleSession).currentStep = middleSession.currentStep + 1) ∧
    (middleSession.currentStep = ((3 : Nat) : Int) - 1 → nextStep middleSession = middleSession) ∧
    (0 < middleSession.currentStep →
      (prevStep middleSession).currentStep = middleSession.currentStep - 1) ∧
    (middleSession.currentStep = 0 → prevStep middleSession = middleSession) :=
  c8_step_index_stays_in_range middleSession 3 (by decide) (by decide) (by decide) (by decide)

/-! ## Persistence of the session -/

/-- The parse effect leaves the recipe, the step and the language alone. -/
theorem parseEffect_keeps (s : Session) :
    (parseEffect s).recipe = s.recipe ∧ (parseEffect s).currentStep = s.currentStep ∧
    (parseEffect s).lang = s.lang := by
  unfold parseEffect
  split
  · exact ⟨rfl, rfl, rfl⟩
  · simp only []
    cases cookingIngredients _ <;> cases cookingInstructions _ <;> exact ⟨rfl, rfl, rfl⟩

/-- C9: in a session with `n ≥ 2` steps that stands on step `n - 2`, the click
on `nextStep` moves `currentStep` to `n - 1`, the record then stored under the
recipe key has `completed = true`, and one completion request is sent; a
further click on `nextStep` changes neither the session nor the store, writes
nothing and sends nothing. -/
theorem c9_completion_written_once (s : Session) (w : World) (r : RecipeData) (n : Nat)
    (now later : Str) (hr : s.recipe = some r) (hlen : s.instructions.length = n)
    (hn : 2 ≤ n) (hstep : s.currentStep = (n : Int) - 2) :
    (click now nextStep (s, w)).1.currentStep = (n : Int) - 1 ∧
    (click now nextStep (s, w)).2.storage (archiveKey r.title)
      = some { recipe := r, currentStep := (n : Int) - 1, lang := s.lang,
               lastLeftAt := some now, completed := some true } ∧
    (click now nextStep (s, w)).2.patches = (r.id, (n : Int) - 1) :: w.patches ∧
    click later nextStep (click now nextStep (s, w)) = click now nextStep (s, w) := by
  have hlt : s.currentStep < (s.instructions.length : Int) - 1 := by omega
  have hne : ¬ (s.currentStep + 1 = s.currentStep) := by omega
  have hpos : 0 < s.instructions.length := by omega
  have hlast : s.currentStep + 1 = (s.instructions.length : Int) - 1 := by omega
  have hc : click now nextStep (s, w) =
      ({ s with currentStep := s.currentStep + 1 },
        saveEffect now { s with currentStep := s.currentStep + 1 } w) := by
    simp [click, nextStep, hlt]
  rw [hc]
  refine ⟨?_, ?_, ?_, ?_⟩
  · simp only []; omega
  · simp only [saveEffect, hr, hpos, hlast, if_true, World.setItem, Storage.setItem]
    have : s.currentStep + 1 = (n : Int) - 1 := by omega
    simp [this, hlen]
  · simp only [saveEffect, hr, hpos, hlast, if_true, World.setItem]
    have : s.currentStep + 1 = (n : Int) - 1 := by omega
    simp [this, hlen]
  · have hge : ¬ (s.currentStep + 1 < (s.instructions.length : Int) - 1) := by omega
    simp [click, nextStep, hge]

/-- C9 at the Tomato Soup session on its first step. -/
theorem c9_completion_written_once_witness :
    (click "t1".toList nextStep ((mount "t0".toList tomatoNav emptyWorld).1, emptyWorld)).1.currentStep
      = ((2 : Nat) : Int) - 1 ∧
    (click "t1".toList nextStep ((mount "t0".toList tomatoNav emptyWorld).1, emptyWorld)).2.storage
        (archiveKey tomatoRecipe.title)
      = some { recipe := tomatoRecipe, currentStep := ((2 : Nat) : Int) - 1,
               lang := (mount "t0".toList tomatoNav emptyWorld).1.lang,
               lastLeftAt := some "t1".toList, completed := some true } ∧
    (click "t1".toList nextStep ((mount "t0".toList tomatoNav emptyWorld).1, emptyWorld)).2.patches
      = (tomatoRecipe.id, ((2 : Nat) : Int) - 1) :: emptyWorld.patches ∧
    click "t2".toList nextStep
        (click "t1".toList nextStep ((mount "t0".toList tomatoNav emptyWorld).1, emptyWorld))
      = click "t1".toList nextStep ((mount "t0".toList tomatoNav emptyWorld).1, emptyWorld) :=
  c9_completion_written_once (mount "t0".toList tomatoNav emptyWorld).1 emptyWorld tomatoRecipe 2
    "t1".toList "t2".toList (by decide) (by decide) (by decide) (by decide)

/-- C10: when the save effect has persisted a session with a recipe and a
non-empty instruction list, the load effect of a fresh mount restores the
same recipe, `currentStep` and language; in particular starting the Tomato
Soup recipe, one `nextStep` and a reload give `currentStep = 1`, and none of
the three renders of that scenario throws. -/
theorem c10_save_then_load_restores (s : Session) (w : World) (r : RecipeData)
    (now : Str) (nav : Option NavState) (hr : s.recipe = some r)
    (hne : s.instructions ≠ []) :
    (loadEffect (saveEffect now s w).storage nav initialSession).recipe = some r ∧
    (loadEffect (saveEffect now s w).storage nav initialSession).currentStep = s.currentStep ∧
    (loadEffect (saveEffect now s w).storage nav initialSession).lang = s.lang ∧
    renderThrows (mount "t0".toList tomatoNav emptyWorld).1 = false ∧
    renderThrows (click "t1".toList nextStep (mount "t0".toList tomatoNav emptyWorld)).1
      = false ∧
    renderThrows (mount "t2".toList none
      (click "t1".toList nextStep (mount "t0".toList tomatoNav emptyWorld)).2).1 = false ∧
    (mount "t2".toList none
      (click "t1".toList nextStep (mount "t0".toList tomatoNav emptyWorld)).2).1.currentStep = 1 := by
  have hpos : 0 < s.instructions.length := List.length_pos.mpr hne
  have hkey : ∀ t : Str, ¬ (currentKey = archiveKey t) := by
    intro t h
    have := congrArg List.length h
    simp [currentKey, archiveKey] at this
  have hst : (saveEffect now s w).storage currentKey
      = some { recipe := r, currentStep := s.currentStep, lang := s.lang,
               lastLeftAt := some now, completed := none } := by
    simp only [saveEffect, hr, hpos, if_true]
    split <;> simp [World.setItem, Storage.setItem, hkey]
  have hload : loadEffect (saveEffect now s w).storage nav initialSession
      = { initialSession with recipe := some r, currentStep := s.currentStep, lang := s.lang } := by
    simp [loadEffect, hst]
  refine ⟨?_, ?_, ?_, by decide, by decide, by decide, by decide⟩
  · rw [hload]
  · rw [hload]
  · rw [hload]

/-- C10 at the Tomato Soup session after its mount. -/
theorem c10_save_then_load_restores_witness :
    (loadEffect (saveEffect "t1".toList (mount "t0".toList tomatoNav emptyWorld).1
      emptyWorld).storage none initialSession).recipe = some tomatoRecipe ∧
    (loadEffect (saveEffect "t1".toList (mount "t0".toList tomatoNav emptyWorld).1
      emptyWorld).storage none initialSession).currentStep
      = (mount "t0".toList tomatoNav emptyWorld).1.currentStep ∧
    (loadEffect (saveEffect "t1".toList (mount "t0".toList tomatoNav emptyWorld).1
      emptyWorld).storage none initialSession).lang
      = (mount "t0".toList tomatoNav emptyWorld).1.lang :=
  ⟨(c10_save_then_load_restores (mount "t0".toList tomatoNav emptyWorld).1 emptyWorld tomatoRecipe
      "t1".toList none (by decide) (by decide)).1,
   (c10_save_then_load_restores (mount "t0".toList tomatoNav emptyWorld).1 emptyWorld tomatoRecipe
      "t1".toList none (by decide) (by decide)).2.1,
   (c10_save_then_load_restores (mount "t0".toList tomatoNav emptyWorld).1 emptyWorld tomatoRecipe
      "t1".toList none (by decide) (by decide)).2.2.1⟩

/-! ## The progress slots -/

theorem currentKey_ne_archiveKey (t : Str) : currentKey ≠ archiveKey t := by
  intro h
  have := congrArg List.length h
  simp [currentKey, archiveKey] at this

theorem storage_setItem_same (st : Storage) (k : Str) (v : Progress) :
    st.setItem k v k = some v := by
  simp [Storage.setItem]

theorem storage_setItem_other (st : Storage) (k j : Str) (v : Progress) (h : j ≠ k) :
    st.setItem k v j = st j := by
  simp [Storage.setItem, h]

theorem loadEffectRaw_raw (st : Storage) (nav : Option NavState) (s : Session) :
    loadEffectRaw st.raw nav s = .ok (loadEffect st nav s) := by
  unfold loadEffectRaw loadEffect Storage.raw
  cases st currentKey <;> rfl

theorem mount_session (now : Str) (nav : Option NavState) (w : World) :
    (mount now nav w).1 = parseEffect (loadEffect w.storage nav initialSession) := rfl

/-! ## Resuming and restarting from the other pages -/

/-- C11: the tea recipe is archived at step 1 and the current-session slot is
empty.  Continuing it from the history page in English and mounting the cooking
page gives a session on that recipe in English, but at `currentStep = 0`, and
the save effect of the mount then overwrites the archived step with 0.  When
the current-session slot holds the Tomato Soup recipe, the same steps give a
session on Tomato Soup in English.  `handleContinueCooking` leaves the
current-session slot as it was. -/
theorem c11_continue_ignores_archived_step :
    getContinueLaterInfo teaArchived.world.storage.raw teaRecipe
      = some { currentStep := 1, lastLeftAt := some "t0".toList, lang := "en".toList } ∧
    (continueFromHistory teaRecipe "en".toList "t1".toList "t2".toList teaArchived).map
        (fun r => (r.1.recipe, r.1.currentStep, r.1.lang))
      = .ok (some (plainRecipe teaRecipe), 0, "en".toList) ∧
    (continueFromHistory teaRecipe "en".toList "t1".toList "t2".toList teaArchived).map
        (fun r => (r.2.storage (archiveKey "Tea".toList)).map fun p => p.currentStep)
      = .ok (some 0) ∧
    (continueFromHistory teaRecipe "en".toList "t1".toList "t2".toList teaArchivedSoupCurrent).map
        (fun r => (r.1.recipe, r.1.currentStep, r.1.lang))
      = .ok (some tomatoRecipe, 0, "en".toList) ∧
    (handleContinueCooking teaRecipe "en".toList 1 "t1".toList teaArchived).world.storage currentKey
      = none := by
  decide

theorem loadEffect_of_current (st : Storage) (nav : Option NavState) (s : Session) (p : Progress)
    (h : st currentKey = some p) :
    loadEffect st nav s
      = { s with recipe := some p.recipe, currentStep := p.currentStep, lang := p.lang } := by
  simp [loadEffect, h]

theorem mount_of_current (now : Str) (nav : Option NavState) (w : World) (p : Progress)
    (h : w.storage currentKey = some p) :
    (mount now nav w).1.recipe = some p.recipe ∧
    (mount now nav w).1.currentStep = p.currentStep ∧ (mount now nav w).1.lang = p.lang := by
  have hk := parseEffect_keeps (loadEffect w.storage nav initialSession)
  rw [mount_session, hk.1, hk.2.1, hk.2.2, loadEffect_of_current _ _ _ p h]
  exact ⟨rfl, rfl, rfl⟩

/-- C12: after a successful `handleRecook(recipe, lang)` the archived record
under the recipe key has `currentStep = 0` and `completed = false`, the
current-session slot holds the same recipe (its title and content) and
language with `currentStep = 0`, and the mount of the cooking page that
follows starts that recipe at step 0 in that language. -/
theorem c12_recook_resets_both_slots (recipe : RecipeData) (lang now later : Str) (b : Browser) :
    (handleRecook recipe lang true now b).world.storage (archiveKey recipe.title)
      = some { recipe := plainRecipe recipe, currentStep := 0, lang := lang,
               lastLeftAt := some now, completed := some false } ∧
    (handleRecook recipe lang true now b).world.storage currentKey
      = some { recipe := plainRecipe recipe, currentStep := 0, lang := lang,
               lastLeftAt := none, completed := none } ∧
    (mountAfter later (handleRecook recipe lang true now b)).1.recipe
      = some (plainRecipe recipe) ∧
    (mountAfter later (handleRecook recipe lang true now b)).1.currentStep = 0 ∧
    (mountAfter later (handleRecook recipe lang true now b)).1.lang = lang := by
  have hk : archiveKey recipe.title ≠ currentKey := fun h =>
    currentKey_ne_archiveKey _ h.symm
  have hcur : (handleRecook recipe lang true now b).world.storage currentKey
      = some { recipe := plainRecipe recipe, currentStep := 0, lang := lang,
               lastLeftAt := none, completed := none } := by
    simp [handleRecook, World.setItem, Storage.setItem]
  have hm := mount_of_current later
    ((handleRecook recipe lang true now b).navigation.map CookNavigation.state) _ _ hcur
  refine ⟨?_, hcur, hm.1, hm.2.1, hm.2.2⟩
  simp [handleRecook, World.setItem, Storage.setItem, hk]

theorem slotsHold_saveEffect (now : Str) (s : Session) (w : World) (r : RecipeData)
    (hr : s.recipe = some r) (hne : s.instructions ≠ []) :
    SlotsHold (saveEffect now s w).storage r s.currentStep s.lang := by
  have hpos : 0 < s.instructions.length := List.length_pos.mpr hne
  have hk : archiveKey r.title ≠ currentKey := fun h => currentKey_ne_archiveKey _ h.symm
  simp only [saveEffect, hr, hpos, if_true]
  split
  · exact ⟨{ recipe := r, currentStep := s.currentStep, lang := s.lang, lastLeftAt := some now,
             completed := none },
      { recipe := r, currentStep := s.currentStep, lang := s.lang, lastLeftAt := some now,
        completed := some true },
      by simp [World.setItem, Storage.setItem, currentKey_ne_archiveKey],
      by simp [World.setItem, Storage.setItem], rfl, rfl, rfl, rfl, rfl, rfl⟩
  · exact ⟨{ recipe := r, currentStep := s.currentStep, lang := s.lang, lastLeftAt := some now,
             completed := none },
      { recipe := r, currentStep := s.currentStep, lang := s.lang, lastLeftAt := some now,
        completed := none },
      by simp [World.setItem, Storage.setItem, currentKey_ne_archiveKey],
      by simp [World.setItem, Storage.setItem], rfl, rfl, rfl, rfl, rfl, rfl⟩

theorem handler_keeps (b : StepButton) (s : Session) :
    (b.handler s).recipe = s.recipe ∧ (b.handler s).instructions = s.instructions ∧
    (b.handler s).lang = s.lang := by
  cases b <;> simp only [StepButton.handler, nextStep, prevStep] <;> split <;>
    exact ⟨rfl, rfl, rfl⟩

theorem slotsHold_stepAndSave (presses : List (StepButton × Str)) (s : Session) (w : World)
    (r : RecipeData) (hr : s.recipe = some r) (hne : s.instructions ≠ [])
    (h : SlotsHold w.storage r s.currentStep s.lang) :
    SlotsHold (presses.foldl stepAndSave (s, w)).2.storage r
      (presses.foldl stepAndSave (s, w)).1.currentStep (presses.foldl stepAndSave (s, w)).1.lang := by
  induction presses generalizing s w with
  | nil => exact h
  | cons p ps ih =>
    have hk := handler_keeps p.1 s
    simp only [List.foldl_cons]
    exact ih _ _ (by show (p.1.handler s).recipe = some r; rw [hk.1]; exact hr) (by show (p.1.handler s).instructions ≠ []; rw [hk.2.1]; exact hne)
      (slotsHold_saveEffect _ _ _ _ (by rw [hk.1]; exact hr) (by rw [hk.2.1]; exact hne))

theorem slotsHold_clickButton (presses : List (StepButton × Str)) (s : Session) (w : World)
    (r : RecipeData) (hr : s.recipe = some r) (hne : s.instructions ≠ [])
    (h : SlotsHold w.storage r s.currentStep s.lang) :
    SlotsHold (presses.foldl clickButton (s, w)).2.storage r
      (presses.foldl clickButton (s, w)).1.currentStep (presses.foldl clickButton (s, w)).1.lang := by
  induction presses generalizing s w with
  | nil => exact h
  | cons p ps ih =>
    have hk := handler_keeps p.1 s
    simp only [List.foldl_cons]
    by_cases hsame : (p.1.handler s).recipe = s.recipe ∧
        (p.1.handler s).currentStep = s.currentStep ∧ (p.1.handler s).lang = s.lang ∧
        (p.1.handler s).instructions = s.instructions
    · have hc : clickButton (s, w) p = (p.1.handler s, w) := by
        simp only [clickButton, click]
        rw [if_pos hsame]
      rw [hc]
      exact ih _ _ (by rw [hk.1]; exact hr) (by rw [hk.2.1]; exact hne)
        (by rw [hsame.2.1, hsame.2.2.1]; exact h)
    · have hc : clickButton (s, w) p = (p.1.handler s, saveEffect p.2 (p.1.handler s) w) := by
        simp only [clickButton, click]
        rw [if_neg hsame]
      rw [hc]
      exact ih _ _ (by rw [hk.1]; exact hr) (by rw [hk.2.1]; exact hne)
        (slotsHold_saveEffect _ _ _ _ (by rw [hk.1]; exact hr) (by rw [hk.2.1]; exact hne))

/-- C13: in a session with a recipe and a non-empty instruction list, after
any non-empty sequence of `nextStep` and `prevStep` calls, each followed by
the save effect, the current-session slot and the archive slot under the
recipe key hold the same recipe, the same `currentStep` and the same language,
those of the session; and when the two slots agree with the session, they
still do after any sequence of clicks on the step buttons, where the save
effect runs only after a click that changed the step. -/
theorem c13_slots_agree_after_steps (s : Session) (w : World) (r : RecipeData)
    (hr : s.recipe = some r) (hne : s.instructions ≠ []) :
    (∀ presses : List (StepButton × Str), presses ≠ [] →
      SlotsHold (presses.foldl stepAndSave (s, w)).2.storage r
        (presses.foldl stepAndSave (s, w)).1.currentStep
        (presses.foldl stepAndSave (s, w)).1.lang) ∧
    (SlotsHold w.storage r s.currentStep s.lang →
      ∀ presses : List (StepButton × Str),
        SlotsHold (presses.foldl clickButton (s, w)).2.storage r
          (presses.foldl clickButton (s, w)).1.currentStep
          (presses.foldl clickButton (s, w)).1.lang) := by
  refine ⟨?_, fun h presses => slotsHold_clickButton presses s w r hr hne h⟩
  intro presses hp
  cases presses with
  | nil => exact absurd rfl hp
  | cons p ps =>
    have hk := handler_keeps p.1 s
    simp only [List.foldl_cons]
    exact slotsHold_stepAndSave ps _ _ r (by show (p.1.handler s).recipe = some r; rw [hk.1]; exact hr)
      (by show (p.1.handler s).instructions ≠ []; rw [hk.2.1]; exact hne)
      (slotsHold_saveEffect _ _ _ _ (by rw [hk.1]; exact hr) (by rw [hk.2.1]; exact hne))

/-- C13 on the Tomato Soup session after its mount, for one `nextStep`. -/
theorem c13_slots_agree_after_steps_witness :
    SlotsHold
      ([(StepButton.next, "t1".toList)].foldl stepAndSave
        ((mount "t0".toList tomatoNav emptyWorld).1, emptyWorld)).2.storage tomatoRecipe
      ([(StepButton.next, "t1".toList)].foldl stepAndSave
        ((mount "t0".toList tomatoNav emptyWorld).1, emptyWorld)).1.currentStep
      ([(StepButton.next, "t1".toList)].foldl stepAndSave
        ((mount "t0".toList tomatoNav emptyWorld).1, emptyWorld)).1.lang :=
  (c13_slots_agree_after_steps (mount "t0".toList tomatoNav emptyWorld).1 emptyWorld tomatoRecipe
    (by decide) (by decide)).1 [(StepButton.next, "t1".toList)] (by simp)

/-- C14: the start of a recipe on the saved-recipes page, the save effect of
the cooking page and `handleRecook` of the history page each write the
current-session slot and the archive slot with the same recipe, step and
language.  `handleContinueCooking` of the history page writes the archive slot
only: on a browser with nothing stored it leaves the current-session slot
empty, and on a browser whose current-session slot holds the Tomato Soup
recipe it leaves that record there while the archive gets the tea recipe. -/
theorem c14_continue_writes_archive_only :
    (∀ (recipe : RecipeData) (lang now : Str) (st : RawStorage) (b : Browser),
      SlotsHold (handleStartCooking recipe lang false false true now st b).world.storage
        (plainRecipe recipe) 0 lang) ∧
    (∀ (recipe : RecipeData) (lang now : Str) (b : Browser),
      SlotsHold (handleRecook recipe lang true now b).world.storage (plainRecipe recipe) 0 lang) ∧
    (∀ (now : Str) (s : Session) (w : World) (r : RecipeData), s.recipe = some r →
      s.instructions ≠ [] → SlotsHold (saveEffect now s w).storage r s.currentStep s.lang) ∧
    (handleContinueCooking teaRecipe "en".toList 1 "t1".toList emptyBrowser).world.storage currentKey
      = none ∧
    (handleContinueCooking teaRecipe "en".toList 1 "t1".toList emptyBrowser).world.writes.length
      = 1 ∧
    ((handleContinueCooking teaRecipe "en".toList 1 "t1".toList teaArchivedSoupCurrent).world.storage
        currentKey).map (fun p => p.recipe) = some tomatoRecipe ∧
    ((handleContinueCooking teaRecipe "en".toList 1 "t1".toList teaArchivedSoupCurrent).world.storage
        (archiveKey "Tea".toList)).map (fun p => (p.recipe, p.currentStep))
      = some (plainRecipe teaRecipe, 1) := by
  refine ⟨?_, ?_, fun now s w r hr hne => slotsHold_saveEffect now s w r hr hne,
    by decide, by decide, by decide, by decide⟩
  · intro recipe lang now st b
    have hk : archiveKey recipe.title ≠ currentKey := fun h =>
      currentKey_ne_archiveKey _ h.symm
    exact ⟨{ recipe := plainRecipe recipe, currentStep := 0, lang := lang, lastLeftAt := none,
             completed := none },
      { recipe := plainRecipe recipe, currentStep := 0, lang := lang, lastLeftAt := some now,
        completed := none },
      by simp [handleStartCooking, World.setItem, Storage.setItem],
      by simp [handleStartCooking, World.setItem, Storage.setItem, hk, plainRecipe],
      rfl, rfl, rfl, rfl, rfl, rfl⟩
  · intro recipe lang now b
    have hk : archiveKey recipe.title ≠ currentKey := fun h =>
      currentKey_ne_archiveKey _ h.symm
    exact ⟨{ recipe := plainRecipe recipe, currentStep := 0, lang := lang, lastLeftAt := none,
             completed := none },
      { recipe := plainRecipe recipe, currentStep := 0, lang := lang, lastLeftAt := some now,
        completed := some false },
      by simp [handleRecook, World.setItem, Storage.setItem],
      by simp [handleRecook, World.setItem, Storage.setItem, hk, plainRecipe],
      rfl, rfl, rfl, rfl, rfl, rfl⟩

/-! ## Stored texts that are not records -/

/-- C15: when the two progress slots of the Tomato Soup recipe hold a text that
is not JSON, the load effect of the cooking page throws the error of
`JSON.parse` instead of starting from the navigation state, and the continue
path of `handleStartCooking` ends in its error message without navigating,
while `getContinueLaterInfo` and `isCompleted` of the history page catch the
error and answer as for no record.  With no stored text at all the load effect
starts from the navigation state and the continue path resumes at step 0. -/
theorem c15_corrupt_record_not_handled :
    loadEffectRaw corruptStorage tomatoNav initialSession = .error .syntaxError ∧
    (handleStartCooking tomatoRecipe "en".toList true true true "t1".toList corruptStorage
      emptyBrowser).navigation = none ∧
    getContinueLaterInfo corruptStorage tomatoRecipe = none ∧
    isCompleted corruptStorage tomatoRecipe (getInstructions tomatoSoup "en".toList) = false ∧
    loadEffectRaw (fun _ => none) tomatoNav initialSession
      = .ok (sessionOf tomatoRecipe "en".toList) ∧
    (handleStartCooking tomatoRecipe "en".toList true true true "t1".toList (fun _ => none)
      emptyBrowser).navigation
      = some { recipe := plainRecipe tomatoRecipe, lang := "en".toList, currentStep := some 0 } := by
  decide

/-! ## The status of a history card -/

/-- C16: the badge `Completed` is never rendered, because a card with an
archived record always gets the badge of `continueInfo` first: for the Tomato
Soup recipe archived on its last step with `completed = true`, `isCompleted`
is `true` and the badge is `Continue Cooking`; a card with an archived record
shows `Continue Cooking` and a card without one shows `Not Started`. -/
theorem c16_completed_badge_never_shown :
    (∀ (st : RawStorage) (recipe : RecipeData) (lang : Str),
      displayedStatus st recipe lang ≠ .completed) ∧
    (∀ (st : Storage) (recipe : RecipeData) (lang : Str) (p : Progress),
      st (archiveKey recipe.title) = some p → displayedStatus st.raw recipe lang = .inProgress) ∧
    (∀ (st : RawStorage) (recipe : RecipeData) (lang : Str),
      st (archiveKey recipe.title) = none → displayedStatus st recipe lang = .notStarted) ∧
    isCompleted soupCompleted.world.storage.raw tomatoRecipe (getInstructions tomatoSoup "en".toList)
      = true ∧
    displayedStatus soupCompleted.world.storage.raw tomatoRecipe "en".toList = .inProgress := by
  refine ⟨?_, ?_, ?_, by decide, by decide⟩
  · intro st recipe lang
    unfold displayedStatus getContinueLaterInfo isCompleted
    cases st (archiveKey recipe.title) with
    | none => simp
    | some v =>
      cases v with
      | record p => simp [Stored.parse]
      | corrupt t => simp [Stored.parse]
  · intro st recipe lang p hp
    simp [displayedStatus, getContinueLaterInfo, Storage.raw, hp, Stored.parse]
  · intro st recipe lang hnone
    simp [displayedStatus, getContinueLaterInfo, isCompleted, hnone]

/-! ## The timer -/

theorem offeredDuration_eq_some {step : Str} {n : JSNumber} (h : offeredDuration step = some n) :
    extractTimeFromStep step = some n ∧ n ≠ .finite 0 := by
  unfold offeredDuration at h
  split at h
  · exact absurd h (by simp)
  · rename_i m hne heq
    simp only [Option.some.injEq] at h
    subst h
    exact ⟨heq, fun h0 => hne h0⟩
  · exact absurd h (by simp)

/-- C17, as amended: a value returned by `extractTimeFromStep` is a
non-negative integer, 0 included, or `Infinity`; the timer button is rendered
only for a returned value other than 0, so every duration offered to the
timer is at least one minute. -/
theorem c17_offered_duration_at_least_one :
    (∀ (step : Str) (n : JSNumber), offeredDuration step = some n →
      extractTimeFromStep step = some n ∧ (n = .infinity ∨ ∃ k, 1 ≤ k ∧ n = .finite k)) ∧
    (∀ step : Str, extractTimeFromStep step = some (.finite 0) → offeredDuration step = none) ∧
    extractTimeFromStep "Rest for 0 minutes".toList = some (.finite 0) := by
  refine ⟨?_, ?_, by decide⟩
  · intro step n h
    obtain ⟨h1, h2⟩ := offeredDuration_eq_some h
    refine ⟨h1, ?_⟩
    cases n with
    | infinity => exact Or.inl rfl
    | finite k =>
      right
      refine ⟨k, ?_, rfl⟩
      rcases Nat.eq_zero_or_pos k with h0 | hpos
      · exact absurd (by rw [h0]) h2
      · exact hpos
  · intro step h
    simp [offeredDuration, h]

/-- C17 for the step `"Boil for 5 minutes"`, whose button offers 5 minutes. -/
theorem c17_offered_duration_at_least_one_witness :
    extractTimeFromStep "Boil for 5 minutes".toList = some (.finite 5) ∧
    ((JSNumber.finite 5) = .infinity ∨ ∃ k, 1 ≤ k ∧ (JSNumber.finite 5) = .finite k) :=
  c17_offered_duration_at_least_one.1 "Boil for 5 minutes".toList (.finite 5) (by decide)

/-- C17 as stated fails: for the step `"Rest for 0 minutes"`
`extractTimeFromStep` returns 0. -/
theorem c17_zero_minutes_is_returned :
    ¬ (∀ (step : Str) (n : JSNumber), extractTimeFromStep step = some n →
      ∃ k, 1 ≤ k ∧ n = .finite k) := by
  intro h
  obtain ⟨k, hk, h0⟩ := h "Rest for 0 minutes".toList (.finite 0) (by decide)
  simp only [JSNumber.finite.injEq] at h0
  omega

theorem round_exact (n : Nat) (h : n ≤ 2 ^ 53) : Num.round (n : Int) = .int n := by
  show (roundToDouble n).toNum = _
  rw [roundToDouble_exact n h]
  rfl

theorem round_nonPositive (z : Int) (h : z ≤ 0) : (Num.round z).atMostOne = true := by
  cases z with
  | ofNat n =>
    have hn : n = 0 := by
      have : (n : Int) ≤ 0 := h
      omega
    subst hn
    decide
  | negSucc n =>
    show (match roundToDouble (n + 1) with
      | .finite k => Num.int (-(k : Int))
      | .infinity => Num.negInf).atMostOne = true
    cases roundToDouble (n + 1) with
    | finite k =>
      show decide (-(k : Int) ≤ 1) = true
      simp only [decide_eq_true_eq]
      omega
    | infinity => rfl

theorem times60_nonPositive (m : Num) (h : m.nonPositive = true) :
    m.times60.atMostOne = true := by
  cases m with
  | int z =>
    have hz : z ≤ 0 := by simpa [Num.nonPositive] using h
    exact round_nonPositive (z * 60) (by omega)
  | posInf => exact absurd h (by simp [Num.nonPositive])
  | negInf => rfl

theorem filter_ne_singleton (h : Nat) : ([h].filter fun i => i != h) = [] := by
  simp

theorem startTimer_intervals (minutes : Num) (t : TimerState) (h : TimerInv t) :
    (startTimer minutes t).intervals = [t.nextHandle] ∧
    (startTimer minutes t).timer = some t.nextHandle ∧
    (startTimer minutes t).isTimerRunning = true ∧
    (startTimer minutes t).timeLeft = minutes.times60 := by
  rcases h with ⟨h1, -⟩ | ⟨i, h1, h2, -⟩
  · cases ht : t.timer with
    | none => simp [startTimer, ht, h1]
    | some j => simp [startTimer, ht, h1, clearInterval]
  · simp [startTimer, h2, h1, clearInterval]

theorem timerInv_startTimer (minutes : Num) (t : TimerState) (h : TimerInv t) :
    TimerInv (startTimer minutes t) := by
  obtain ⟨h1, h2, h3, -⟩ := startTimer_intervals minutes t h
  exact Or.inr ⟨_, h1, h2, h3⟩

theorem tick_of_nil (t : TimerState) (h : t.intervals = []) : tick t = t := by
  simp [tick, h]

theorem tick_of_singleton (t : TimerState) (i : Nat) (h : t.intervals = [i]) :
    tick t = intervalCallback i t := by
  simp [tick, h]

theorem intervalCallback_expire (t : TimerState) (i : Nat) (h : t.intervals = [i])
    (h1 : t.timeLeft.atMostOne = true) :
    intervalCallback i t
      = { t with intervals := [], isTimerRunning := false, timeLeft := .int 0 } := by
  simp [intervalCallback, h1, clearInterval, h]

theorem intervalCallback_count (t : TimerState) (i : Nat) (h1 : t.timeLeft.atMostOne = false) :
    intervalCallback i t = { t with timeLeft := t.timeLeft.pred } := by
  simp [intervalCallback, h1]

theorem timerInv_tick (t : TimerState) (h : TimerInv t) : TimerInv (tick t) := by
  rcases h with ⟨h1, h2⟩ | ⟨i, h1, h2, h3⟩
  · rw [tick_of_nil t h1]
    exact Or.inl ⟨h1, h2⟩
  · rw [tick_of_singleton t i h1]
    by_cases hle : t.timeLeft.atMostOne = true
    · rw [intervalCallback_expire t i h1 hle]
      exact Or.inl ⟨rfl, rfl⟩
    · rw [intervalCallback_count t i (by simpa using hle)]
      exact Or.inr ⟨i, h1, h2, h3⟩

theorem stopTimer_of_inv (t : TimerState) (h : TimerInv t) :
    (stopTimer t).intervals = [] ∧ (stopTimer t).isTimerRunning = false := by
  rcases h with ⟨h1, h2⟩ | ⟨i, h1, h2, -⟩
  · cases ht : t.timer with
    | none => simp [stopTimer, ht, h1, h2]
    | some j => simp [stopTimer, ht, h1, clearInterval]
  · simp [stopTimer, h2, h1, clearInterval]

theorem timerInv_stopTimer (t : TimerState) (h : TimerInv t) : TimerInv (stopTimer t) := by
  obtain ⟨h1, h2⟩ := stopTimer_of_inv t h
  exact Or.inl ⟨h1, h2⟩

theorem timerInv_foldl (actions : List TimerAction) (t : TimerState) (h : TimerInv t) :
    TimerInv (actions.foldl (fun t a => a.apply t) t) := by
  induction actions generalizing t with
  | nil => exact h
  | cons a as ih =>
    simp only [List.foldl_cons]
    apply ih
    cases a with
    | start minutes => exact timerInv_startTimer minutes t h
    | tick => exact timerInv_tick t h
    | stop => exact timerInv_stopTimer t h

theorem timerInv_runTimer (actions : List TimerAction) : TimerInv (runTimer actions) :=
  timerInv_foldl actions initialTimer (Or.inl ⟨rfl, rfl⟩)

theorem timerInv_length (t : TimerState) (h : TimerInv t) : t.intervals.length ≤ 1 := by
  rcases h with ⟨h1, -⟩ | ⟨i, h1, -, -⟩ <;> simp [h1]

/-- C20: in every state reached by a sequence of `startTimer`, tick and
`stopTimer` calls at most one interval is scheduled; `startTimer` leaves
exactly the interval it creates, the one that was running being cancelled,
and `stopTimer` leaves none and sets `isTimerRunning` to `false`. -/
theorem c20_at_most_one_interval (actions : List TimerAction) :
    (runTimer actions).intervals.length ≤ 1 ∧
    (∀ minutes : Num,
      (startTimer minutes (runTimer actions)).intervals = [(runTimer actions).nextHandle]) ∧
    (stopTimer (runTimer actions)).intervals = [] ∧
    (stopTimer (runTimer actions)).isTimerRunning = false := by
  have h := timerInv_runTimer actions
  exact ⟨timerInv_length _ h, fun minutes => (startTimer_intervals minutes _ h).1,
    (stopTimer_of_inv _ h).1, (stopTimer_of_inv _ h).2⟩

/-- C18, as amended: `startTimer` has no guard for `minutes <= 0`.  In every
state the page can reach, the call sets `isTimerRunning` to `true`, sets
`timeLeft` to `minutes * 60` and schedules a new interval; the first tick then
sets `timeLeft` to 0 and `isTimerRunning` to `false` and clears the interval.
The timer button is never rendered for such a duration. -/
theorem c18_start_timer_has_no_guard (actions : List TimerAction) (minutes : Num)
    (h : minutes.nonPositive = true) :
    (startTimer minutes (runTimer actions)).isTimerRunning = true ∧
    (startTimer minutes (runTimer actions)).intervals = [(runTimer actions).nextHandle] ∧
    (startTimer minutes (runTimer actions)).timer = some (runTimer actions).nextHandle ∧
    (startTimer minutes (runTimer actions)).timeLeft = minutes.times60 ∧
    (tick (startTimer minutes (runTimer actions))).timeLeft = .int 0 ∧
    (tick (startTimer minutes (runTimer actions))).isTimerRunning = false ∧
    (tick (startTimer minutes (runTimer actions))).intervals = [] ∧
    (∀ (step : Str) (n : JSNumber), offeredDuration step = some n →
      n.toNum.nonPositive = false) := by
  have hinv := timerInv_runTimer actions
  obtain ⟨h1, h2, h3, h4⟩ := startTimer_intervals minutes _ hinv
  have htick : tick (startTimer minutes (runTimer actions))
      = { startTimer minutes (runTimer actions) with
          intervals := [], isTimerRunning := false, timeLeft := .int 0 } := by
    rw [tick_of_singleton _ _ h1, intervalCallback_expire _ _ h1]
    rw [h4]
    exact times60_nonPositive minutes h
  refine ⟨h3, h1, h2, h4, by rw [htick], by rw [htick], by rw [htick], ?_⟩
  intro step n hn
  obtain ⟨-, hne⟩ := offeredDuration_eq_some hn
  cases n with
  | infinity => rfl
  | finite k =>
    show decide ((k : Int) ≤ 0) = false
    have : k ≠ 0 := fun h0 => hne (by rw [h0])
    simp only [decide_eq_false_iff_not]
    omega

/-- C18 for `startTimer(0)` on the page just mounted. -/
theorem c18_start_timer_has_no_guard_witness :
    (startTimer (.int 0) (runTimer [])).isTimerRunning = true ∧
    (startTimer (.int 0) (runTimer [])).intervals = [(runTimer []).nextHandle] :=
  ⟨(c18_start_timer_has_no_guard [] (.int 0) (by decide)).1,
   (c18_start_timer_has_no_guard [] (.int 0) (by decide)).2.1⟩

/-- C18 as stated fails: `startTimer(0)` on the page just mounted is not a
no-op. -/
theorem c18_start_timer_zero_runs :
    ¬ (∀ z : Int, z ≤ 0 → startTimer (.int z) initialTimer = initialTimer) := by
  intro h
  exact absurd (h 0 (by decide)) (by decide)

theorem ticks_add (a b : Nat) (t : TimerState) : ticks (a + b) t = ticks b (ticks a t) := by
  induction a generalizing t with
  | zero => simp [ticks]
  | succ a ih =>
    rw [Nat.succ_add]
    exact ih (tick t)

theorem ticks_idle (k : Nat) (t : TimerState) (h : t.intervals = []) : ticks k t = t := by
  induction k with
  | zero => rfl
  | succ k ih =>
    show ticks k (tick t) = t
    rw [tick_of_nil t h, ih]

theorem pred_exact (n : Nat) (h1 : 1 ≤ n) (h : n ≤ 2 ^ 53) :
    (Num.int (n : Int)).pred = .int ((n - 1 : Nat) : Int) := by
  show Num.round ((n : Int) - 1) = _
  have e : (n : Int) - 1 = ((n - 1 : Nat) : Int) := by omega
  rw [e]
  exact round_exact (n - 1) (by omega)

theorem tick_count (t : TimerState) (i n : Nat) (hi : t.intervals = [i])
    (hn : t.timeLeft = .int (n : Int)) (h2 : 2 ≤ n) (hb : n ≤ 2 ^ 53) :
    tick t = { t with timeLeft := .int ((n - 1 : Nat) : Int) } := by
  have hle : t.timeLeft.atMostOne = false := by
    rw [hn]
    show decide ((n : Int) ≤ 1) = false
    simp only [decide_eq_false_iff_not]
    omega
  rw [tick_of_singleton t i hi, intervalCallback_count t i hle, hn, pred_exact n (by omega) hb]

theorem ticks_countdown (k : Nat) (t : TimerState) (i n : Nat) (hi : t.intervals = [i])
    (hn : t.timeLeft = .int (n : Int)) (hb : n ≤ 2 ^ 53) (hk : k < n) :
    ticks k t = { t with timeLeft := .int ((n - k : Nat) : Int) } := by
  induction k generalizing t n with
  | zero =>
    show t = _
    rw [Nat.sub_zero, ← hn]
  | succ k ih =>
    show ticks k (tick t) = _
    rw [tick_count t i n hi hn (by omega) hb]
    rw [ih { t with timeLeft := .int ((n - 1 : Nat) : Int) } (n - 1) hi rfl (by omega) (by omega)]
    have e : n - 1 - k = n - (k + 1) := by omega
    rw [e]

theorem ticks_expire (t : TimerState) (i n : Nat) (hi : t.intervals = [i])
    (hn : t.timeLeft = .int (n : Int)) (h1 : 1 ≤ n) (hb : n ≤ 2 ^ 53) :
    ticks n t = { t with intervals := [], isTimerRunning := false, timeLeft := .int 0 } := by
  obtain ⟨j, rfl⟩ : ∃ j, n = j + 1 := ⟨n - 1, by omega⟩
  rw [ticks_add j 1, ticks_countdown j t i (j + 1) hi hn hb (by omega)]
  show tick { t with timeLeft := .int ((j + 1 - j : Nat) : Int) } = _
  have hle : (Num.int ((j + 1 - j : Nat) : Int)).atMostOne = true := by
    show decide ((((j + 1 - j : Nat) : Int)) ≤ 1) = true
    simp only [decide_eq_true_eq]
    omega
  rw [tick_of_singleton { t with timeLeft := .int ((j + 1 - j : Nat) : Int) } i hi,
    intervalCallback_expire { t with timeLeft := .int ((j + 1 - j : Nat) : Int) } i hi hle]

/-- C19, as amended: for every positive integer `m` with `60 * m ≤ 2 ^ 53`,
in every state the page can reach, `startTimer(m)` sets `timeLeft` to `60 * m`
and `isTimerRunning` to `true`; after `k < 60 * m` ticks `timeLeft` is
`60 * m - k` and the timer is running, and from `60 * m` ticks on `timeLeft`
is 0, the timer is not running and no interval is scheduled.  In a running
state a tick with `1 < timeLeft ≤ 2 ^ 53` decreases `timeLeft` by exactly 1 and
a tick with `timeLeft <= 1` sets `timeLeft` to 0 and `isTimerRunning` to
`false`. -/
theorem c19_countdown_reaches_zero (actions : List TimerAction) (m : Nat) (hm : 1 ≤ m)
    (hb : 60 * m ≤ 2 ^ 53) :
    (startTimer (.int m) (runTimer actions)).timeLeft = .int ((60 * m : Nat) : Int) ∧
    (startTimer (.int m) (runTimer actions)).isTimerRunning = true ∧
    (∀ k, k < 60 * m →
      (ticks k (startTimer (.int m) (runTimer actions))).timeLeft
        = .int ((60 * m - k : Nat) : Int) ∧
      (ticks k (startTimer (.int m) (runTimer actions))).isTimerRunning = true) ∧
    (∀ k, 60 * m ≤ k →
      (ticks k (startTimer (.int m) (runTimer actions))).timeLeft = .int 0 ∧
      (ticks k (startTimer (.int m) (runTimer actions))).isTimerRunning = false ∧
      (ticks k (startTimer (.int m) (runTimer actions))).intervals = []) ∧
    (∀ (t : TimerState) (n : Nat), TimerInv t → t.isTimerRunning = true →
      t.timeLeft = .int (n : Int) → 1 < n → n ≤ 2 ^ 53 →
      (tick t).timeLeft = .int ((n : Int) - 1) ∧ (tick t).isTimerRunning = true) ∧
    (∀ t : TimerState, TimerInv t → t.isTimerRunning = true → t.timeLeft.atMostOne = true →
      (tick t).timeLeft = .int 0 ∧ (tick t).isTimerRunning = false) := by
  have hinv := timerInv_runTimer actions
  obtain ⟨h1, -, h3, h4⟩ := startTimer_intervals (.int m) _ hinv
  have hleft : (startTimer (.int m) (runTimer actions)).timeLeft = .int ((60 * m : Nat) : Int) := by
    rw [h4]
    show Num.round ((m : Int) * 60) = _
    have e : (m : Int) * 60 = ((60 * m : Nat) : Int) := by push_cast; ring
    rw [e]
    exact round_exact _ hb
  refine ⟨hleft, h3, ?_, ?_, ?_, ?_⟩
  · intro k hk
    rw [ticks_countdown k _ _ (60 * m) h1 hleft hb hk]
    exact ⟨rfl, h3⟩
  · intro k hk
    obtain ⟨j, rfl⟩ : ∃ j, k = 60 * m + j := ⟨k - 60 * m, by omega⟩
    rw [ticks_add, ticks_expire _ _ (60 * m) h1 hleft (by omega) hb, ticks_idle _ _ rfl]
    exact ⟨rfl, rfl, rfl⟩
  · intro t n ht hrun hn h1n hbn
    rcases ht with ⟨-, hfalse⟩ | ⟨i, hi, -, -⟩
    · rw [hrun] at hfalse
      exact absurd hfalse (by simp)
    · rw [tick_count t i n hi hn (by omega) hbn]
      refine ⟨?_, hrun⟩
      show Num.int ((n - 1 : Nat) : Int) = _
      have e : ((n - 1 : Nat) : Int) = (n : Int) - 1 := by omega
      rw [e]
  · intro t ht hrun hle
    rcases ht with ⟨-, hfalse⟩ | ⟨i, hi, -, -⟩
    · rw [hrun] at hfalse
      exact absurd hfalse (by simp)
    · rw [tick_of_singleton t i hi, intervalCallback_expire t i hi hle]
      exact ⟨rfl, rfl⟩

/-- C19 for `startTimer(1)` on the page just mounted: 60 ticks. -/
theorem c19_countdown_reaches_zero_witness :
    (startTimer (.int (1 : Nat)) (runTimer [])).timeLeft = .int ((60 * 1 : Nat) : Int) ∧
    (ticks 60 (startTimer (.int (1 : Nat)) (runTimer []))).timeLeft = .int 0 ∧
    (ticks 60 (startTimer (.int (1 : Nat)) (runTimer []))).isTimerRunning = false :=
  ⟨(c19_countdown_reaches_zero [] 1 (by decide) (by decide)).1,
   ((c19_countdown_reaches_zero [] 1 (by decide) (by decide)).2.2.2.1 60 (by decide)).1,
   ((c19_countdown_reaches_zero [] 1 (by decide) (by decide)).2.2.2.1 60 (by decide)).2.1⟩

/-- C19 as stated fails: after `startTimer(9007199254740992)` a tick leaves
`timeLeft` at 540431955284459520, because the difference `timeLeft - 1` is
rounded back to the same Number value. -/
theorem c19_large_timer_does_not_count :
    ¬ (∀ m : Nat, 1 ≤ m →
      (tick (startTimer (.int m) initialTimer)).timeLeft = .int ((60 * m : Nat) - 1)) := by
  intro h
  exact absurd (h 9007199254740992 (by decide)) (by decide)

/-! ## Nutrition -/

theorem search_eq_some {α : Type} {f : Str → Option α} {s : Str} {a : α}
    (h : search f s = some a) : ∃ i, f (s.drop i) = some a := by
  induction s with
  | nil => exact ⟨0, h⟩
  | cons c s ih =>
    cases hf : f (c :: s) with
    | some b =>
      simp only [search, hf] at h
      exact ⟨0, by simpa [hf] using h⟩
    | none =>
      simp only [search, hf] at h
      obtain ⟨i, hi⟩ := ih h
      exact ⟨i + 1, by simpa using hi⟩

theorem mem_of_mem_splitLines {s l : Str} (h : l ∈ splitLines s) : ∀ c ∈ l, c ∈ s := by
  induction s generalizing l with
  | nil =>
    simp only [splitLines, List.mem_singleton] at h
    subst h
    simp
  | cons a s ih =>
    unfold splitLines at h
    by_cases ha : a = '\n'
    · simp only [ha, if_true, List.mem_cons] at h
      rcases h with rfl | h
      · simp
      · intro c hc
        exact List.mem_cons_of_mem _ (ih h c hc)
    · simp only [ha, if_false] at h
      cases hs : splitLines s with
      | nil =>
        rw [hs] at h
        simp only [List.mem_singleton] at h
        subst h
        intro c hc
        simp only [List.mem_singleton] at hc
        simp [hc]
      | cons l0 ls =>
        rw [hs] at h ih
        simp only [List.mem_cons] at h
        rcases h with rfl | h
        · intro c hc
          rcases List.mem_cons.mp hc with rfl | hc
          · simp
          · exact List.mem_cons_of_mem _ (ih (List.mem_cons_self _ _) c hc)
        · intro c hc
          exact List.mem_cons_of_mem _ (ih (List.mem_cons_of_mem _ h) c hc)

theorem mem_of_mem_trim {s : Str} {c : Char} (h : c ∈ trim s) : c ∈ s := by
  unfold trim at h
  rw [List.mem_reverse] at h
  have h1 := (List.dropWhile_suffix isSpace).subset h
  rw [List.mem_reverse] at h1
  exact (List.dropWhile_suffix isSpace).subset h1

theorem captureAt_plus_all {a b : Re} {p : Char → Bool} {s y : Str}
    (h : captureAt a (Re.plus p) b s = some y) : ∀ c ∈ y, p c = true := by
  have hmem := List.mem_of_mem_head? h
  simp only [capturesFrom, List.mem_flatMap, List.mem_map, mem_plus_run] at hmem
  obtain ⟨r1, -, r2, ⟨w, -, rfl, hw⟩, x, -, rfl⟩ := hmem
  simpa using hw

theorem startsWithStar_mem {s : Str} (h : startsWithStar s = true) : '*' ∈ s := by
  cases s with
  | nil => simp [startsWithStar] at h
  | cons c s =>
    simp only [startsWithStar, beq_iff_eq] at h
    simp [h]

/-- C21: `extractNutrition` returns the empty list for every content.  The
capture group `[^*]+` stops in front of the first `*`, so no line of the
captured block starts with `*` and the filter keeps nothing; in particular the
document whose heading is followed by the line `* Calories: 200` gives no
pair. -/
theorem c21_nutrition_always_empty :
    (∀ content : Str, extractNutrition content = []) ∧
    extractNutrition nutritionSample = [] := by
  refine ⟨fun content => ?_, by decide⟩
  unfold extractNutrition
  cases hm : jsMatch1 nutritionHead (Re.plus notStar) .eps content with
  | none => rfl
  | some block =>
    obtain ⟨i, hi⟩ := search_eq_some hm
    have hall := captureAt_plus_all hi
    have hf : (splitLines block).filter (fun line => startsWithStar (trim line)) = [] := by
      rw [List.filter_eq_nil_iff]
      intro line hline hstar
      have h1 := startsWithStar_mem hstar
      have h2 := mem_of_mem_splitLines hline _ (mem_of_mem_trim h1)
      have h3 := hall _ h2
      simp [notStar] at h3
    simp only [hf, List.map_nil, List.filter_nil]

/-! ## Sections of the saved-recipes page and of the history page -/

/-- C22: on a document whose second bullet line is indented, `extractSections`
of the saved-recipes page and of the history page return the ingredients
`["Oil", "* Salt"]`: the line without a bullet contributes nothing, but the
indented line keeps its `*`, because the bullet is removed only at the very
start of the untrimmed line.  The parse effect of the cooking page, which
trims the line first, returns `Salt` for the same line. -/
theorem c22_indented_bullet_keeps_star :
    (extractSections indentedBullet "en".toList).ingredients
      = ["Oil".toList, "* Salt".toList] ∧
    (CookHistoryPage.extractSections indentedBullet "en".toList).ingredients
      = ["Oil".toList, "* Salt".toList] ∧
    cookingIngredients (cookingContentToUse indentedBullet "en".toList)
      = some ["Salt".toList] := by
  decide

/-- C23: on a document whose nutrition block is a numbered list,
`extractSections` of the saved-recipes page and of the history page return the
line after the `**Approximate` heading as a step: the block of their pattern
runs to the end of the text.  `getInstructions` of the history page and the
parse effect of the cooking page stop at the heading and return `["Boil"]`. -/
theorem c23_steps_run_past_nutrition_heading :
    (extractSections numberedNutrition "en".toList).steps
      = ["Boil".toList, "Calories: 200".toList] ∧
    (CookHistoryPage.extractSections numberedNutrition "en".toList).steps
      = ["Boil".toList, "Calories: 200".toList] ∧
    getInstructions numberedNutrition "en".toList = ["Boil".toList] ∧
    cookingInstructions (cookingContentToUse numberedNutrition "en".toList)
      = some ["Boil".toList] := by
  decide

theorem captureAt_eq_none_of_run_nil {a g b : Re} {s : Str} (h : a.run s = []) :
    captureAt a g b s = none := by
  simp [captureAt, h]

theorem heading_of_mem_run (A B : Str) (tail : List Re) {s r : Str}
    (h : r ∈ (Re.seqs (Re.lit ci "**".toList :: .alt (Re.lit ci A) (Re.lit ci B) ::
      Re.lit ci ":**".toList :: tail)).run s) :
    ∃ w ∈ ["**".toList ++ A ++ ":**".toList, "**".toList ++ B ++ ":**".toList],
      (s.take w.length).map canon = w.map canon := by
  simp only [run_seqs_cons, List.mem_flatMap] at h
  obtain ⟨s1, hs1, s2, hs2, s3, hs3, -⟩ := h
  obtain ⟨M1, rfl, h1⟩ := mem_lit_ci_run hs1
  obtain ⟨M3, rfl, h3⟩ := mem_lit_ci_run hs3
  rw [run_alt, List.mem_append] at hs2
  have key : ∀ C M2 : Str, M2.map canon = C.map canon →
      ((M1 ++ (M2 ++ (M3 ++ s3))).take ("**".toList ++ C ++ ":**".toList).length).map canon
        = ("**".toList ++ C ++ ":**".toList).map canon := by
    intro C M2 h2
    have l1 : M1.length = "**".toList.length := by simpa using congrArg List.length h1
    have l2 : M2.length = C.length := by simpa using congrArg List.length h2
    have l3 : M3.length = ":**".toList.length := by simpa using congrArg List.length h3
    have e : M1 ++ (M2 ++ (M3 ++ s3)) = (M1 ++ M2 ++ M3) ++ s3 := by simp
    rw [e, List.take_left']
    · simp only [List.map_append, h1, h2, h3]
    · simp only [List.length_append, l1, l2, l3]
  rcases hs2 with hs2 | hs2
  · obtain ⟨M2, rfl, h2⟩ := mem_lit_ci_run hs2
    exact ⟨_, by simp, key A M2 h2⟩
  · obtain ⟨M2, rfl, h2⟩ := mem_lit_ci_run hs2
    exact ⟨_, by simp, key B M2 h2⟩

theorem jsMatch1_eq_none_of_no_heading (A B : Str) (tail : List Re) (g b : Re) (text : Str)
    (h : ¬ HasHeading ["**".toList ++ A ++ ":**".toList, "**".toList ++ B ++ ":**".toList] text) :
    jsMatch1 (Re.seqs (Re.lit ci "**".toList :: .alt (Re.lit ci A) (Re.lit ci B) ::
      Re.lit ci ":**".toList :: tail)) g b text = none := by
  unfold jsMatch1
  apply search_eq_none
  intro i
  apply captureAt_eq_none_of_run_nil
  rw [List.eq_nil_iff_forall_not_mem]
  intro r hr
  obtain ⟨w, hw, hcanon⟩ := heading_of_mem_run A B tail hr
  apply h
  refine ⟨i, ?_, w, hw, hcanon⟩
  by_contra hi
  rw [List.drop_eq_nil_of_le (by omega)] at hcanon
  have hl := congrArg List.length hcanon
  simp only [List.mem_cons, List.mem_singleton, List.not_mem_nil, or_false] at hw
  rcases hw with rfl | rfl <;> simp at hl

/-- C24: `extractSections` of the saved-recipes page is a total function of
its two strings (none of its operations can throw on a string), and an absent
section gives an empty list: when the chosen variant is `undefined` or empty
both lists are empty, when no Ingredients heading stands in the variant the
ingredients are empty, and when no Instructions heading stands in it the steps
are empty. -/
theorem c24_missing_section_gives_empty_list (content lang : Str) :
    ((languageVariant content lang).getD [] = [] → extractSections content lang = ⟨[], []⟩) ∧
    (∀ text, languageVariant content lang = some text →
      ¬ HasHeading ingredientsHeadings text → (extractSections content lang).ingredients = []) ∧
    (∀ text, languageVariant content lang = some text →
      ¬ HasHeading instructionsHeadings text → (extractSections content lang).steps = []) := by
  refine ⟨?_, ?_, ?_⟩
  · intro h
    unfold extractSections
    cases hv : languageVariant content lang with
    | none => rfl
    | some text =>
      cases text with
      | nil => rfl
      | cons c t => simp [hv] at h
  · intro text hv hno
    unfold extractSections
    rw [hv]
    cases text with
    | nil => rfl
    | cons c t =>
      have hm : jsMatch1 ingredientsHead (.lazyStar isAny) ingredientsEnd (c :: t) = none :=
        jsMatch1_eq_none_of_no_heading "Ingredients".toList "सामग्री".toList _ _ _ _ hno
      simp only [hm]
  · intro text hv hno
    unfold extractSections
    rw [hv]
    cases text with
    | nil => rfl
    | cons c t =>
      have hm : jsMatch1 instructionsHead (.star isAny) .eps (c :: t) = none :=
        jsMatch1_eq_none_of_no_heading "Instructions".toList "निर्देश".toList _ _ _ _ hno
      simp only [hm]

/-- C24 on the Tomato Soup document in language `hi` (no variant), on a document
without an Ingredients heading and on a document without an Instructions
heading. -/
theorem c24_missing_section_gives_empty_list_witness :
    extractSections tomatoSoup "hi".toList = ⟨[], []⟩ ∧
    (extractSections indentedStep "en".toList).ingredients = [] ∧
    (extractSections nutritionSample "en".toList).steps = [] :=
  ⟨(c24_missing_section_gives_empty_list tomatoSoup "hi".toList).1 (by decide),
   (c24_missing_section_gives_empty_list indentedStep "en".toList).2.1 indentedStep
      (by decide) (by decide),
   (c24_missing_section_gives_empty_list nutritionSample "en".toList).2.2 nutritionSample
      (by decide) (by decide)⟩

/-! ## The language switch -/

/-- C25: the Tomato Soup document has no Hindi marker.  When the cooking page
has parsed it in English and the language is switched to `hi`, the parse
effect finds no match in the empty Hindi variant and sets neither list, so
the page still holds the English ingredient and the English steps; a page
that starts on the same document in `hi` holds two empty lists.  The lists
are therefore not a function of the content and the language alone. -/
theorem c25_lists_survive_language_switch :
    (toggleLanguage (mount "t0".toList tomatoNav emptyWorld).1).lang = "hi".toList ∧
    (toggleLanguage (mount "t0".toList tomatoNav emptyWorld).1).recipe = some tomatoRecipe ∧
    (toggleLanguage (mount "t0".toList tomatoNav emptyWorld).1).ingredients
      = ["Salt".toList] ∧
    (toggleLanguage (mount "t0".toList tomatoNav emptyWorld).1).instructions
      = ["Boil for 5 minutes".toList, "Serve hot".toList] ∧
    (mount "t0".toList (some ⟨some tomatoRecipe, some "hi".toList⟩) emptyWorld).1.lang
      = "hi".toList ∧
    (mount "t0".toList (some ⟨some tomatoRecipe, some "hi".toList⟩) emptyWorld).1.ingredients
      = [] ∧
    (mount "t0".toList (some ⟨some tomatoRecipe, some "hi".toList⟩) emptyWorld).1.instructions
      = [] := by
  decide

/-! ## The recipe key -/

theorem replaceSpaces_cons (f : Bool) (c : Char) (s : Str) :
    replaceSpaces f (c :: s) =
      if isSpace c then
        if f then replaceSpaces true s else '_' :: replaceSpaces true s
      else c :: replaceSpaces false s := by
  cases f <;> rfl

theorem replaceSpaces_no_space (f : Bool) (t : Str) :
    ∀ c ∈ replaceSpaces f t, isSpace c = false := by
  induction t generalizing f with
  | nil => simp [replaceSpaces]
  | cons a t ih =>
    intro c hc
    rw [replaceSpaces_cons] at hc
    by_cases ha : isSpace a = true
    · cases f with
      | true =>
        simp only [ha, if_true] at hc
        exact ih true c hc
      | false =>
        simp only [ha, if_true, Bool.false_eq_true, if_false, List.mem_cons] at hc
        rcases hc with hc | hc
        · rw [hc]
          decide
        · exact ih true c hc
    · rw [if_neg ha, List.mem_cons] at hc
      rcases hc with hc | hc
      · rw [hc]
        simpa using ha
      · exact ih false c hc

theorem replaceSpaces_clean_append (f : Bool) (w x : Str) (hw : ∀ c ∈ w, isSpace c = false)
    (hne : w ≠ []) : replaceSpaces f (w ++ x) = w ++ replaceSpaces false x := by
  induction w generalizing f with
  | nil => exact absurd rfl hne
  | cons a w ih =>
    have ha : isSpace a = false := hw a (List.mem_cons_self _ _)
    have hw1 : ∀ c ∈ w, isSpace c = false := fun c hc => hw c (List.mem_cons_of_mem _ hc)
    rw [List.cons_append, replaceSpaces_cons]
    simp only [ha, Bool.false_eq_true, if_false, List.cons_append, List.cons.injEq, true_and]
    cases w with
    | nil => rfl
    | cons b w => exact ih false hw1 (by simp)

theorem replaceSpaces_clean (f : Bool) (w : Str) (hw : ∀ c ∈ w, isSpace c = false) :
    replaceSpaces f w = w := by
  cases w with
  | nil => rfl
  | cons a w =>
    have := replaceSpaces_clean_append f (a :: w) [] hw (by simp)
    simpa [replaceSpaces] using this

theorem replaceSpaces_run_true (r b : Str) (hr : ∀ c ∈ r, isSpace c = true) :
    replaceSpaces true (r ++ b) = replaceSpaces true b := by
  induction r with
  | nil => rfl
  | cons a r ih =>
    have ha : isSpace a = true := hr a (List.mem_cons_self _ _)
    rw [List.cons_append, replaceSpaces_cons]
    simp only [ha, if_true]
    exact ih fun c hc => hr c (List.mem_cons_of_mem _ hc)

theorem replaceSpaces_run (f : Bool) (r b : Str) (hne : r ≠ [])
    (hr : ∀ c ∈ r, isSpace c = true) :
    replaceSpaces f (r ++ b) = (if f then [] else ['_']) ++ replaceSpaces true b := by
  cases r with
  | nil => exact absurd rfl hne
  | cons a r =>
    have ha : isSpace a = true := hr a (List.mem_cons_self _ _)
    have h1 := replaceSpaces_run_true r b fun c hc => hr c (List.mem_cons_of_mem _ hc)
    rw [List.cons_append, replaceSpaces_cons]
    cases f <;> simp [ha, h1]

theorem replaceSpaces_append_run (f : Bool) (a r r1 b : Str) (hne : r ≠ [])
    (hr : ∀ c ∈ r, isSpace c = true) (hne1 : r1 ≠ []) (hr1 : ∀ c ∈ r1, isSpace c = true) :
    replaceSpaces f (a ++ (r ++ b)) = replaceSpaces f (a ++ (r1 ++ b)) := by
  induction a generalizing f with
  | nil =>
    simp only [List.nil_append]
    rw [replaceSpaces_run f r b hne hr, replaceSpaces_run f r1 b hne1 hr1]
  | cons c a ih =>
    simp only [List.cons_append, replaceSpaces_cons]
    by_cases hc : isSpace c = true
    · cases f <;> simp [hc, ih]
    · simp [hc, ih]

theorem replaceSpaces_flag (t : Str) (ht : ∀ c, t.head? = some c → isSpace c = false) :
    replaceSpaces true t = replaceSpaces false t := by
  cases t with
  | nil => rfl
  | cons a t =>
    have ha : isSpace a = false := ht a rfl
    simp [replaceSpaces_cons, ha]

/-- C26: the recipe key `title.replace(/\s+/g, '_')`.  The key of every title
holds no whitespace and equal titles have equal keys; a title without
whitespace is its own key; in front of a text that does not start with
whitespace, a whitespace-free text followed by a non-empty run of whitespace
contributes itself and one `_`; replacing a run of whitespace by another run
leaves the key as it is; and the save effect of the cooking page,
`getContinueLaterInfo` of the history page and `handleStartCooking` of the
saved-recipes page all address the slot `cookingProgress_` followed by that
key. -/
theorem c26_recipe_key_normalises_whitespace (title a b r r1 w t : Str)
    (hr : r ≠ []) (hrs : ∀ c ∈ r, isSpace c = true)
    (hr1 : r1 ≠ []) (hr1s : ∀ c ∈ r1, isSpace c = true)
    (hw : ∀ c ∈ w, isSpace c = false) (ht : ∀ c ∈ t.head?, isSpace c = false) :
    (∀ c ∈ recipeKey title, isSpace c = false) ∧
    (∀ other, title = other → recipeKey title = recipeKey other) ∧
    recipeKey w = w ∧
    recipeKey (w ++ r ++ t) = w ++ '_' :: recipeKey t ∧
    recipeKey (a ++ r ++ b) = recipeKey (a ++ r1 ++ b) ∧
    (∀ (now : Str) (s : Session) (wd : World) (rcp : RecipeData), s.recipe = some rcp →
      rcp.title = title → s.instructions ≠ [] →
      ((saveEffect now s wd).storage ("cookingProgress_".toList ++ recipeKey title)).isSome
        = true) ∧
    (∀ (st : RawStorage) (rcp : RecipeData) (p : Progress), rcp.title = title →
      st ("cookingProgress_".toList ++ recipeKey title) = some (.record p) →
      getContinueLaterInfo st rcp = some ⟨p.currentStep, p.lastLeftAt, p.lang⟩) ∧
    (∀ (st : RawStorage) (rcp : RecipeData) (lang now : Str) (br : Browser),
      rcp.title = title →
      ((handleStartCooking rcp lang false false true now st br).world.storage
        ("cookingProgress_".toList ++ recipeKey title)).isSome = true) := by
  refine ⟨replaceSpaces_no_space false title, fun other h => by rw [h],
    replaceSpaces_clean false w hw, ?_, ?_, ?_, ?_, ?_⟩
  · unfold recipeKey
    have h2 : replaceSpaces false (r ++ t) = '_' :: replaceSpaces false t := by
      rw [replaceSpaces_run false r t hr hrs,
        replaceSpaces_flag t fun c hc => ht c (by simpa using hc)]
      rfl
    cases w with
    | nil => simpa using h2
    | cons c w =>
      rw [List.append_assoc, replaceSpaces_clean_append false (c :: w) (r ++ t) hw (by simp), h2]
  · unfold recipeKey
    rw [List.append_assoc, List.append_assoc]
    exact replaceSpaces_append_run false a r r1 b hr hrs hr1 hr1s
  · intro now s wd rcp hrcp htitle hne
    have hpos : 0 < s.instructions.length := List.length_pos.mpr hne
    subst htitle
    show ((saveEffect now s wd).storage (archiveKey rcp.title)).isSome = true
    simp only [saveEffect, hrcp, hpos, if_true]
    split <;> simp [World.setItem, Storage.setItem]
  · intro st rcp p htitle hst
    subst htitle
    have hst1 : st (archiveKey rcp.title) = some (.record p) := hst
    simp [getContinueLaterInfo, hst1, Stored.parse]
  · intro st rcp lang now br htitle
    subst htitle
    show ((handleStartCooking rcp lang false false true now st br).world.storage
      (archiveKey rcp.title)).isSome = true
    have hk := currentKey_ne_archiveKey rcp.title
    simp [handleStartCooking, World.setItem, Storage.setItem, hk.symm]

/-- C26 for the title `Tomato Soup`, written with one space and with a run of
four whitespace characters. -/
theorem c26_recipe_key_normalises_whitespace_witness :
    recipeKey ("Tomato".toList ++ " ".toList ++ "Soup".toList)
      = "Tomato".toList ++ '_' :: recipeKey "Soup".toList ∧
    recipeKey ("Tomato".toList ++ " ".toList ++ "Soup".toList)
      = recipeKey ("Tomato".toList ++ " \t\n ".toList ++ "Soup".toList) :=
  ⟨(c26_recipe_key_normalises_whitespace "Tomato Soup".toList "Tomato".toList "Soup".toList
      " ".toList " \t\n ".toList "Tomato".toList "Soup".toList
      (by decide) (by decide) (by decide) (by decide) (by decide) (by decide)).2.2.2.1,
   (c26_recipe_key_normalises_whitespace "Tomato Soup".toList "Tomato".toList "Soup".toList
      " ".toList " \t\n ".toList "Tomato".toList "Soup".toList
      (by decide) (by decide) (by decide) (by decide) (by decide) (by decide)).2.2.2.2.1⟩

/-! ## The two copies on the history page -/

/-- C27: on a document whose only step is indented, `extractSections` of the
history page shows the step `1. Boil` while `getInstructions` of the same page
reads `Boil`; on a document whose nutrition block is a numbered list the card
shows two steps while `getInstructions`, which counts the steps and decides
completion, has one. -/
theorem c27_history_step_lists_differ :
    (CookHistoryPage.extractSections indentedStep "en".toList).steps = ["1. Boil".toList] ∧
    getInstructions indentedStep "en".toList = ["Boil".toList] ∧
    (CookHistoryPage.extractSections numberedNutrition "en".toList).steps.length = 2 ∧
    (getInstructions numberedNutrition "en".toList).length = 1 := by
  decide

/-- C28: `extractTitle` of the cooking page and of the saved-recipes page (the
same text) and `extractTitle` of the history page agree on the English title
of a bilingual document, but not on its Hindi title, which the history page
does not find because its pattern spells the label `**नाम:**` differently;
and on a document that opens with the marker written with a full-width colon
the history page, whose marker pattern does not accept that colon, returns the
title `Soup` in English where the other two return the fallback. -/
theorem c28_history_title_differs :
    extractTitle namedBilingual "en".toList = "Soup".toList ∧
    CookHistoryPage.extractTitle namedBilingual "en".toList = "Soup".toList ∧
    extractTitle namedBilingual "hi".toList = "सूप".toList ∧
    CookHistoryPage.extractTitle namedBilingual "hi".toList = "Untitled Recipe".toList ∧
    extractTitle wideColonNamed "en".toList = "Untitled Recipe".toList ∧
    CookHistoryPage.extractTitle wideColonNamed "en".toList = "Soup".toList := by
  decide

/-! ## The completed flag of the archive -/

theorem saveEffect_archive (now : Str) (s : Session) (w : World) (r : RecipeData)
    (hr : s.recipe = some r) (hne : s.instructions ≠ []) :
    (saveEffect now s w).storage (archiveKey r.title)
      = some { recipe := r, currentStep := s.currentStep, lang := s.lang, lastLeftAt := some now,
               completed := if s.currentStep = (s.instructions.length : Int) - 1 then some true
                 else none } := by
  have hpos : 0 < s.instructions.length := List.length_pos.mpr hne
  simp only [saveEffect, hr, hpos, if_true]
  by_cases hl : s.currentStep = (s.instructions.length : Int) - 1
  · simp [hl, World.setItem, Storage.setItem]
  · simp [hl, World.setItem, Storage.setItem]

/-- C29: when the save effect runs on a session with a recipe and a non-empty
instruction list, the record it leaves under the recipe key has
`completed = true` exactly when `currentStep` is the last index, and no
`completed` field otherwise.  So a session with one instruction on step 0 is
archived as completed, which is what the mount of a one-instruction recipe
does; and after a click on `prevStep` on the last of at least two steps the
archived record is at the step before and has no `completed` field. -/
theorem c29_archive_completed_iff_last_step (now later : Str) (s : Session) (w : World)
    (r : RecipeData) (hr : s.recipe = some r) (hne : s.instructions ≠ []) :
    (∃ p, (saveEffect now s w).storage (archiveKey r.title) = some p ∧
      (p.completed = some true ↔ s.currentStep = (s.instructions.length : Int) - 1) ∧
      (p.completed = some true ∨ p.completed = none)) ∧
    (s.instructions.length = 1 → s.currentStep = 0 →
      ∃ p, (saveEffect now s w).storage (archiveKey r.title) = some p ∧
        p.completed = some true) ∧
    (2 ≤ s.instructions.length → s.currentStep = (s.instructions.length : Int) - 1 →
      ∃ p, (click later prevStep (s, saveEffect now s w)).2.storage (archiveKey r.title)
          = some p ∧
        p.currentStep = s.currentStep - 1 ∧ p.completed = none) ∧
    ((mount "t0".toList (some ⟨some toastRecipe, some "en".toList⟩) emptyWorld).2.storage
        (archiveKey toastRecipe.title)).bind (fun p => p.completed) = some true := by
  have ha := saveEffect_archive now s w r hr hne
  refine ⟨⟨_, ha, ?_, ?_⟩, ?_, ?_, ?_⟩
  · by_cases hl : s.currentStep = (s.instructions.length : Int) - 1 <;> simp [hl]
  · by_cases hl : s.currentStep = (s.instructions.length : Int) - 1 <;> simp [hl]
  · intro h1 h0
    refine ⟨_, ha, ?_⟩
    have hl : s.currentStep = (s.instructions.length : Int) - 1 := by omega
    simp [hl]
  · intro h2 hl
    have hpos : s.currentStep > 0 := by omega
    have hne1 : ¬ (s.currentStep - 1 = s.currentStep) := by omega
    have hc : click later prevStep (s, saveEffect now s w) =
        ({ s with currentStep := s.currentStep - 1 },
          saveEffect later { s with currentStep := s.currentStep - 1 } (saveEffect now s w)) := by
      simp [click, prevStep, hpos, hne1]
    rw [hc]
    have hb := saveEffect_archive later { s with currentStep := s.currentStep - 1 }
      (saveEffect now s w) r hr hne
    refine ⟨_, hb, rfl, ?_⟩
    have hnl : ¬ (s.currentStep - 1 = (s.instructions.length : Int) - 1) := by omega
    simp [hnl]
  · decide

/-- C29 on the Tomato Soup session after its mount, on the session of a
one-instruction recipe, and on the Tomato Soup session that steps back from
its last step. -/
theorem c29_archive_completed_iff_last_step_witness :
    (∃ p, (saveEffect "t1".toList (mount "t0".toList tomatoNav emptyWorld).1 emptyWorld).storage
        (archiveKey tomatoRecipe.title) = some p ∧
      (p.completed = some true ↔
        (mount "t0".toList tomatoNav emptyWorld).1.currentStep
          = ((mount "t0".toList tomatoNav emptyWorld).1.instructions.length : Int) - 1) ∧
      (p.completed = some true ∨ p.completed = none)) ∧
    (∃ p, (saveEffect "t1".toList
          (mount "t0".toList (some ⟨some toastRecipe, some "en".toList⟩) emptyWorld).1
          emptyWorld).storage (archiveKey toastRecipe.title) = some p ∧
      p.completed = some true) ∧
    ∃ p, (click "t3".toList prevStep
          ((click "t1".toList nextStep (mount "t0".toList tomatoNav emptyWorld)).1,
            saveEffect "t2".toList
              (click "t1".toList nextStep (mount "t0".toList tomatoNav emptyWorld)).1
              emptyWorld)).2.storage (archiveKey tomatoRecipe.title) = some p ∧
      p.currentStep
        = (click "t1".toList nextStep (mount "t0".toList tomatoNav emptyWorld)).1.currentStep - 1 ∧
      p.completed = none :=
  ⟨(c29_archive_completed_iff_last_step "t1".toList "t2".toList
      (mount "t0".toList tomatoNav emptyWorld).1 emptyWorld tomatoRecipe
      (by decide) (by decide)).1,
   (c29_archive_completed_iff_last_step "t1".toList "t2".toList
      (mount "t0".toList (some ⟨some toastRecipe, some "en".toList⟩) emptyWorld).1 emptyWorld
      toastRecipe (by decide) (by decide)).2.1 (by decide) (by decide),
   (c29_archive_completed_iff_last_step "t2".toList "t3".toList
      (click "t1".toList nextStep (mount "t0".toList tomatoNav emptyWorld)).1 emptyWorld
      tomatoRecipe (by decide) (by decide)).2.2.1 (by decide) (by decide)⟩

/-! ## The unit of a duration -/

theorem durationAt_min (d s : Str) (hne : d ≠ []) (hd : ∀ c ∈ d, isDigit c = true) :
    DurationAt (d ++ " min".toList ++ s) d :=
  ⟨" ".toList, "min".toList ++ s, by simp, hne, hd, by decide,
    "min".toList, by decide, "min".toList, s, rfl, rfl⟩

theorem not_durationAt_of_head {c : Char} {x d1 : Str} (hc : isDigit c = false) :
    ¬ DurationAt (c :: x) d1 := by
  rintro ⟨w, r, h, hne, hd, -, -⟩
  cases d1 with
  | nil => exact hne rfl
  | cons a d1 =>
    simp only [List.cons_append, List.cons.injEq] at h
    have := hd a (List.mem_cons_self _ _)
    rw [← h.1, hc] at this
    exact absurd this (by simp)

theorem jsMatch1_time_after_plain (p d s : Str) (hp : ∀ c ∈ p, isDigit c = false)
    (hne : d ≠ []) (hd : ∀ c ∈ d, isDigit c = true) :
    jsMatch1 .eps (Re.plus isDigit) timeTail (p ++ d ++ " min".toList ++ s) = some d := by
  have e : p ++ d ++ " min".toList ++ s = p ++ (d ++ " min".toList ++ s) := by simp
  rw [e]
  unfold jsMatch1
  rw [search_skip _ p _ fun i hi => ?_]
  · exact search_of_head _ _ _ (captureAt_time_eq_some (durationAt_min d s hne hd))
  · rw [captureAt_time_eq_none_iff]
    intro d1
    rw [List.drop_append_of_le_length (Nat.le_of_lt hi)]
    have hdrop : p.drop i = p.get ⟨i, hi⟩ :: p.drop (i + 1) := List.drop_eq_getElem_cons hi
    rw [hdrop, List.cons_append]
    exact not_durationAt_of_head (hp _ (List.get_mem p i hi))

/-- C30, as amended: in a text `p ++ d ++ " min" ++ s`, where `p` holds no
digit and `d` is a non-empty string of digits, `extractTimeFromStep` returns
`parseInt` of `d` whatever the suffix `s` is, the unit being matched as a
prefix with no word boundary; that is the integer `d` writes whenever that
integer is at most `2 ^ 53`.  `"Add 2 mint leaves"` gives 2 and
`"Add 3 minced cloves"` gives 3. -/
theorem c30_unit_needs_no_word_boundary (p d s : Str) (hp : ∀ c ∈ p, isDigit c = false)
    (hne : d ≠ []) (hd : ∀ c ∈ d, isDigit c = true) :
    extractTimeFromStep (p ++ d ++ " min".toList ++ s) = some (parseInt d) ∧
    (decimalValue d ≤ 2 ^ 53 →
      extractTimeFromStep (p ++ d ++ " min".toList ++ s) = some (.finite (decimalValue d))) ∧
    extractTimeFromStep "Add 2 mint leaves".toList = some (.finite 2) ∧
    extractTimeFromStep "Add 3 minced cloves".toList = some (.finite 3) := by
  have h1 : extractTimeFromStep (p ++ d ++ " min".toList ++ s) = some (parseInt d) := by
    unfold extractTimeFromStep
    rw [jsMatch1_time_after_plain p d s hp hne hd]
    rfl
  refine ⟨h1, fun hle => ?_, by decide, by decide⟩
  rw [h1]
  unfold parseInt
  rw [roundToDouble_exact _ hle]

/-- C30 for the step `"Add 2 mint leaves"`, cut as `"Add "`, `"2"`, `" min"`,
`"t leaves"`. -/
theorem c30_unit_needs_no_word_boundary_witness :
    extractTimeFromStep ("Add ".toList ++ "2".toList ++ " min".toList ++ "t leaves".toList)
      = some (.finite (decimalValue "2".toList)) :=
  (c30_unit_needs_no_word_boundary "Add ".toList "2".toList "t leaves".toList
    (by decide) (by decide) (by decide)).2.1 (by decide)

/-- C30 as stated fails: in `"Rest 9007199254740993 mint"` the digits write
9007199254740993 and `extractTimeFromStep` returns 9007199254740992, the
nearest Number value. -/
theorem c30_large_count_is_rounded :
    ¬ (∀ p d s : Str, (∀ c ∈ p, isDigit c = false) → d ≠ [] → (∀ c ∈ d, isDigit c = true) →
      extractTimeFromStep (p ++ d ++ " min".toList ++ s) = some (.finite (decimalValue d))) := by
  intro h
  have h1 := h "Rest ".toList "9007199254740993".toList "t".toList
    (by decide) (by decide) (by decide)
  have h2 : extractTimeFromStep ("Rest ".toList ++ "9007199254740993".toList ++ " min".toList
      ++ "t".toList) = some (.finite 9007199254740992) := by decide
  rw [h2] at h1
  exact absurd h1 (by decide)

end Recipe
